import Mathlib

/-!
# LinAlgResearchLib: dense `Matrix<T>` and CSR `SparseMatrix<T>`

A shallow embedding of `Source/Math/Matrix.h` and `Source/Math/SparseMatrix.h`.

* `std::vector` is a `List`; `size_t` is `Nat` (every index below is bounded by the
  length of an allocated vector, so no wrap-around is reachable).
* The element type `T` is a commutative ring with decidable equality (exact arithmetic).
* A C++ exception is an `Except.error`; an unchecked `operator[]` outside the bounds of
  its vector has no defined result and is reported as `Err.undefined`.
* A `for` loop is `forLoop`; loops with `break`/`return` and the `while` loop of
  `operator+` are recursive functions whose first argument bounds the iteration count.
-/

/-- The determinant of the library (Leibniz formula) for matrices indexed by `Fin n`. -/
abbrev LeibnizDet {n : Nat} {T : Type} [CommRing T] (A : Matrix (Fin n) (Fin n) T) : T :=
  A.det

/-- Functions `Fin n → Fin n → T`, seen as a square matrix of the library. -/
abbrev SquareOf {n : Nat} {T : Type} (f : Fin n → Fin n → T) : Matrix (Fin n) (Fin n) T :=
  Matrix.of f

namespace LinAlg

/-- Outcomes other than a returned value. -/
inductive Err where
  /-- `std::out_of_range` -/
  | out_of_range
  /-- `std::invalid_argument` -/
  | invalid_argument
  /-- unchecked `std::vector::operator[]` outside the bounds: undefined behaviour -/
  | undefined
  /-- the iteration bound of a modelled loop or recursion was exhausted (never a result of
  the code; every theorem below that states a result shows it is not reached) -/
  | fuel
  deriving DecidableEq, Repr

deriving instance DecidableEq for Except

/-- Unchecked read `v[i]`. -/
def vecGet {α : Type} (v : List α) (i : Nat) : Except Err α :=
  match v[i]? with
  | some x => .ok x
  | none => .error .undefined

/-- Unchecked read-modify-write `v[i] = f(v[i])`. -/
def vecModify {α : Type} (v : List α) (i : Nat) (f : α → α) : Except Err (List α) :=
  match v[i]? with
  | some x => .ok (v.set i (f x))
  | none => .error .undefined

/-- Unchecked write `v[i] = x`. -/
def vecSet {α : Type} (v : List α) (i : Nat) (x : α) : Except Err (List α) :=
  vecModify v i (fun _ => x)

/-- Runs `body i` for `i, i+1, ..., i+k-1`, threading the state. -/
def forLoopAux {σ : Type} (body : Nat → σ → Except Err σ) : Nat → Nat → σ → Except Err σ
  | 0, _, s => .ok s
  | k + 1, i, s => (body i s).bind (fun s' => forLoopAux body k (i + 1) s')

/-- The loop `for (size_t i = lo; i < hi; i++) body`. -/
def forLoop {σ : Type} (lo hi : Nat) (body : Nat → σ → Except Err σ) (init : σ) :
    Except Err σ :=
  forLoopAux body (hi - lo) lo init

variable {T : Type} [CommRing T] [DecidableEq T]

/-! ## `Matrix<T>` -/

/-- The class `Matrix<T>`. -/
structure Matrix (T : Type) where
  m_Data : List (List T)
  m_IsSquare : Bool
  m_Rows : Nat
  m_Cols : Nat
  deriving DecidableEq, Repr

namespace Matrix

/-- `Matrix(rows, cols, initialValue)`. -/
def fill (rows cols : Nat) (initialValue : T) : Matrix T :=
  { m_Data := List.replicate rows (List.replicate cols initialValue)
    m_IsSquare := decide (rows = cols)
    m_Rows := rows
    m_Cols := cols }

/-- `Matrix(data)`; reads `data[0]` unchecked. -/
def ofData (data : List (List T)) : Except Err (Matrix T) := do
  let row0 ← vecGet data 0
  pure { m_Data := data
         m_IsSquare := decide (data.length = row0.length)
         m_Rows := data.length
         m_Cols := row0.length }

/-- `operator()(row, col) const`. -/
def get (self : Matrix T) (row col : Nat) : Except Err T :=
  if row ≥ self.m_Rows ∨ col ≥ self.m_Cols then .error .out_of_range
  else do
    let r ← vecGet self.m_Data row
    vecGet r col

/-- The mutable `operator()(row, col)`, used as `matrix(row, col) = f(matrix(row, col))`. -/
def modify (self : Matrix T) (row col : Nat) (f : T → T) : Except Err (Matrix T) :=
  if row ≥ self.m_Rows ∨ col ≥ self.m_Cols then .error .out_of_range
  else do
    let r ← vecGet self.m_Data row
    let r' ← vecModify r col f
    pure { self with m_Data := self.m_Data.set row r' }

/-- The assignment `matrix(row, col) = x`. -/
def set (self : Matrix T) (row col : Nat) (x : T) : Except Err (Matrix T) :=
  self.modify row col (fun _ => x)

/-- `Matrix::operator+`. -/
def add (self other : Matrix T) : Except Err (Matrix T) :=
  if self.m_Rows ≠ other.m_Rows ∨ self.m_Cols ≠ other.m_Cols then .error .invalid_argument
  else
    forLoop 0 self.m_Rows (fun rIdx result =>
      forLoop 0 self.m_Cols (fun cIdx result => do
        let r ← vecGet self.m_Data rIdx
        let a ← vecGet r cIdx
        let b ← other.get rIdx cIdx
        result.set rIdx cIdx (a + b)) result) (fill self.m_Rows self.m_Cols 0)

/-- `Matrix::operator*`. -/
def mul (self other : Matrix T) : Except Err (Matrix T) :=
  if self.m_Cols ≠ other.m_Rows then .error .invalid_argument
  else
    forLoop 0 self.m_Rows (fun rIdx result =>
      forLoop 0 other.m_Cols (fun cIdx result =>
        forLoop 0 self.m_Cols (fun vIdx result => do
          let r ← vecGet self.m_Data rIdx
          let a ← vecGet r vIdx
          let b ← other.get vIdx cIdx
          result.modify rIdx cIdx (fun x => x + a * b)) result) result)
      (fill self.m_Rows other.m_Cols 0)

end Matrix

/-! ## `SparseMatrix<T>` -/

/-- The class `SparseMatrix<T>`. -/
structure SparseMatrix (T : Type) where
  m_Values : List T
  m_ColsIdx : List Nat
  m_RowPtr : List Nat
  m_IsSquare : Bool
  m_Rows : Nat
  m_Cols : Nat
  deriving DecidableEq, Repr

namespace SparseMatrix

/-- `SparseMatrix(values, colsIdx, rowPtr, rows, cols)`. -/
def ofArrays (values : List T) (colsIdx rowPtr : List Nat) (rows cols : Nat) :
    SparseMatrix T :=
  { m_Values := values
    m_ColsIdx := colsIdx
    m_RowPtr := rowPtr
    m_IsSquare := decide (rows = cols)
    m_Rows := rows
    m_Cols := cols }

/-- `ConvertToCSR(matrix)`, run on the partly initialised object `self`. -/
def ConvertToCSR (self : SparseMatrix T) (matrix : Matrix T) : Except Err (SparseMatrix T) :=
  forLoop 0 self.m_Rows (fun cRow s => do
    let s ← forLoop 0 s.m_Cols (fun cCol s => do
      let x ← matrix.get cRow cCol
      if x ≠ 0 then do
        let y ← matrix.get cRow cCol
        pure { s with m_Values := s.m_Values ++ [y], m_ColsIdx := s.m_ColsIdx ++ [cCol] }
      else pure s) s
    pure { s with m_RowPtr := s.m_RowPtr ++ [s.m_Values.length] })
    { self with m_RowPtr := self.m_RowPtr ++ [0] }

/-- `SparseMatrix(matrix)`. -/
def ofMatrix (matrix : Matrix T) : Except Err (SparseMatrix T) :=
  ConvertToCSR
    { m_Values := [], m_ColsIdx := [], m_RowPtr := []
      m_IsSquare := matrix.m_IsSquare, m_Rows := matrix.m_Rows, m_Cols := matrix.m_Cols }
    matrix

/-- The scan of `operator()`: `for (cIdx = ...; cIdx < ...; cIdx++)` with its `return`. -/
def getLoop (self : SparseMatrix T) (col : Nat) : Nat → Nat → Except Err T
  | 0, _ => .ok 0
  | k + 1, cIdx => do
    let c ← vecGet self.m_ColsIdx cIdx
    if c = col then vecGet self.m_Values cIdx
    else getLoop self col k (cIdx + 1)

/-- `operator()(row, col) const`. -/
def get (self : SparseMatrix T) (row col : Nat) : Except Err T :=
  if row ≥ self.m_Rows ∨ col ≥ self.m_Cols then .error .out_of_range
  else do
    let startIdx ← vecGet self.m_RowPtr row
    let endIdx ← vecGet self.m_RowPtr (row + 1)
    getLoop self col (endIdx - startIdx) startIdx

/-- `GetStandardMatrix()`. -/
def GetStandardMatrix (self : SparseMatrix T) : Except Err (Matrix T) :=
  forLoop 0 self.m_Rows (fun cRow matrix => do
    let startIdx ← vecGet self.m_RowPtr cRow
    let endIdx ← vecGet self.m_RowPtr (cRow + 1)
    forLoop startIdx endIdx (fun cIdx matrix => do
      let c ← vecGet self.m_ColsIdx cIdx
      let v ← vecGet self.m_Values cIdx
      matrix.set cRow c v) matrix) (Matrix.fill self.m_Rows self.m_Cols 0)

/-- The inner loop of `GetTrace` with its `break`. -/
def traceLoop (self : SparseMatrix T) (cRow : Nat) : Nat → Nat → T → Except Err T
  | 0, _, trace => .ok trace
  | k + 1, cIdx, trace => do
    let c ← vecGet self.m_ColsIdx cIdx
    if c = cRow then do
      let v ← vecGet self.m_Values cIdx
      pure (trace + v)
    else traceLoop self cRow k (cIdx + 1) trace

/-- `GetTrace()`. -/
def GetTrace (self : SparseMatrix T) : Except Err T :=
  if ¬ self.m_IsSquare then .error .invalid_argument
  else
    forLoop 0 self.m_Rows (fun cRow trace => do
      let startIdx ← vecGet self.m_RowPtr cRow
      let endIdx ← vecGet self.m_RowPtr (cRow + 1)
      traceLoop self cRow (endIdx - startIdx) startIdx trace) 0

/-- The body of `DeterminantRecursive(matrix)`; the first argument bounds the depth of the
recursion (`DeterminantRecursive` below supplies `matrix.GetCols() + 1`). -/
def DeterminantRecursiveAux : Nat → Matrix T → Except Err T
  | 0, _ => .error .fuel
  | fuel + 1, matrix =>
    let n := matrix.m_Cols
    if n = 1 then matrix.get 0 0
    else if n = 2 then do
      let a ← matrix.get 0 0
      let d ← matrix.get 1 1
      let b ← matrix.get 0 1
      let c ← matrix.get 1 0
      pure (a * d - b * c)
    else
      forLoop 0 n (fun cCol det => do
        let minorMatrix ← forLoop 1 n (fun i minorMatrix => do
          let st ← forLoop 0 n (fun j st =>
            if j ≠ cCol then do
              let x ← matrix.get i j
              let row ← vecGet st.1 (i - 1)
              let row ← vecSet row st.2 x
              let minorMatrix ← vecSet st.1 (i - 1) row
              pure (minorMatrix, st.2 + 1)
            else pure st) (minorMatrix, 0)
          pure st.1) (List.replicate (n - 1) (List.replicate (n - 1) (0 : T)))
        let a ← matrix.get 0 cCol
        let minor ← Matrix.ofData minorMatrix
        let d ← DeterminantRecursiveAux fuel minor
        pure (det + (if cCol % 2 = 0 then 1 else -1) * a * d)) 0

/-- `DeterminantRecursive(matrix)`. -/
def DeterminantRecursive (matrix : Matrix T) : Except Err T :=
  DeterminantRecursiveAux (matrix.m_Cols + 1) matrix

/-- `GetDeterminant()`. -/
def GetDeterminant (self : SparseMatrix T) : Except Err T :=
  if ¬ self.m_IsSquare then .error .invalid_argument
  else do
    let matrix ← self.GetStandardMatrix
    DeterminantRecursive matrix

/-- `operator*=(scalar)`; returns the object after the update. -/
def scale (self : SparseMatrix T) (scalar : T) : Except Err (SparseMatrix T) :=
  forLoop 0 self.m_Values.length (fun cIdx s => do
    let values ← vecModify s.m_Values cIdx (fun x => x * scalar)
    pure { s with m_Values := values }) self

/-- The `while` loop of `operator+` on one row: the state is `(rValues, rColsIdx)`; the first
argument bounds the number of iterations. -/
def addLoop (self other : SparseMatrix T) (endIdx otherEndIdx : Nat) :
    Nat → Nat → Nat → List T × List Nat → Except Err (List T × List Nat)
  | 0, currentIdx, otherCurrentIdx, st =>
    if currentIdx < endIdx ∨ otherCurrentIdx < otherEndIdx then .error .fuel else .ok st
  | fuel + 1, currentIdx, otherCurrentIdx, st =>
    if currentIdx < endIdx ∨ otherCurrentIdx < otherEndIdx then do
      let first ←
        (if currentIdx < endIdx then
          if otherCurrentIdx ≥ otherEndIdx then pure true
          else do
            let c ← vecGet self.m_ColsIdx currentIdx
            let oc ← vecGet other.m_ColsIdx otherCurrentIdx
            pure (decide (c < oc))
        else pure false : Except Err Bool)
      if first then do
        let v ← vecGet self.m_Values currentIdx
        let c ← vecGet self.m_ColsIdx currentIdx
        addLoop self other endIdx otherEndIdx fuel (currentIdx + 1) otherCurrentIdx
          (st.1 ++ [v], st.2 ++ [c])
      else do
        let second ←
          (if otherCurrentIdx < otherEndIdx then
            if currentIdx ≥ endIdx then pure true
            else do
              let c ← vecGet self.m_ColsIdx currentIdx
              let oc ← vecGet other.m_ColsIdx otherCurrentIdx
              pure (decide (c > oc))
          else pure false : Except Err Bool)
        if second then do
          let v ← vecGet other.m_Values otherCurrentIdx
          let c ← vecGet other.m_ColsIdx otherCurrentIdx
          addLoop self other endIdx otherEndIdx fuel currentIdx (otherCurrentIdx + 1)
            (st.1 ++ [v], st.2 ++ [c])
        else do
          let a ← vecGet self.m_Values currentIdx
          let b ← vecGet other.m_Values otherCurrentIdx
          let c ← vecGet self.m_ColsIdx currentIdx
          addLoop self other endIdx otherEndIdx fuel (currentIdx + 1) (otherCurrentIdx + 1)
            (st.1 ++ [a + b], st.2 ++ [c])
    else .ok st

/-- `operator+(other)`. -/
def add (self other : SparseMatrix T) : Except Err (SparseMatrix T) :=
  if self.m_Cols ≠ other.m_Cols ∨ self.m_Rows ≠ other.m_Rows then .error .invalid_argument
  else do
    let r ← forLoop 0 self.m_Rows (fun cRow r => do
      let startIdx ← vecGet self.m_RowPtr cRow
      let endIdx ← vecGet self.m_RowPtr (cRow + 1)
      let otherStartIdx ← vecGet other.m_RowPtr cRow
      let otherEndIdx ← vecGet other.m_RowPtr (cRow + 1)
      let st ← addLoop self other endIdx otherEndIdx
        ((endIdx - startIdx) + (otherEndIdx - otherStartIdx)) startIdx otherStartIdx (r.1, r.2.1)
      let rRowPtr ← vecSet r.2.2 (cRow + 1) st.1.length
      pure (st.1, st.2, rRowPtr))
      (([] : List T), ([] : List Nat), List.replicate (self.m_Rows + 1) 0)
    pure (ofArrays r.1 r.2.1 r.2.2 self.m_Rows self.m_Cols)

/-- `operator*(other)`. The accumulator `rowResult` is allocated with `m_Cols` entries and
the final scan runs over `m_Cols` columns, as in the source. -/
def mul (self other : SparseMatrix T) : Except Err (SparseMatrix T) :=
  if self.m_Cols ≠ other.m_Rows then .error .invalid_argument
  else do
    let r ← forLoop 0 self.m_Rows (fun cRow r => do
      let startIdx ← vecGet self.m_RowPtr cRow
      let endIdx ← vecGet self.m_RowPtr (cRow + 1)
      let rowResult ← forLoop startIdx endIdx (fun cIdx rowResult => do
        let value ← vecGet self.m_Values cIdx
        let col ← vecGet self.m_ColsIdx cIdx
        let otherStartIdx ← vecGet other.m_RowPtr col
        let otherEndIdx ← vecGet other.m_RowPtr (col + 1)
        forLoop otherStartIdx otherEndIdx (fun otherIdx rowResult => do
          let otherCol ← vecGet other.m_ColsIdx otherIdx
          let otherValue ← vecGet other.m_Values otherIdx
          vecModify rowResult otherCol (fun x => x + value * otherValue)) rowResult)
        (List.replicate self.m_Cols (0 : T))
      let st ← forLoop 0 self.m_Cols (fun cCol st => do
        let x ← vecGet rowResult cCol
        if x ≠ 0 then pure (st.1 ++ [x], st.2 ++ [cCol]) else pure st) (r.1, r.2.1)
      let rRowPtr ← vecSet r.2.2 (cRow + 1) st.1.length
      pure (st.1, st.2, rRowPtr))
      (([] : List T), ([] : List Nat), List.replicate (self.m_Rows + 1) 0)
    pure (ofArrays r.1 r.2.1 r.2.2 self.m_Rows other.m_Cols)

end SparseMatrix

/-! ## Specification-level notions -/

/-- A list of rows is an `n × m` grid: `n` rows, each of length `m`. -/
def Rect {α : Type} (n m : Nat) (d : List (List α)) : Prop :=
  d.length = n ∧ ∀ row ∈ d, row.length = m

instance {α : Type} (n m : Nat) (d : List (List α)) : Decidable (Rect n m d) := by
  unfold Rect; infer_instance

/-- Entry `(r, c)` of a grid, `0` where the grid has no such entry. -/
def gridGet (d : List (List T)) (r c : Nat) : T := (d.getD r []).getD c 0

/-- The grid whose entry `(r, c)` is `f r c`. -/
def grid (n m : Nat) (f : Nat → Nat → T) : List (List T) :=
  (List.range n).map (fun r => (List.range m).map (f r))

/-- Entry `(r, c)` of a dense matrix (`0` outside the stored data). -/
def Matrix.entry (M : Matrix T) (r c : Nat) : T := gridGet M.m_Data r c

/-- The data-model invariant of `Matrix<T>`: `m_Data` has `m_Rows` rows of `m_Cols` elements
each and `m_IsSquare` records `m_Rows == m_Cols`. Both constructors establish it (the one
from literal data when the data is rectangular). -/
def Matrix.WellFormed (M : Matrix T) : Prop :=
  Rect M.m_Rows M.m_Cols M.m_Data ∧ M.m_IsSquare = decide (M.m_Rows = M.m_Cols)

instance (M : Matrix T) : Decidable M.WellFormed := by
  unfold Matrix.WellFormed; infer_instance

/-- The well-formed `n × m` dense matrix whose entry `(r, c)` is `f r c`. -/
def Matrix.tabulate (n m : Nat) (f : Nat → Nat → T) : Matrix T :=
  { m_Data := grid n m f, m_IsSquare := decide (n = m), m_Rows := n, m_Cols := m }

/-- A well-formed dense matrix of shape `n × m`. -/
def Matrix.Shaped (n m : Nat) (M : Matrix T) : Prop :=
  M.WellFormed ∧ M.m_Rows = n ∧ M.m_Cols = m

instance (n m : Nat) (M : Matrix T) : Decidable (M.Shaped n m) := by
  unfold Matrix.Shaped; infer_instance

/-- The CSR format invariant of §3 of the specification: `row_ptr` has `rows + 1` entries,
starts at `0`, is non-decreasing and ends at `values.size() == col_idx.size()`; within
each row segment `[row_ptr[r], row_ptr[r+1])` the column indices are less than `cols` and
strictly increasing. -/
def SparseMatrix.CSRInvariant (S : SparseMatrix T) : Prop :=
  S.m_RowPtr.length = S.m_Rows + 1 ∧
  S.m_RowPtr.getD 0 0 = 0 ∧
  (∀ r < S.m_Rows, S.m_RowPtr.getD r 0 ≤ S.m_RowPtr.getD (r + 1) 0) ∧
  S.m_RowPtr.getD S.m_Rows 0 = S.m_Values.length ∧
  S.m_ColsIdx.length = S.m_Values.length ∧
  (∀ r < S.m_Rows, ∀ i < S.m_RowPtr.getD (r + 1) 0, S.m_RowPtr.getD r 0 ≤ i →
    S.m_ColsIdx.getD i 0 < S.m_Cols ∧
    (i + 1 < S.m_RowPtr.getD (r + 1) 0 → S.m_ColsIdx.getD i 0 < S.m_ColsIdx.getD (i + 1) 0))

instance (S : SparseMatrix T) : Decidable S.CSRInvariant := by
  unfold SparseMatrix.CSRInvariant; infer_instance

/-- Number of entries stored in the first `k` rows of a list of rows. -/
def rowsOffset (rs : List (List (Nat × T))) (k : Nat) : Nat := (rs.take k).flatten.length

/-- The arrays of `S` are the CSR encoding of the rows `rs`, each row a list of
`(column, value)` entries: `values` and `col_idx` list the entries row after row and
`row_ptr[k]` counts the entries of the first `k` rows. -/
def SparseMatrix.Represents (S : SparseMatrix T) (rs : List (List (Nat × T))) : Prop :=
  S.m_Rows = rs.length ∧
  S.m_Values = rs.flatten.map Prod.snd ∧
  S.m_ColsIdx = rs.flatten.map Prod.fst ∧
  S.m_RowPtr = (List.range (rs.length + 1)).map (rowsOffset rs)

/-- The entries `l` of `S` start at index `i` of `col_idx`/`values`. -/
def SegAt (S : SparseMatrix T) (i : Nat) (l : List (Nat × T)) : Prop :=
  ∀ j p, l[j]? = some p → S.m_ColsIdx[i + j]? = some p.1 ∧ S.m_Values[i + j]? = some p.2

/-- Row `r` of a sparse matrix: the entries of the segment `[row_ptr[r], row_ptr[r+1])`. -/
def SparseMatrix.rowEntries (S : SparseMatrix T) (r : Nat) : List (Nat × T) :=
  ((S.m_ColsIdx.zip S.m_Values).drop (S.m_RowPtr.getD r 0)).take
    (S.m_RowPtr.getD (r + 1) 0 - S.m_RowPtr.getD r 0)

/-- The rows of a sparse matrix. -/
def SparseMatrix.rowsList (S : SparseMatrix T) : List (List (Nat × T)) :=
  (List.range S.m_Rows).map S.rowEntries

/-- The value of the first entry of a row at column `c`, `0` when there is none. -/
def rowLookup : List (Nat × T) → Nat → T
  | [], _ => 0
  | p :: l, c => if p.1 = c then p.2 else rowLookup l c

/-- The value of the last entry of a row at column `c`, `0` when there is none. -/
def rowDense (l : List (Nat × T)) (c : Nat) : T :=
  l.foldl (fun acc p => if p.1 = c then p.2 else acc) 0

/-- The columns of a row are strictly increasing. -/
def RowSorted (l : List (Nat × T)) : Prop := List.Pairwise (fun a b => a < b) (l.map Prod.fst)

/-- The entries `(c, f c)` with `f c ≠ 0` for the columns `c < j`, in increasing order. -/
def nzOfFn (f : Nat → T) (j : Nat) : List (Nat × T) :=
  ((List.range j).filter (fun c => decide (f c ≠ 0))).map (fun c => (c, f c))

/-- The non-zero entries of row `r` of a dense matrix among its first `j` columns. -/
def nzRowUpTo (M : Matrix T) (r j : Nat) : List (Nat × T) := nzOfFn (M.entry r) j

/-- The non-zero entries of row `r` of a dense matrix. -/
def nzRow (M : Matrix T) (r : Nat) : List (Nat × T) := nzRowUpTo M r M.m_Cols

/-- The rows of non-zero entries of a dense matrix. -/
def nzRows (M : Matrix T) : List (List (Nat × T)) := (List.range M.m_Rows).map (nzRow M)

/-- The CSR encoding of a list of rows. -/
def SparseMatrix.encode (rs : List (List (Nat × T))) (isSquare : Bool) (cols : Nat) :
    SparseMatrix T :=
  { m_Values := rs.flatten.map Prod.snd
    m_ColsIdx := rs.flatten.map Prod.fst
    m_RowPtr := (List.range (rs.length + 1)).map (rowsOffset rs)
    m_IsSquare := isSquare
    m_Rows := rs.length
    m_Cols := cols }

/-- The two-pointer merge of `operator+` on two rows. -/
def mergeRow : List (Nat × T) → List (Nat × T) → List (Nat × T)
  | [], b => b
  | p :: a, [] => p :: a
  | p :: a, q :: b =>
    if p.1 < q.1 then p :: mergeRow a (q :: b)
    else if p.1 > q.1 then q :: mergeRow (p :: a) b
    else (p.1, p.2 + q.2) :: mergeRow a b
termination_by a b => a.length + b.length

/-- One update `rowResult[q.1] += value * q.2` of the accumulator of `operator*`. -/
def accStep (value : T) (acc : List T) (q : Nat × T) : List T :=
  acc.set q.1 (acc.getD q.1 0 + value * q.2)

/-- The updates of the accumulator of `operator*` for one entry `p` of the left row: one
update for every entry of row `p.1` of the right operand. -/
def accEntry (ys : List (List (Nat × T))) (acc : List T) (p : Nat × T) : List T :=
  (ys.getD p.1 []).foldl (accStep p.2) acc

/-- The accumulator of `operator*`, of length `k`, after the entries of a left row. -/
def accRow (ys : List (List (Nat × T))) (k : Nat) (xrow : List (Nat × T)) : List T :=
  xrow.foldl (accEntry ys) (List.replicate k 0)

/-- The rows that `operator*` emits with an accumulator of length `k`: the non-zero
entries of the accumulator of each left row. -/
def mulRows (xs ys : List (List (Nat × T))) (k : Nat) : List (List (Nat × T)) :=
  xs.map (fun xrow => nzOfFn (fun c => (accRow ys k xrow).getD c 0) k)

/-- The sum of the values of the entries of a row at column `c`. -/
def colSum (l : List (Nat × T)) (c : Nat) : T :=
  (l.map (fun q => if q.1 = c then q.2 else 0)).sum

/-- A computation whose only possible failure is an unchecked access outside a vector. -/
def OnlyUndefined {α : Type} (x : Except Err α) : Prop :=
  ∀ e, x = .error e → e = .undefined

/-- Invariant of the row loops of `operator+` and `operator*` after `i` rows, for the
rows `zs` they produce: the state `(rValues, rColsIdx, rRowPtr)` lists the entries of the
first `i` rows and `rRowPtr` holds their offsets, zero beyond. -/
def RowsInv (zs : List (List (Nat × T))) (i : Nat) (r : List T × List Nat × List Nat) : Prop :=
  r.1 = (zs.take i).flatten.map Prod.snd ∧
  r.2.1 = (zs.take i).flatten.map Prod.fst ∧
  r.2.2 = (List.range (zs.length + 1)).map (fun k => if k ≤ i then rowsOffset zs k else 0)

/-- The determinant (Leibniz formula, as defined in the library) of the `n × n` matrix
with entries `f i j`. -/
def detOf (n : Nat) (f : Nat → Nat → T) : T :=
  LeibnizDet (SquareOf (fun (i j : Fin n) => f i.val j.val))

/-- Column `j` of a minor that omits column `k` is column `skipCol k j` of the matrix. -/
def skipCol (k j : Nat) : Nat := if j < k then j else j + 1

/-- A row with every value multiplied by `k`. -/
def scaleRow (k : T) (row : List (Nat × T)) : List (Nat × T) :=
  row.map (fun p => (p.1, p.2 * k))

/-- The object after `operator*=(k)`: every stored value multiplied by `k`, nothing else
changed. -/
def SparseMatrix.scaled (S : SparseMatrix T) (k : T) : SparseMatrix T :=
  { S with m_Values := S.m_Values.map (fun x => x * k) }

/-- A computation that does not end in the invalid-argument error. -/
def NotInvalid {α : Type} (x : Except Err α) : Prop := x ≠ .error .invalid_argument

/-! ## Example inputs (integer matrices of the test suite and two small operands) -/

/-- The matrix `[[5,0,0],[0,8,0],[3,0,6]]` of `TestConvertToCSR`. -/
def exampleD : Matrix Int :=
  { m_Data := [[5, 0, 0], [0, 8, 0], [3, 0, 6]], m_IsSquare := true, m_Rows := 3, m_Cols := 3 }

/-- The first operand `[[1,2,3],[4,5,6],[7,8,9]]` of `TestMatrixAddition`. -/
def exampleA : Matrix Int :=
  { m_Data := [[1, 2, 3], [4, 5, 6], [7, 8, 9]], m_IsSquare := true, m_Rows := 3, m_Cols := 3 }

/-- The second operand `[[9,8,7],[6,5,4],[3,2,1]]` of `TestMatrixAddition`. -/
def exampleB : Matrix Int :=
  { m_Data := [[9, 8, 7], [6, 5, 4], [3, 2, 1]], m_IsSquare := true, m_Rows := 3, m_Cols := 3 }

/-- The matrix `[[2,3,1],[4,1,3],[3,2,4]]` of `TestGetDeterminant`. -/
def exampleE : Matrix Int :=
  { m_Data := [[2, 3, 1], [4, 1, 3], [3, 2, 4]], m_IsSquare := true, m_Rows := 3, m_Cols := 3 }

/-- The `1 × 1` dense matrix `[[1]]`. -/
def narrowA : Matrix Int :=
  { m_Data := [[1]], m_IsSquare := true, m_Rows := 1, m_Cols := 1 }

/-- The `1 × 2` dense matrix `[[0, 1]]`. -/
def wideB : Matrix Int :=
  { m_Data := [[0, 1]], m_IsSquare := false, m_Rows := 1, m_Cols := 2 }

/-- The CSR form of `[[1]]`, built from raw arrays. -/
def narrowX : SparseMatrix Int := SparseMatrix.ofArrays [1] [0] [0, 1] 1 1

/-- The CSR form of `[[0, 1]]`, built from raw arrays. -/
def wideY : SparseMatrix Int := SparseMatrix.ofArrays [1] [1] [0, 1] 1 2

/-- The CSR form of `[[0, 2], [3, 0]]`, built from raw arrays. -/
def squareX : SparseMatrix Int := SparseMatrix.ofArrays [2, 3] [1, 0] [0, 1, 2] 2 2

/-- The CSR form of `[[1, 4], [0, 5]]`, built from raw arrays. -/
def squareY : SparseMatrix Int := SparseMatrix.ofArrays [1, 4, 5] [0, 1, 1] [0, 2, 3] 2 2

/-- The matrix `diag(1, 2, 3)` of `TestScalarMultiplication` in CSR form. -/
def diagS : SparseMatrix Int := SparseMatrix.ofArrays [1, 2, 3] [0, 1, 2] [0, 1, 2, 3] 3 3

/-- The matrix `diag(1, 2, 3)` in CSR form, over the rationals. -/
def diagQ : SparseMatrix ℚ := SparseMatrix.ofArrays [1, 2, 3] [0, 1, 2] [0, 1, 2, 3] 3 3

/-- The negative of `exampleB`. -/
def exampleNegB : Matrix Int :=
  { m_Data := [[-9, -8, -7], [-6, -5, -4], [-3, -2, -1]], m_IsSquare := true, m_Rows := 3,
    m_Cols := 3 }

/-- The `1 × 1` dense matrix `[[-1]]`. -/
def negA : Matrix Int :=
  { m_Data := [[-1]], m_IsSquare := true, m_Rows := 1, m_Cols := 1 }

/-- The CSR form of `[[2, 0], [0, 3]]`, built from raw arrays. -/
def diagX : SparseMatrix Int := SparseMatrix.ofArrays [2, 3] [0, 1] [0, 1, 2] 2 2

/-- The CSR form of the `2 × 3` matrix `[[1, 0, 4], [0, 1, 0]]`, built from raw arrays. -/
def wideY3 : SparseMatrix Int := SparseMatrix.ofArrays [1, 4, 1] [0, 2, 1] [0, 2, 3] 2 3

/-- The CSR form of the `2 × 1` matrix `[[1], [2]]`, built from raw arrays. -/
def columnX : SparseMatrix Int := SparseMatrix.ofArrays [1, 2] [0, 0] [0, 1, 2] 2 1

/-- The CSR form of the `1 × 3` matrix `[[5, 0, 7]]`, built from raw arrays. -/
def rowY : SparseMatrix Int := SparseMatrix.ofArrays [5, 7] [0, 2] [0, 2] 1 3

/-- Raw arrays with column `0` stored twice in the only row of a `1 × 1` matrix. -/
def duplicateS : SparseMatrix Int := SparseMatrix.ofArrays [1, 2] [0, 0] [0, 2] 1 1

set_option linter.unusedSectionVars false
set_option linter.unusedVariables false

/-! ## Basic facts about the monad, vectors and loops -/

@[simp] theorem bind_ok_eq {α β : Type} (a : α) (f : α → Except Err β) :
    (Except.ok a >>= f) = f a := rfl

@[simp] theorem bind_error_eq {α β : Type} (e : Err) (f : α → Except Err β) :
    ((Except.error e : Except Err α) >>= f) = Except.error e := rfl

@[simp] theorem exceptBind_ok_eq {α β : Type} (a : α) (f : α → Except Err β) :
    (Except.ok a : Except Err α).bind f = f a := rfl

@[simp] theorem exceptBind_error_eq {α β : Type} (e : Err) (f : α → Except Err β) :
    (Except.error e : Except Err α).bind f = Except.error e := rfl

@[simp] theorem pure_eq_ok {α : Type} (a : α) : (pure a : Except Err α) = Except.ok a := rfl

theorem vecGet_of_getElem? {α : Type} {v : List α} {i : Nat} {x : α} (h : v[i]? = some x) :
    vecGet v i = .ok x := by
  simp [vecGet, h]

theorem vecGet_of_lt {α : Type} {v : List α} {i : Nat} (h : i < v.length) :
    vecGet v i = .ok v[i] := by
  simp [vecGet, h]

theorem vecGet_of_le {α : Type} {v : List α} {i : Nat} (h : v.length ≤ i) :
    vecGet v i = .error .undefined := by
  simp [vecGet, List.getElem?_eq_none h]

theorem vecModify_of_getElem? {α : Type} {v : List α} {i : Nat} {x : α} (f : α → α)
    (h : v[i]? = some x) : vecModify v i f = .ok (v.set i (f x)) := by
  simp [vecModify, h]

theorem vecSet_of_lt {α : Type} {v : List α} {i : Nat} (x : α) (h : i < v.length) :
    vecSet v i x = .ok (v.set i x) := by
  simp [vecSet, vecModify, h]

/-- Hoare rule for `forLoopAux`. -/
theorem forLoopAux_inv {σ : Type} (body : Nat → σ → Except Err σ) (P : Nat → σ → Prop) :
    ∀ (k i : Nat) (s : σ), P i s →
      (∀ j s, i ≤ j → j < i + k → P j s → ∃ s', body j s = .ok s' ∧ P (j + 1) s') →
      ∃ s', forLoopAux body k i s = .ok s' ∧ P (i + k) s' := by
  intro k
  induction k with
  | zero => intro i s h _; exact ⟨s, rfl, h⟩
  | succ k ih =>
    intro i s h hstep
    obtain ⟨s1, h1, hP1⟩ := hstep i s (Nat.le_refl _) (by omega) h
    obtain ⟨s2, h2, hP2⟩ := ih (i + 1) s1 hP1
      (fun j s hj hj' hP => hstep j s (by omega) (by omega) hP)
    refine ⟨s2, ?_, ?_⟩
    · simp [forLoopAux, h1, h2]
    · have : i + (k + 1) = i + 1 + k := by omega
      rw [this]; exact hP2

/-- Hoare rule for `forLoop`: an invariant that holds at `lo` and is carried by every
iteration holds at `hi`, and the loop returns. -/
theorem forLoop_inv {σ : Type} (P : Nat → σ → Prop) {lo hi : Nat} (hle : lo ≤ hi)
    {b : Nat → σ → Except Err σ} {a : σ} (h0 : P lo a)
    (hstep : ∀ j s, lo ≤ j → j < hi → P j s → ∃ s', b j s = .ok s' ∧ P (j + 1) s') :
    ∃ s', forLoop lo hi b a = .ok s' ∧ P hi s' := by
  have := forLoopAux_inv b P (hi - lo) lo a h0
    (fun j s hj hj' hP => hstep j s hj (by omega) hP)
  have e : lo + (hi - lo) = hi := by omega
  rw [e] at this
  exact this

/-! ## Grids -/

theorem gridGet_of_getElem? {d : List (List T)} {r c : Nat} {w : List T} {x : T}
    (hr : d[r]? = some w) (hc : w[c]? = some x) : gridGet d r c = x := by
  simp [gridGet, hr, hc]

theorem Rect.row_length {α : Type} {n m : Nat} {d : List (List α)} (h : Rect n m d) {r : Nat}
    {row : List α} (hr : d[r]? = some row) : row.length = m := by
  rcases List.getElem?_eq_some.1 hr with ⟨hlt, he⟩
  exact h.2 row (he ▸ List.getElem_mem hlt)

theorem Rect.getElem?_row {α : Type} {n m : Nat} {d : List (List α)} (h : Rect n m d) {r : Nat}
    (hr : r < n) : ∃ row, d[r]? = some row ∧ row.length = m := by
  have hlt : r < d.length := by rw [h.1]; exact hr
  exact ⟨d[r], List.getElem?_eq_getElem hlt, h.row_length (List.getElem?_eq_getElem hlt)⟩

theorem Rect.replicate {α : Type} (n m : Nat) (x : α) :
    Rect n m (List.replicate n (List.replicate m x)) := by
  refine ⟨by simp, ?_⟩
  intro row hrow
  rw [List.mem_replicate] at hrow
  rw [hrow.2]; simp

theorem gridGet_replicate (n m : Nat) (x : T) {r c : Nat} (hr : r < n) (hc : c < m) :
    gridGet (List.replicate n (List.replicate m x)) r c = x := by
  apply gridGet_of_getElem? (w := List.replicate m x) <;> simp [hr, hc]

theorem Rect.grid (n m : Nat) (f : Nat → Nat → T) : Rect n m (grid n m f) := by
  refine ⟨by simp [LinAlg.grid], ?_⟩
  intro row hrow
  simp only [LinAlg.grid, List.mem_map] at hrow
  obtain ⟨r, _, rfl⟩ := hrow
  simp

theorem gridGet_grid (n m : Nat) (f : Nat → Nat → T) {r c : Nat} (hr : r < n) (hc : c < m) :
    gridGet (grid n m f) r c = f r c := by
  apply gridGet_of_getElem? (w := (List.range m).map (f r))
  · simp [LinAlg.grid, List.getElem?_range hr]
  · simp [List.getElem?_range hc]

/-- Two grids of the same shape with the same entries are equal. -/
theorem Rect.ext {n m : Nat} {d d' : List (List T)} (h : Rect n m d) (h' : Rect n m d')
    (he : ∀ r c, r < n → c < m → gridGet d r c = gridGet d' r c) : d = d' := by
  apply List.ext_getElem (by rw [h.1, h'.1])
  intro r hr hr'
  have hrn : r < n := by rw [← h.1]; exact hr
  have e1 : d[r]? = some d[r] := List.getElem?_eq_getElem hr
  have e2 : d'[r]? = some d'[r] := List.getElem?_eq_getElem hr'
  have l1 := h.row_length e1
  have l2 := h'.row_length e2
  apply List.ext_getElem (by rw [l1, l2])
  intro c hc hc'
  have hcm : c < m := by rw [← l1]; exact hc
  have := he r c hrn hcm
  rw [gridGet_of_getElem? e1 (List.getElem?_eq_getElem hc),
    gridGet_of_getElem? e2 (List.getElem?_eq_getElem hc')] at this
  exact this

/-- Writing one entry of a grid keeps the shape and changes that entry only. -/
theorem Rect.set_entry {n m : Nat} {d : List (List T)} (h : Rect n m d) {r c : Nat}
    {row : List T} (hr : d[r]? = some row) (hc : c < m) (x : T) :
    Rect n m (d.set r (row.set c x)) ∧
      ∀ r' c', gridGet (d.set r (row.set c x)) r' c' =
        if r' = r ∧ c' = c then x else gridGet d r' c' := by
  have hlen := h.row_length hr
  have hrlt : r < d.length := by
    rcases List.getElem?_eq_some.1 hr with ⟨hlt, _⟩; exact hlt
  constructor
  · refine ⟨by rw [List.length_set]; exact h.1, ?_⟩
    intro row' hrow'
    rcases List.mem_or_eq_of_mem_set hrow' with hm | he
    · exact h.2 row' hm
    · rw [he, List.length_set]; exact hlen
  · intro r' c'
    by_cases hrr : r' = r
    · subst hrr
      by_cases hcc : c' = c
      · subst hcc
        simp only [and_self, if_true]
        apply gridGet_of_getElem? (w := row.set c' x)
        · simp [hrlt]
        · simp [hlen, hc]
      · simp only [hcc, and_false, if_false]
        simp only [gridGet, List.getD_eq_getElem?_getD, hr]
        rw [List.getElem?_set_self hrlt]
        simp only [Option.getD_some]
        rw [List.getElem?_set_ne (Ne.symm hcc)]
    · simp only [hrr, false_and, if_false]
      simp only [gridGet, List.getD_eq_getElem?_getD]
      rw [List.getElem?_set_ne (Ne.symm hrr)]

/-! ## Dense matrices -/

theorem Matrix.get_spec {M : Matrix T} (hW : M.WellFormed) {r c : Nat} (hr : r < M.m_Rows)
    (hc : c < M.m_Cols) : M.get r c = .ok (M.entry r c) := by
  obtain ⟨row, hrow, hlen⟩ := hW.1.getElem?_row hr
  have hcl : c < row.length := by rw [hlen]; exact hc
  have hx : row[c]? = some row[c] := List.getElem?_eq_getElem hcl
  have hn : ¬ (r ≥ M.m_Rows ∨ c ≥ M.m_Cols) := by omega
  simp only [Matrix.get, hn, if_false, vecGet_of_getElem? hrow, bind_ok_eq,
    vecGet_of_getElem? hx, Matrix.entry, gridGet_of_getElem? hrow hx]

theorem Matrix.modify_spec {M : Matrix T} (hW : M.WellFormed) {r c : Nat} (hr : r < M.m_Rows)
    (hc : c < M.m_Cols) (f : T → T) :
    ∃ M', M.modify r c f = .ok M' ∧ M'.Shaped M.m_Rows M.m_Cols ∧
      ∀ r' c', M'.entry r' c' = if r' = r ∧ c' = c then f (M.entry r c) else M.entry r' c' := by
  obtain ⟨row, hrow, hlen⟩ := hW.1.getElem?_row hr
  have hcl : c < row.length := by rw [hlen]; exact hc
  have hx : row[c]? = some row[c] := List.getElem?_eq_getElem hcl
  have hn : ¬ (r ≥ M.m_Rows ∨ c ≥ M.m_Cols) := by omega
  have hS := hW.1.set_entry hrow hc (f row[c])
  refine ⟨{ M with m_Data := M.m_Data.set r (row.set c (f row[c])) }, ?_, ?_, ?_⟩
  · simp only [Matrix.modify, hn, if_false, vecGet_of_getElem? hrow, bind_ok_eq,
      vecModify_of_getElem? f hx, pure_eq_ok]
  · exact ⟨⟨hS.1, hW.2⟩, rfl, rfl⟩
  · intro r' c'
    simp only [Matrix.entry]
    rw [hS.2 r' c', gridGet_of_getElem? hrow hx]

theorem Matrix.set_spec {M : Matrix T} (hW : M.WellFormed) {r c : Nat} (hr : r < M.m_Rows)
    (hc : c < M.m_Cols) (x : T) :
    ∃ M', M.set r c x = .ok M' ∧ M'.Shaped M.m_Rows M.m_Cols ∧
      ∀ r' c', M'.entry r' c' = if r' = r ∧ c' = c then x else M.entry r' c' :=
  Matrix.modify_spec hW hr hc (fun _ => x)

/-- Well-formed dense matrices of the same shape with the same entries are equal. -/
theorem Matrix.ext_entry {n m : Nat} {M M' : Matrix T} (h : M.Shaped n m) (h' : M'.Shaped n m)
    (he : ∀ r c, r < n → c < m → M.entry r c = M'.entry r c) : M = M' := by
  obtain ⟨⟨hR, hS⟩, hr, hc⟩ := h
  obtain ⟨⟨hR', hS'⟩, hr', hc'⟩ := h'
  cases M with
  | mk d sq rows cols =>
    cases M' with
    | mk d' sq' rows' cols' =>
      simp only at hR hS hr hc hR' hS' hr' hc'
      subst hr hc hr' hc'
      have hd : d = d' := Rect.ext hR hR' he
      subst hd
      rw [hS, hS']

theorem Matrix.tabulate_shaped (n m : Nat) (f : Nat → Nat → T) :
    (Matrix.tabulate n m f).Shaped n m :=
  ⟨⟨Rect.grid n m f, rfl⟩, rfl, rfl⟩

theorem Matrix.tabulate_entry (n m : Nat) (f : Nat → Nat → T) {r c : Nat} (hr : r < n)
    (hc : c < m) : (Matrix.tabulate n m f).entry r c = f r c :=
  gridGet_grid n m f hr hc

theorem Matrix.fill_shaped (n m : Nat) (x : T) : (Matrix.fill n m x).Shaped n m :=
  ⟨⟨Rect.replicate n m x, rfl⟩, rfl, rfl⟩

theorem Matrix.fill_entry (n m : Nat) (x : T) {r c : Nat} (hr : r < n) (hc : c < m) :
    (Matrix.fill n m x).entry r c = x :=
  gridGet_replicate n m x hr hc

/-- Every well-formed dense matrix is the tabulation of its entries. -/
theorem Matrix.eq_tabulate {n m : Nat} {M : Matrix T} (h : M.Shaped n m) :
    M = Matrix.tabulate n m M.entry :=
  Matrix.ext_entry h (Matrix.tabulate_shaped n m _)
    (fun r c hr hc => (Matrix.tabulate_entry n m _ hr hc).symm)

/-- `Matrix::operator+` on well-formed operands of one shape: the element-wise sum. -/
theorem Matrix.add_spec {n m : Nat} {A B : Matrix T} (hA : A.Shaped n m) (hB : B.Shaped n m) :
    A.add B = .ok (Matrix.tabulate n m (fun r c => A.entry r c + B.entry r c)) := by
  obtain ⟨hAW, hAr, hAc⟩ := hA
  obtain ⟨hBW, hBr, hBc⟩ := hB
  have hn : ¬ (n ≠ B.m_Rows ∨ m ≠ B.m_Cols) := by omega
  simp only [Matrix.add, hAr, hAc, hn, if_false]
  obtain ⟨R, hR, hRS, hRe⟩ := forLoop_inv
    (fun i (M : Matrix T) => M.Shaped n m ∧ ∀ r c, r < n → c < m →
      M.entry r c = if r < i then A.entry r c + B.entry r c else 0)
    (Nat.zero_le n)
    (b := fun rIdx result =>
      forLoop 0 m (fun cIdx result => do
        let r ← vecGet A.m_Data rIdx
        let a ← vecGet r cIdx
        let b ← B.get rIdx cIdx
        result.set rIdx cIdx (a + b)) result)
    (a := Matrix.fill n m 0)
    ⟨Matrix.fill_shaped n m 0, fun r c hr hc => by
      simp [Matrix.fill_entry n m (0 : T) hr hc]⟩
    (by
      intro i M _ hi ⟨hMS, hMe⟩
      obtain ⟨M', hM', hM'S, hM'e⟩ := forLoop_inv
        (fun j (M : Matrix T) => M.Shaped n m ∧ ∀ r c, r < n → c < m →
          M.entry r c = if r < i ∨ (r = i ∧ c < j) then A.entry r c + B.entry r c else 0)
        (Nat.zero_le m)
        (b := fun cIdx result => do
          let r ← vecGet A.m_Data i
          let a ← vecGet r cIdx
          let b ← B.get i cIdx
          result.set i cIdx (a + b))
        (a := M)
        ⟨hMS, fun r c hr hc => by
          rw [hMe r c hr hc]; simp⟩
        (by
          intro j M2 _ hj ⟨hM2S, hM2e⟩
          obtain ⟨row, hrow, hlen⟩ := hAW.1.getElem?_row (r := i) (by omega)
          have hcl : j < row.length := by rw [hlen, hAc]; exact hj
          have hx : row[j]? = some row[j] := List.getElem?_eq_getElem hcl
          have hAe : A.entry i j = row[j] := gridGet_of_getElem? hrow hx
          obtain ⟨M3, hM3, hM3S, hM3e⟩ := Matrix.set_spec hM2S.1 (r := i) (c := j)
            (by rw [hM2S.2.1]; exact hi) (by rw [hM2S.2.2]; exact hj) (row[j] + B.entry i j)
          refine ⟨M3, ?_, ?_, ?_⟩
          · simp only [vecGet_of_getElem? hrow, bind_ok_eq, vecGet_of_getElem? hx,
              Matrix.get_spec hBW (r := i) (c := j) (by omega) (by omega), hM3]
          · rw [hM2S.2.1, hM2S.2.2] at hM3S; exact hM3S
          · intro r c hr hc
            rw [hM3e r c, hM2e r c hr hc]
            by_cases h1 : r = i ∧ c = j
            · obtain ⟨rfl, rfl⟩ := h1
              simp [hAe]
            · simp only [h1, if_false]
              have : (r < i ∨ r = i ∧ c < j + 1) ↔ (r < i ∨ r = i ∧ c < j) := by omega
              simp only [this])
      refine ⟨M', hM', hM'S, ?_⟩
      intro r c hr hc
      rw [hM'e r c hr hc]
      have : (r < i ∨ r = i ∧ c < m) ↔ r < i + 1 := by omega
      simp only [this])
  rw [hR]
  congr 1
  apply Matrix.ext_entry hRS (Matrix.tabulate_shaped n m _)
  intro r c hr hc
  rw [hRe r c hr hc, Matrix.tabulate_entry n m _ hr hc]
  simp [hr]

/-! ## Rows and their CSR encoding -/

theorem rowsOffset_zero (rs : List (List (Nat × T))) : rowsOffset rs 0 = 0 := by
  simp [rowsOffset]

theorem take_succ_of_getElem? {α : Type} {l : List α} {k : Nat} {x : α} (h : l[k]? = some x) :
    l.take (k + 1) = l.take k ++ [x] := by
  rw [List.take_succ, h]; rfl

theorem rowsOffset_succ {rs : List (List (Nat × T))} {k : Nat} {row : List (Nat × T)}
    (h : rs[k]? = some row) : rowsOffset rs (k + 1) = rowsOffset rs k + row.length := by
  simp [rowsOffset, take_succ_of_getElem? h]

theorem rowsOffset_length (rs : List (List (Nat × T))) :
    rowsOffset rs rs.length = rs.flatten.length := by
  simp [rowsOffset]

theorem flatten_take_succ {rs : List (List (Nat × T))} {k : Nat} {row : List (Nat × T)}
    (h : rs[k]? = some row) : (rs.take (k + 1)).flatten = (rs.take k).flatten ++ row := by
  simp [take_succ_of_getElem? h]

/-- Entry `j` of row `k` sits at position `rowsOffset rs k + j` of the flattened rows. -/
theorem flatten_getElem? : ∀ (rs : List (List (Nat × T))) (k j : Nat) (row : List (Nat × T)),
    rs[k]? = some row → j < row.length → rs.flatten[rowsOffset rs k + j]? = row[j]? := by
  intro rs
  induction rs with
  | nil => intro k j row h; simp at h
  | cons r rs ih =>
    intro k j row h hj
    cases k with
    | zero =>
      simp only [List.getElem?_cons_zero, Option.some.injEq] at h
      subst h
      simp only [rowsOffset, List.take_zero, List.flatten_nil, List.length_nil, Nat.zero_add,
        List.flatten_cons]
      exact List.getElem?_append_left hj
    | succ k =>
      simp only [List.getElem?_cons_succ] at h
      have := ih k j row h hj
      simp only [rowsOffset, List.take_succ_cons, List.flatten_cons, List.length_append]
      rw [List.getElem?_append_right (by omega)]
      have e : r.length + (List.take k rs).flatten.length + j - r.length =
          rowsOffset rs k + j := by simp only [rowsOffset]; omega
      rw [e]; exact this

theorem SegAt.head {S : SparseMatrix T} {i : Nat} {p : Nat × T} {l : List (Nat × T)}
    (h : SegAt S i (p :: l)) : vecGet S.m_ColsIdx i = .ok p.1 ∧ vecGet S.m_Values i = .ok p.2 := by
  have := h 0 p (by simp)
  exact ⟨vecGet_of_getElem? this.1, vecGet_of_getElem? this.2⟩

theorem SegAt.tail {S : SparseMatrix T} {i : Nat} {p : Nat × T} {l : List (Nat × T)}
    (h : SegAt S i (p :: l)) : SegAt S (i + 1) l := by
  intro j q hq
  have := h (j + 1) q (by simpa using hq)
  have e : i + 1 + j = i + (j + 1) := by omega
  rw [e]; exact this

theorem SegAt.get {S : SparseMatrix T} {i : Nat} {l : List (Nat × T)} (h : SegAt S i l)
    {j : Nat} {p : Nat × T} (hp : l[j]? = some p) :
    vecGet S.m_ColsIdx (i + j) = .ok p.1 ∧ vecGet S.m_Values (i + j) = .ok p.2 :=
  ⟨vecGet_of_getElem? (h j p hp).1, vecGet_of_getElem? (h j p hp).2⟩

namespace SparseMatrix

theorem Represents.rowPtr_get {S : SparseMatrix T} {rs : List (List (Nat × T))}
    (h : S.Represents rs) {k : Nat} (hk : k ≤ rs.length) :
    S.m_RowPtr[k]? = some (rowsOffset rs k) := by
  rw [h.2.2.2, List.getElem?_map, List.getElem?_range (by omega)]; rfl

theorem Represents.vecGet_rowPtr {S : SparseMatrix T} {rs : List (List (Nat × T))}
    (h : S.Represents rs) {k : Nat} (hk : k ≤ rs.length) :
    vecGet S.m_RowPtr k = .ok (rowsOffset rs k) :=
  vecGet_of_getElem? (h.rowPtr_get hk)

theorem Represents.lt_length {S : SparseMatrix T} {rs : List (List (Nat × T))}
    (h : S.Represents rs) {r : Nat} (hr : r < S.m_Rows) : r < rs.length := by
  rw [← h.1]; exact hr

theorem Represents.segAt {S : SparseMatrix T} {rs : List (List (Nat × T))}
    (h : S.Represents rs) {r : Nat} {row : List (Nat × T)} (hrow : rs[r]? = some row) :
    SegAt S (rowsOffset rs r) row := by
  intro j p hp
  have hj : j < row.length := (List.getElem?_eq_some.1 hp).1
  have := flatten_getElem? rs r j row hrow hj
  rw [hp] at this
  rw [h.2.2.1, h.2.1, List.getElem?_map, List.getElem?_map, this]
  exact ⟨rfl, rfl⟩

end SparseMatrix

/-! ## Loops over a row segment -/

/-- Hoare rule for a `for` loop that runs over the indices of a list of entries. -/
theorem forLoop_seg_inv {σ β : Type} (P : Nat → σ → Prop) (l : List β) (i : Nat)
    {b : Nat → σ → Except Err σ} {a : σ} (h0 : P 0 a)
    (hstep : ∀ j p s, l[j]? = some p → P j s → ∃ s', b (i + j) s = .ok s' ∧ P (j + 1) s') :
    ∃ s', forLoop i (i + l.length) b a = .ok s' ∧ P l.length s' := by
  obtain ⟨s', hs', hP⟩ := forLoop_inv (fun k s => P (k - i) s) (Nat.le_add_right i l.length)
    (b := b) (a := a) (by simpa using h0)
    (by
      intro k s hk hk' hPk
      have hj : k - i < l.length := by omega
      obtain ⟨s', hs', hP'⟩ := hstep (k - i) l[k - i] s (List.getElem?_eq_getElem hj) hPk
      have e : i + (k - i) = k := by omega
      rw [e] at hs'
      refine ⟨s', hs', ?_⟩
      have e' : k + 1 - i = k - i + 1 := by omega
      simp only [e']; exact hP')
  refine ⟨s', hs', ?_⟩
  simpa using hP

theorem mem_of_getElem?_eq {α : Type} {l : List α} {j : Nat} {x : α} (h : l[j]? = some x) :
    x ∈ l := by
  rcases List.getElem?_eq_some.1 h with ⟨hlt, he⟩
  exact he ▸ List.getElem_mem hlt

theorem rowDense_append_singleton (l : List (Nat × T)) (p : Nat × T) (c : Nat) :
    rowDense (l ++ [p]) c = if p.1 = c then p.2 else rowDense l c := by
  simp [rowDense, List.foldl_append]

theorem rowDense_nil (c : Nat) : rowDense ([] : List (Nat × T)) c = 0 := rfl

namespace SparseMatrix

theorem getLoop_segAt (S : SparseMatrix T) (col : Nat) :
    ∀ (l : List (Nat × T)) (i : Nat), SegAt S i l →
      getLoop S col l.length i = .ok (rowLookup l col) := by
  intro l
  induction l with
  | nil => intro i _; rfl
  | cons p l ih =>
    intro i h
    simp only [List.length_cons, getLoop, h.head.1, bind_ok_eq, h.head.2, rowLookup]
    by_cases hc : p.1 = col
    · simp [hc]
    · simp only [hc, if_false]
      exact ih (i + 1) h.tail

/-- `operator()` on a matrix that encodes the rows `rs`: the first entry of row `r` at
column `c`, or zero. -/
theorem Represents.get_eq {S : SparseMatrix T} {rs : List (List (Nat × T))}
    (h : S.Represents rs) {r c : Nat} (hr : r < S.m_Rows) (hc : c < S.m_Cols) :
    S.get r c = .ok (rowLookup (rs.getD r []) c) := by
  have hrl := h.lt_length hr
  have hrow : rs[r]? = some rs[r] := List.getElem?_eq_getElem hrl
  have hn : ¬ (r ≥ S.m_Rows ∨ c ≥ S.m_Cols) := by omega
  have e : rowsOffset rs (r + 1) - rowsOffset rs r = rs[r].length := by
    rw [rowsOffset_succ hrow]; omega
  simp only [SparseMatrix.get, hn, if_false, h.vecGet_rowPtr (Nat.le_of_lt hrl), bind_ok_eq,
    h.vecGet_rowPtr (Nat.succ_le_of_lt hrl), e, getLoop_segAt S c _ _ (h.segAt hrow)]
  simp [hrow]

theorem traceLoop_segAt (S : SparseMatrix T) (cRow : Nat) (trace : T) :
    ∀ (l : List (Nat × T)) (i : Nat), SegAt S i l →
      traceLoop S cRow l.length i trace = .ok (trace + rowLookup l cRow) := by
  intro l
  induction l with
  | nil => intro i _; simp [traceLoop, rowLookup]
  | cons p l ih =>
    intro i h
    simp only [List.length_cons, traceLoop, h.head.1, bind_ok_eq, h.head.2, rowLookup]
    by_cases hc : p.1 = cRow
    · simp [hc]
    · simp only [hc, if_false]
      exact ih (i + 1) h.tail

/-- `GetTrace` on a square matrix that encodes the rows `rs`. -/
theorem Represents.trace_eq {S : SparseMatrix T} {rs : List (List (Nat × T))}
    (h : S.Represents rs) (hsq : S.m_IsSquare = true) :
    S.GetTrace = .ok (∑ r in Finset.range S.m_Rows, rowLookup (rs.getD r []) r) := by
  simp only [GetTrace, hsq, not_true_eq_false, if_false]
  obtain ⟨t, ht, hP⟩ := forLoop_inv
    (fun i (t : T) => t = ∑ r in Finset.range i, rowLookup (rs.getD r []) r)
    (Nat.zero_le S.m_Rows)
    (b := fun cRow trace => do
      let startIdx ← vecGet S.m_RowPtr cRow
      let endIdx ← vecGet S.m_RowPtr (cRow + 1)
      traceLoop S cRow (endIdx - startIdx) startIdx trace)
    (a := (0 : T)) (by simp)
    (by
      intro i t _ hi hP
      have hrl := h.lt_length hi
      have hrow : rs[i]? = some rs[i] := List.getElem?_eq_getElem hrl
      have e : rowsOffset rs (i + 1) - rowsOffset rs i = rs[i].length := by
        rw [rowsOffset_succ hrow]; omega
      refine ⟨t + rowLookup (rs.getD i []) i, ?_, ?_⟩
      · simp only [h.vecGet_rowPtr (Nat.le_of_lt hrl), bind_ok_eq,
          h.vecGet_rowPtr (Nat.succ_le_of_lt hrl), e,
          traceLoop_segAt S i t _ _ (h.segAt hrow)]
        simp [hrow]
      · show t + rowLookup (rs.getD i []) i =
          ∑ r in Finset.range (i + 1), rowLookup (rs.getD r []) r
        rw [Finset.sum_range_succ, hP])
  rw [ht, hP]

/-- `GetStandardMatrix` on a matrix that encodes the rows `rs` with in-range columns:
entry `(r, c)` is the value of the last entry of row `r` at column `c`, or zero. -/
theorem Represents.standard_eq {S : SparseMatrix T} {rs : List (List (Nat × T))}
    (h : S.Represents rs) (hcols : ∀ row ∈ rs, ∀ p ∈ row, p.1 < S.m_Cols) :
    S.GetStandardMatrix =
      .ok (Matrix.tabulate S.m_Rows S.m_Cols (fun r c => rowDense (rs.getD r []) c)) := by
  obtain ⟨R, hR, hRS, hRe⟩ := forLoop_inv
    (fun i (M : Matrix T) => M.Shaped S.m_Rows S.m_Cols ∧ ∀ r c, r < S.m_Rows → c < S.m_Cols →
      M.entry r c = if r < i then rowDense (rs.getD r []) c else 0)
    (Nat.zero_le S.m_Rows)
    (b := fun cRow matrix => do
      let startIdx ← vecGet S.m_RowPtr cRow
      let endIdx ← vecGet S.m_RowPtr (cRow + 1)
      forLoop startIdx endIdx (fun cIdx matrix => do
        let c ← vecGet S.m_ColsIdx cIdx
        let v ← vecGet S.m_Values cIdx
        matrix.set cRow c v) matrix)
    (a := Matrix.fill S.m_Rows S.m_Cols 0)
    ⟨Matrix.fill_shaped _ _ 0, fun r c hr hc => by
      simp [Matrix.fill_entry _ _ (0 : T) hr hc]⟩
    (by
      intro i M _ hi ⟨hMS, hMe⟩
      have hrl := h.lt_length hi
      have hrow : rs[i]? = some rs[i] := List.getElem?_eq_getElem hrl
      have e : rowsOffset rs (i + 1) = rowsOffset rs i + rs[i].length := rowsOffset_succ hrow
      have hseg := h.segAt hrow
      obtain ⟨M', hM', hM'S, hM'e⟩ := forLoop_seg_inv
        (fun j (M : Matrix T) => M.Shaped S.m_Rows S.m_Cols ∧
          ∀ r c, r < S.m_Rows → c < S.m_Cols →
            M.entry r c = if r < i then rowDense (rs.getD r []) c
              else if r = i then rowDense (rs[i].take j) c else 0)
        rs[i] (rowsOffset rs i)
        (b := fun cIdx matrix => do
          let c ← vecGet S.m_ColsIdx cIdx
          let v ← vecGet S.m_Values cIdx
          matrix.set i c v)
        (a := M)
        ⟨hMS, fun r c hr hc => by
          rw [hMe r c hr hc]
          by_cases h1 : r < i
          · simp [h1]
          · simp [h1, rowDense_nil]⟩
        (by
          intro j p M2 hp ⟨hM2S, hM2e⟩
          have hpm : p.1 < S.m_Cols :=
            hcols rs[i] (List.getElem_mem hrl) p (mem_of_getElem?_eq hp)
          obtain ⟨M3, hM3, hM3S, hM3e⟩ := Matrix.set_spec hM2S.1 (r := i) (c := p.1)
            (by rw [hM2S.2.1]; exact hi) (by rw [hM2S.2.2]; exact hpm) p.2
          refine ⟨M3, ?_, ?_, ?_⟩
          · simp only [(hseg.get hp).1, (hseg.get hp).2, bind_ok_eq, hM3]
          · rw [hM2S.2.1, hM2S.2.2] at hM3S; exact hM3S
          · intro r c hr hc
            rw [hM3e r c, hM2e r c hr hc, take_succ_of_getElem? hp,
              rowDense_append_singleton]
            by_cases h1 : r = i
            · subst h1
              by_cases h2 : c = p.1
              · subst h2; simp
              · have h3 : ¬ p.1 = c := fun h => h2 h.symm
                simp [h2, h3]
            · simp only [h1, false_and, if_false])
      refine ⟨M', ?_, hM'S, ?_⟩
      · simp only [h.vecGet_rowPtr (Nat.le_of_lt hrl), bind_ok_eq,
          h.vecGet_rowPtr (Nat.succ_le_of_lt hrl), e, hM']
      · intro r c hr hc
        rw [hM'e r c hr hc, List.take_length]
        by_cases h1 : r < i
        · have : r < i + 1 := by omega
          simp [h1, this]
        · by_cases h2 : r = i
          · subst h2; simp [hrow]
          · have : ¬ r < i + 1 := by omega
            simp [h1, h2, this])
  rw [GetStandardMatrix, hR]
  congr 1
  apply Matrix.ext_entry hRS (Matrix.tabulate_shaped _ _ _)
  intro r c hr hc
  rw [hRe r c hr hc, Matrix.tabulate_entry _ _ _ hr hc]
  simp [hr]

end SparseMatrix

/-! ## The non-zero entries of a row of values -/

theorem nzOfFn_zero (f : Nat → T) : nzOfFn f 0 = [] := rfl

theorem nzOfFn_succ (f : Nat → T) (j : Nat) :
    nzOfFn f (j + 1) = nzOfFn f j ++ (if f j ≠ 0 then [(j, f j)] else []) := by
  simp only [nzOfFn, List.range_succ, List.filter_append, List.map_append]
  by_cases h : f j = 0
  · simp [List.filter, h]
  · simp [List.filter, h]

theorem nzOfFn_map_fst (f : Nat → T) (j : Nat) :
    (nzOfFn f j).map Prod.fst = (List.range j).filter (fun c => decide (f c ≠ 0)) := by
  simp [nzOfFn, List.map_map, Function.comp_def]

theorem mem_nzOfFn {f : Nat → T} {j : Nat} {p : Nat × T} (h : p ∈ nzOfFn f j) :
    p.1 < j ∧ p.2 = f p.1 ∧ p.2 ≠ 0 := by
  simp only [nzOfFn, List.mem_map, List.mem_filter, List.mem_range, decide_eq_true_eq] at h
  obtain ⟨c, ⟨hc, hne⟩, rfl⟩ := h
  exact ⟨hc, rfl, hne⟩

theorem nzOfFn_sorted (f : Nat → T) (j : Nat) : RowSorted (nzOfFn f j) := by
  rw [RowSorted, nzOfFn_map_fst]
  exact List.Pairwise.filter _ (List.pairwise_lt_range j)

theorem rowDense_nzOfFn (f : Nat → T) (c : Nat) : ∀ j,
    rowDense (nzOfFn f j) c = if c < j then f c else 0 := by
  intro j
  induction j with
  | zero => simp [nzOfFn_zero, rowDense_nil]
  | succ j ih =>
    rw [nzOfFn_succ]
    by_cases hx : f j = 0
    · simp only [hx, ne_eq, not_true_eq_false, if_false, List.append_nil, ih]
      by_cases h1 : c < j
      · have : c < j + 1 := by omega
        simp [h1, this]
      · by_cases h2 : c = j
        · subst h2; simp [hx]
        · have : ¬ c < j + 1 := by omega
          simp [h1, this]
    · simp only [ne_eq, hx, not_false_eq_true, if_true, rowDense_append_singleton, ih]
      by_cases h2 : j = c
      · subst h2; simp
      · simp only [h2, if_false]
        by_cases h1 : c < j
        · have : c < j + 1 := by omega
          simp [h1, this]
        · have : ¬ c < j + 1 := by omega
          simp [h1, this]

/-! ## Conversion of a dense matrix to CSR -/

theorem nzRowUpTo_zero (M : Matrix T) (r : Nat) : nzRowUpTo M r 0 = [] := rfl

theorem nzRowUpTo_succ (M : Matrix T) (r j : Nat) :
    nzRowUpTo M r (j + 1) =
      nzRowUpTo M r j ++ (if M.entry r j ≠ 0 then [(j, M.entry r j)] else []) :=
  nzOfFn_succ (M.entry r) j

theorem nzRows_length (M : Matrix T) : (nzRows M).length = M.m_Rows := by
  simp [nzRows]

theorem nzRows_getElem? (M : Matrix T) {r : Nat} (hr : r < M.m_Rows) :
    (nzRows M)[r]? = some (nzRow M r) := by
  simp [nzRows, List.getElem?_range hr]

theorem nzRows_getD (M : Matrix T) {r : Nat} (hr : r < M.m_Rows) :
    (nzRows M).getD r [] = nzRow M r := by
  simp [nzRows_getElem? M hr]

namespace SparseMatrix

theorem encode_represents (rs : List (List (Nat × T))) (sq : Bool) (cols : Nat) :
    (encode rs sq cols).Represents rs :=
  ⟨rfl, rfl, rfl, rfl⟩

/-- `SparseMatrix(matrix)` on a well-formed dense matrix returns the CSR encoding of its
rows of non-zero entries. -/
theorem ofMatrix_eq {M : Matrix T} (hW : M.WellFormed) :
    ofMatrix M = .ok (encode (nzRows M) M.m_IsSquare M.m_Cols) := by
  obtain ⟨R, hR, hP⟩ := forLoop_inv
    (fun i (s : SparseMatrix T) => s =
      { m_Values := ((nzRows M).take i).flatten.map Prod.snd
        m_ColsIdx := ((nzRows M).take i).flatten.map Prod.fst
        m_RowPtr := (List.range (i + 1)).map (rowsOffset (nzRows M))
        m_IsSquare := M.m_IsSquare, m_Rows := M.m_Rows, m_Cols := M.m_Cols })
    (Nat.zero_le M.m_Rows)
    (b := fun cRow s => do
      let s ← forLoop 0 s.m_Cols (fun cCol s => do
        let x ← M.get cRow cCol
        if x ≠ 0 then do
          let y ← M.get cRow cCol
          pure { s with m_Values := s.m_Values ++ [y], m_ColsIdx := s.m_ColsIdx ++ [cCol] }
        else pure s) s
      pure { s with m_RowPtr := s.m_RowPtr ++ [s.m_Values.length] })
    (a := { m_Values := [], m_ColsIdx := [], m_RowPtr := [] ++ [0],
            m_IsSquare := M.m_IsSquare, m_Rows := M.m_Rows, m_Cols := M.m_Cols })
    (by simp [rowsOffset_zero, List.range_succ])
    (by
      intro i s _ hi hs
      subst hs
      obtain ⟨s', hs', hQ⟩ := forLoop_inv
        (fun j (s : SparseMatrix T) => s =
          { m_Values := ((nzRows M).take i).flatten.map Prod.snd ++
              (nzRowUpTo M i j).map Prod.snd
            m_ColsIdx := ((nzRows M).take i).flatten.map Prod.fst ++
              (nzRowUpTo M i j).map Prod.fst
            m_RowPtr := (List.range (i + 1)).map (rowsOffset (nzRows M))
            m_IsSquare := M.m_IsSquare, m_Rows := M.m_Rows, m_Cols := M.m_Cols })
        (Nat.zero_le M.m_Cols)
        (b := fun cCol s => do
          let x ← M.get i cCol
          if x ≠ 0 then do
            let y ← M.get i cCol
            pure { s with m_Values := s.m_Values ++ [y], m_ColsIdx := s.m_ColsIdx ++ [cCol] }
          else pure s)
        (a :=
          { m_Values := ((nzRows M).take i).flatten.map Prod.snd
            m_ColsIdx := ((nzRows M).take i).flatten.map Prod.fst
            m_RowPtr := (List.range (i + 1)).map (rowsOffset (nzRows M))
            m_IsSquare := M.m_IsSquare, m_Rows := M.m_Rows, m_Cols := M.m_Cols })
        (by simp [nzRowUpTo_zero])
        (by
          intro j s _ hj hs
          subst hs
          simp only [Matrix.get_spec hW hi hj, bind_ok_eq, nzRowUpTo_succ]
          by_cases hx : M.entry i j = 0
          · simp [hx]
          · simp [hx])
      subst hQ
      refine ⟨_, by dsimp only; rw [hs']; rfl, ?_⟩
      have hrow := nzRows_getElem? M hi
      simp only [flatten_take_succ hrow, List.map_append, List.range_succ (i + 1),
        List.map_cons, List.map_nil, rowsOffset_succ hrow, SparseMatrix.mk.injEq, and_true,
        true_and, nzRow]
      simp only [List.length_append, List.length_map, rowsOffset])
  subst hP
  simp only [ofMatrix, ConvertToCSR, hR, encode, nzRows_length]
  congr 2
  · rw [← nzRows_length M, List.take_length]
  · rw [← nzRows_length M, List.take_length]

end SparseMatrix

/-! ## Lookup in a row -/

theorem rowLookup_of_not_mem : ∀ (l : List (Nat × T)) (c : Nat), (∀ q ∈ l, q.1 ≠ c) →
    rowLookup l c = 0 := by
  intro l
  induction l with
  | nil => intro c _; rfl
  | cons p l ih =>
    intro c h
    have h1 : p.1 ≠ c := h p (List.mem_cons_self _ _)
    simp only [rowLookup, h1, if_false]
    exact ih c (fun q hq => h q (List.mem_cons_of_mem _ hq))

theorem foldl_lastWins (c : Nat) : ∀ (l : List (Nat × T)) (a : T),
    l.foldl (fun acc p => if p.1 = c then p.2 else acc) a =
      if (∃ q ∈ l, q.1 = c) then l.foldl (fun acc p => if p.1 = c then p.2 else acc) 0
      else a := by
  intro l
  induction l with
  | nil => intro a; simp
  | cons p l ih =>
    intro a
    simp only [List.foldl_cons]
    rw [ih, ih (if p.1 = c then p.2 else 0)]
    by_cases h1 : ∃ q ∈ l, q.1 = c
    · have : ∃ q ∈ p :: l, q.1 = c := by
        obtain ⟨q, hq, hqc⟩ := h1
        exact ⟨q, List.mem_cons_of_mem _ hq, hqc⟩
      simp [h1, this]
    · by_cases h2 : p.1 = c
      · have : ∃ q ∈ p :: l, q.1 = c := ⟨p, List.mem_cons_self _ _, h2⟩
        simp only [h1, if_false, h2, if_true, this]
      · have : ¬ ∃ q ∈ p :: l, q.1 = c := by
          rintro ⟨q, hq, hqc⟩
          rcases List.mem_cons.1 hq with rfl | hq
          · exact h2 hqc
          · exact h1 ⟨q, hq, hqc⟩
        simp only [h1, if_false, h2, this]

theorem rowDense_of_not_mem (l : List (Nat × T)) (c : Nat) (h : ∀ q ∈ l, q.1 ≠ c) :
    rowDense l c = 0 := by
  have : ¬ ∃ q ∈ l, q.1 = c := by
    rintro ⟨q, hq, hqc⟩; exact h q hq hqc
  rw [rowDense, foldl_lastWins, if_neg this]

theorem RowSorted.of_cons {p : Nat × T} {l : List (Nat × T)} (h : RowSorted (p :: l)) :
    RowSorted l := by
  simp only [RowSorted, List.map_cons, List.pairwise_cons] at h
  exact h.2

theorem RowSorted.head_lt {p : Nat × T} {l : List (Nat × T)} (h : RowSorted (p :: l)) :
    ∀ q ∈ l, p.1 < q.1 := by
  simp only [RowSorted, List.map_cons, List.pairwise_cons] at h
  intro q hq
  exact h.1 q.1 (List.mem_map_of_mem _ hq)

/-- In a row with strictly increasing columns the first and the last entry of a column
coincide. -/
theorem rowDense_eq_rowLookup : ∀ (l : List (Nat × T)) (c : Nat), RowSorted l →
    rowDense l c = rowLookup l c := by
  intro l
  induction l with
  | nil => intro c _; rfl
  | cons p l ih =>
    intro c h
    have hl := ih c h.of_cons
    simp only [rowDense, List.foldl_cons, rowLookup]
    rw [foldl_lastWins]
    by_cases h2 : p.1 = c
    · have : ¬ ∃ q ∈ l, q.1 = c := by
        rintro ⟨q, hq, hqc⟩
        have := h.head_lt q hq
        omega
      simp [h2, this]
    · simp only [h2, if_false]
      by_cases h1 : ∃ q ∈ l, q.1 = c
      · simp only [h1, if_true]; exact hl
      · simp only [h1, if_false]
        symm
        apply rowLookup_of_not_mem
        intro q hq hqc
        exact h1 ⟨q, hq, hqc⟩

/-! ## The rows of non-zero entries of a dense matrix -/

theorem nzRowUpTo_map_fst (M : Matrix T) (r j : Nat) :
    (nzRowUpTo M r j).map Prod.fst =
      (List.range j).filter (fun c => decide (M.entry r c ≠ 0)) :=
  nzOfFn_map_fst (M.entry r) j

theorem mem_nzRowUpTo {M : Matrix T} {r j : Nat} {p : Nat × T} (h : p ∈ nzRowUpTo M r j) :
    p.1 < j ∧ p.2 = M.entry r p.1 ∧ p.2 ≠ 0 :=
  mem_nzOfFn h

theorem nzRowUpTo_sorted (M : Matrix T) (r j : Nat) : RowSorted (nzRowUpTo M r j) :=
  nzOfFn_sorted (M.entry r) j

theorem nzRow_sorted (M : Matrix T) (r : Nat) : RowSorted (nzRow M r) :=
  nzRowUpTo_sorted M r M.m_Cols

theorem rowDense_nzRowUpTo (M : Matrix T) (r c : Nat) : ∀ j,
    rowDense (nzRowUpTo M r j) c = if c < j then M.entry r c else 0 :=
  rowDense_nzOfFn (M.entry r) c

theorem rowDense_nzRow (M : Matrix T) (r : Nat) {c : Nat} (hc : c < M.m_Cols) :
    rowDense (nzRow M r) c = M.entry r c := by
  rw [nzRow, rowDense_nzRowUpTo, if_pos hc]

theorem rowLookup_nzRow (M : Matrix T) (r : Nat) {c : Nat} (hc : c < M.m_Cols) :
    rowLookup (nzRow M r) c = M.entry r c := by
  have := rowDense_eq_rowLookup (nzRow M r) c (nzRowUpTo_sorted M r M.m_Cols)
  rw [← this]
  exact rowDense_nzRow M r hc

theorem mem_nzRows {M : Matrix T} {row : List (Nat × T)} (h : row ∈ nzRows M) :
    ∃ r, r < M.m_Rows ∧ row = nzRow M r := by
  simp only [nzRows, List.mem_map, List.mem_range] at h
  obtain ⟨r, hr, rfl⟩ := h
  exact ⟨r, hr, rfl⟩

theorem nzRows_cols_lt (M : Matrix T) : ∀ row ∈ nzRows M, ∀ p ∈ row, p.1 < M.m_Cols := by
  intro row hrow p hp
  obtain ⟨r, _, rfl⟩ := mem_nzRows hrow
  exact (mem_nzRowUpTo hp).1

/-! ## Building a CSR matrix row by row -/

theorem RowsInv.init (zs : List (List (Nat × T))) :
    RowsInv zs 0 (([] : List T), ([] : List Nat), List.replicate (zs.length + 1) 0) := by
  refine ⟨by simp, by simp, ?_⟩
  apply List.ext_getElem?
  intro k
  simp only [List.getElem?_replicate, List.getElem?_map]
  by_cases hk : k < zs.length + 1
  · rw [List.getElem?_range hk]
    by_cases h0 : k = 0
    · subst h0; simp [rowsOffset_zero]
    · have : ¬ k ≤ 0 := by omega
      simp [hk, h0]
  · rw [List.getElem?_eq_none (by simpa using hk)]
    simp [hk]

theorem RowsInv.step {zs : List (List (Nat × T))} {i : Nat} {row : List (Nat × T)}
    (hrow : zs[i]? = some row) {r : List T × List Nat × List Nat} (h : RowsInv zs i r) :
    ∃ ptr, vecSet r.2.2 (i + 1) (r.1 ++ row.map Prod.snd).length = .ok ptr ∧
      RowsInv zs (i + 1) (r.1 ++ row.map Prod.snd, r.2.1 ++ row.map Prod.fst, ptr) := by
  obtain ⟨h1, h2, h3⟩ := h
  have hi : i < zs.length := (List.getElem?_eq_some.1 hrow).1
  have hlen : i + 1 < r.2.2.length := by rw [h3]; simp; omega
  refine ⟨_, vecSet_of_lt _ hlen, ?_, ?_, ?_⟩
  · simp only [h1, flatten_take_succ hrow, List.map_append]
  · simp only [h2, flatten_take_succ hrow, List.map_append]
  · simp only
    apply List.ext_getElem?
    intro k
    have hoff : (r.1 ++ row.map Prod.snd).length = rowsOffset zs (i + 1) := by
      rw [h1, rowsOffset_succ hrow]
      simp only [List.length_append, List.length_map, rowsOffset]
    rw [hoff, h3]
    by_cases hk : k = i + 1
    · subst hk
      rw [List.getElem?_set_self (by simp; omega), List.getElem?_map,
        List.getElem?_range (by omega)]
      simp
    · rw [List.getElem?_set_ne (Ne.symm hk), List.getElem?_map, List.getElem?_map]
      by_cases hk2 : k < zs.length + 1
      · rw [List.getElem?_range hk2]
        have : (k ≤ i + 1) ↔ (k ≤ i) := by omega
        simp [this]
      · rw [List.getElem?_eq_none (by simpa using hk2)]
        rfl

theorem RowsInv.final {zs : List (List (Nat × T))} {r : List T × List Nat × List Nat}
    (h : RowsInv zs zs.length r) (m : Nat) :
    SparseMatrix.ofArrays r.1 r.2.1 r.2.2 zs.length m =
      SparseMatrix.encode zs (decide (zs.length = m)) m := by
  obtain ⟨h1, h2, h3⟩ := h
  simp only [SparseMatrix.ofArrays, SparseMatrix.encode, h1, h2, h3, List.take_length,
    SparseMatrix.mk.injEq, and_true, true_and]
  apply List.map_congr_left
  intro k hk
  have : k ≤ zs.length := by
    have := List.mem_range.1 hk; omega
  simp [this]

/-! ## The merge of two rows -/

theorem mergeRow_nil_left (b : List (Nat × T)) : mergeRow [] b = b := by
  rw [mergeRow]

theorem mergeRow_nil_right (a : List (Nat × T)) : mergeRow a [] = a := by
  cases a with
  | nil => rw [mergeRow]
  | cons p a => rw [mergeRow]

theorem mergeRow_cons_cons (p q : Nat × T) (a b : List (Nat × T)) :
    mergeRow (p :: a) (q :: b) =
      if p.1 < q.1 then p :: mergeRow a (q :: b)
      else if p.1 > q.1 then q :: mergeRow (p :: a) b
      else (p.1, p.2 + q.2) :: mergeRow a b := by
  rw [mergeRow]

namespace SparseMatrix

/-- The `while` loop of `operator+` on two row segments appends their merge. -/
theorem addLoop_segAt (X Y : SparseMatrix T) : ∀ (fuel : Nat) (a b : List (Nat × T))
    (i j e e' : Nat) (st : List T × List Nat), SegAt X i a → SegAt Y j b →
    e = i + a.length → e' = j + b.length → a.length + b.length ≤ fuel →
    addLoop X Y e e' fuel i j st =
      .ok (st.1 ++ (mergeRow a b).map Prod.snd, st.2 ++ (mergeRow a b).map Prod.fst) := by
  intro fuel
  induction fuel with
  | zero =>
    intro a b i j e e' st _ _ he he' hf
    have ha : a = [] := List.eq_nil_of_length_eq_zero (by omega)
    have hb : b = [] := List.eq_nil_of_length_eq_zero (by omega)
    subst ha hb
    simp only [List.length_nil, Nat.add_zero] at he he'
    subst he he'
    simp [addLoop, mergeRow_nil_left]
  | succ fuel ih =>
    intro a b i j e e' st hA hB he he' hf
    cases a with
    | nil =>
      cases b with
      | nil =>
        simp only [List.length_nil, Nat.add_zero] at he he'
        subst he he'
        simp [addLoop, mergeRow_nil_left]
      | cons q b =>
        simp only [List.length_nil, Nat.add_zero, List.length_cons] at he he' hf
        subst he
        have hj : j < e' := by omega
        have hrec := ih [] b e (j + 1) e e' (st.1 ++ [q.2], st.2 ++ [q.1]) hA hB.tail
          (by simp) (by omega) (by simp; omega)
        rw [addLoop]
        simp only [Nat.lt_irrefl, false_or, hj, if_true, if_false, pure_eq_ok, bind_ok_eq,
          ge_iff_le, Nat.le_refl, Bool.false_eq_true, hB.head.1, hB.head.2, hrec,
          mergeRow_nil_left, List.map_cons, List.append_assoc, List.singleton_append]
    | cons p a =>
      cases b with
      | nil =>
        simp only [List.length_nil, Nat.add_zero, List.length_cons] at he he' hf
        subst he'
        have hi : i < e := by omega
        have hrec := ih a [] (i + 1) e' e e' (st.1 ++ [p.2], st.2 ++ [p.1]) hA.tail hB
          (by omega) (by simp) (by simp; omega)
        rw [addLoop]
        simp only [hi, true_or, if_true, ge_iff_le, Nat.le_refl, pure_eq_ok, bind_ok_eq,
          hA.head.1, hA.head.2, hrec, mergeRow_nil_right, List.map_cons, List.append_assoc,
          List.singleton_append]
      | cons q b =>
        simp only [List.length_cons] at he he' hf
        have hi : i < e := by omega
        have hj : j < e' := by omega
        have hj' : ¬ e' ≤ j := by omega
        have hi' : ¬ e ≤ i := by omega
        rw [addLoop, mergeRow_cons_cons]
        simp only [hi, true_or, if_true, ge_iff_le, hj', if_false, hA.head.1, hB.head.1,
          bind_ok_eq, pure_eq_ok, hj, hi', gt_iff_lt]
        by_cases h1 : p.1 < q.1
        · have hrec := ih a (q :: b) (i + 1) j e e' (st.1 ++ [p.2], st.2 ++ [p.1]) hA.tail hB
            (by omega) (by simp; omega) (by simp; omega)
          simp only [h1, decide_True, if_true, hA.head.2, bind_ok_eq, hrec, List.map_cons,
            List.append_assoc, List.singleton_append]
        · by_cases h2 : q.1 < p.1
          · have hrec := ih (p :: a) b i (j + 1) e e' (st.1 ++ [q.2], st.2 ++ [q.1]) hA
              hB.tail (by simp; omega) (by omega) (by simp; omega)
            simp only [h1, decide_False, Bool.false_eq_true, if_false, h2, decide_True,
              if_true, hB.head.2, bind_ok_eq, hrec, List.map_cons, List.append_assoc,
              List.singleton_append]
          · have hrec := ih a b (i + 1) (j + 1) e e' (st.1 ++ [p.2 + q.2], st.2 ++ [p.1])
              hA.tail hB.tail (by omega) (by omega) (by omega)
            simp only [h1, decide_False, Bool.false_eq_true, if_false, h2, hA.head.2,
              hB.head.2, bind_ok_eq, hrec, List.map_cons, List.append_assoc,
              List.singleton_append]

/-- `operator+` on operands that encode the rows `xs` and `ys`: the encoding of the
row-wise merges. -/
theorem Represents.add_eq {X Y : SparseMatrix T} {xs ys : List (List (Nat × T))}
    (hX : X.Represents xs) (hY : Y.Represents ys) (hr : X.m_Rows = Y.m_Rows)
    (hc : X.m_Cols = Y.m_Cols) :
    X.add Y = .ok (encode (List.zipWith mergeRow xs ys) (decide (X.m_Rows = X.m_Cols))
      X.m_Cols) := by
  have hlx : xs.length = X.m_Rows := hX.1.symm
  have hly : ys.length = X.m_Rows := by rw [hr]; exact hY.1.symm
  have hlz : (List.zipWith mergeRow xs ys).length = X.m_Rows := by
    simp [hlx, hly]
  have hn : ¬ (X.m_Cols ≠ Y.m_Cols ∨ X.m_Rows ≠ Y.m_Rows) := by omega
  obtain ⟨R, hR, hP⟩ := forLoop_inv
    (fun i (r : List T × List Nat × List Nat) => RowsInv (List.zipWith mergeRow xs ys) i r)
    (Nat.zero_le X.m_Rows)
    (b := fun cRow r => do
      let startIdx ← vecGet X.m_RowPtr cRow
      let endIdx ← vecGet X.m_RowPtr (cRow + 1)
      let otherStartIdx ← vecGet Y.m_RowPtr cRow
      let otherEndIdx ← vecGet Y.m_RowPtr (cRow + 1)
      let st ← addLoop X Y endIdx otherEndIdx
        ((endIdx - startIdx) + (otherEndIdx - otherStartIdx)) startIdx otherStartIdx (r.1, r.2.1)
      let rRowPtr ← vecSet r.2.2 (cRow + 1) st.1.length
      pure (st.1, st.2, rRowPtr))
    (a := (([] : List T), ([] : List Nat), List.replicate (X.m_Rows + 1) 0))
    (by rw [← hlz]; exact RowsInv.init _)
    (by
      intro i r _ hi hP
      have hix : i < xs.length := by omega
      have hiy : i < ys.length := by omega
      have hxrow : xs[i]? = some xs[i] := List.getElem?_eq_getElem hix
      have hyrow : ys[i]? = some ys[i] := List.getElem?_eq_getElem hiy
      have hzrow : (List.zipWith mergeRow xs ys)[i]? = some (mergeRow xs[i] ys[i]) := by
        simp [List.getElem?_zipWith, hxrow, hyrow]
      obtain ⟨ptr, hptr, hP'⟩ := RowsInv.step hzrow hP
      have ex := rowsOffset_succ hxrow
      have ey := rowsOffset_succ hyrow
      have hloop := addLoop_segAt X Y
        ((rowsOffset xs (i + 1) - rowsOffset xs i) + (rowsOffset ys (i + 1) - rowsOffset ys i))
        xs[i] ys[i] (rowsOffset xs i) (rowsOffset ys i) (rowsOffset xs (i + 1))
        (rowsOffset ys (i + 1)) (r.1, r.2.1) (hX.segAt hxrow) (hY.segAt hyrow) ex ey
        (by omega)
      refine ⟨_, ?_, hP'⟩
      simp only [hX.vecGet_rowPtr (Nat.le_of_lt hix), hX.vecGet_rowPtr (Nat.succ_le_of_lt hix),
        hY.vecGet_rowPtr (Nat.le_of_lt hiy), hY.vecGet_rowPtr (Nat.succ_le_of_lt hiy),
        bind_ok_eq, hloop, hptr, pure_eq_ok])
  have hfin := RowsInv.final (by rw [hlz]; exact hP) X.m_Cols
  rw [hlz] at hfin
  simp only [add, hn, if_false]
  rw [hR]
  simp only [bind_ok_eq, pure_eq_ok, hfin]

end SparseMatrix

/-! ## Properties of the merge of two sorted rows -/

theorem rowSorted_cons {p : Nat × T} {l : List (Nat × T)} :
    RowSorted (p :: l) ↔ (∀ q ∈ l, p.1 < q.1) ∧ RowSorted l := by
  simp only [RowSorted, List.map_cons, List.pairwise_cons, List.mem_map]
  constructor
  · rintro ⟨h1, h2⟩
    exact ⟨fun q hq => h1 q.1 ⟨q, hq, rfl⟩, h2⟩
  · rintro ⟨h1, h2⟩
    refine ⟨?_, h2⟩
    rintro c ⟨q, hq, rfl⟩
    exact h1 q hq

theorem rowSorted_nil : RowSorted ([] : List (Nat × T)) := by
  simp [RowSorted]

/-- Every column of a merged row is a column of one of the two rows. -/
theorem mem_mergeRow : ∀ (a b : List (Nat × T)) (x : Nat × T), x ∈ mergeRow a b →
    (∃ p ∈ a, p.1 = x.1) ∨ (∃ q ∈ b, q.1 = x.1) := by
  intro a
  induction a with
  | nil =>
    intro b x hx
    rw [mergeRow_nil_left] at hx
    exact Or.inr ⟨x, hx, rfl⟩
  | cons p a iha =>
    intro b
    induction b with
    | nil =>
      intro x hx
      rw [mergeRow_nil_right] at hx
      exact Or.inl ⟨x, hx, rfl⟩
    | cons q b ihb =>
      intro x hx
      rw [mergeRow_cons_cons] at hx
      by_cases h1 : p.1 < q.1
      · simp only [h1, if_true, List.mem_cons] at hx
        rcases hx with rfl | hx
        · exact Or.inl ⟨x, List.mem_cons_self _ _, rfl⟩
        · rcases iha (q :: b) x hx with ⟨y, hy, hyx⟩ | h
          · exact Or.inl ⟨y, List.mem_cons_of_mem _ hy, hyx⟩
          · exact Or.inr h
      · by_cases h2 : p.1 > q.1
        · simp only [h1, if_false, h2, if_true, List.mem_cons] at hx
          rcases hx with rfl | hx
          · exact Or.inr ⟨x, List.mem_cons_self _ _, rfl⟩
          · rcases ihb x hx with h | ⟨y, hy, hyx⟩
            · exact Or.inl h
            · exact Or.inr ⟨y, List.mem_cons_of_mem _ hy, hyx⟩
        · simp only [h1, if_false, h2, List.mem_cons] at hx
          rcases hx with rfl | hx
          · exact Or.inl ⟨p, List.mem_cons_self _ _, rfl⟩
          · rcases iha b x hx with ⟨y, hy, hyx⟩ | ⟨y, hy, hyx⟩
            · exact Or.inl ⟨y, List.mem_cons_of_mem _ hy, hyx⟩
            · exact Or.inr ⟨y, List.mem_cons_of_mem _ hy, hyx⟩

/-- The merge of two rows with strictly increasing columns has strictly increasing
columns. -/
theorem mergeRow_sorted : ∀ (a b : List (Nat × T)), RowSorted a → RowSorted b →
    RowSorted (mergeRow a b) := by
  intro a
  induction a with
  | nil => intro b _ hb; rw [mergeRow_nil_left]; exact hb
  | cons p a iha =>
    intro b
    induction b with
    | nil => intro ha _; rw [mergeRow_nil_right]; exact ha
    | cons q b ihb =>
      intro ha hb
      have ha' := rowSorted_cons.1 ha
      have hb' := rowSorted_cons.1 hb
      rw [mergeRow_cons_cons]
      by_cases h1 : p.1 < q.1
      · simp only [h1, if_true]
        refine rowSorted_cons.2 ⟨?_, iha (q :: b) ha'.2 hb⟩
        intro x hx
        rcases mem_mergeRow a (q :: b) x hx with ⟨y, hy, hyx⟩ | ⟨y, hy, hyx⟩
        · rw [← hyx]; exact ha'.1 y hy
        · rw [← hyx]
          rcases List.mem_cons.1 hy with rfl | hy
          · exact h1
          · exact Nat.lt_trans h1 (hb'.1 y hy)
      · by_cases h2 : p.1 > q.1
        · simp only [h1, if_false, h2, if_true]
          refine rowSorted_cons.2 ⟨?_, ihb ha hb'.2⟩
          intro x hx
          rcases mem_mergeRow (p :: a) b x hx with ⟨y, hy, hyx⟩ | ⟨y, hy, hyx⟩
          · rw [← hyx]
            rcases List.mem_cons.1 hy with rfl | hy
            · exact h2
            · exact Nat.lt_trans h2 (ha'.1 y hy)
          · rw [← hyx]; exact hb'.1 y hy
        · simp only [h1, if_false, h2]
          have he : p.1 = q.1 := by omega
          refine rowSorted_cons.2 ⟨?_, iha b ha'.2 hb'.2⟩
          intro x hx
          rcases mem_mergeRow a b x hx with ⟨y, hy, hyx⟩ | ⟨y, hy, hyx⟩
          · rw [← hyx]; exact ha'.1 y hy
          · rw [← hyx]; show p.1 < y.1; rw [he]; exact hb'.1 y hy

/-- Lookup in the merge of two sorted rows is the sum of the lookups. -/
theorem rowLookup_mergeRow (c : Nat) : ∀ (a b : List (Nat × T)), RowSorted a → RowSorted b →
    rowLookup (mergeRow a b) c = rowLookup a c + rowLookup b c := by
  intro a
  induction a with
  | nil => intro b _ _; rw [mergeRow_nil_left]; simp [rowLookup]
  | cons p a iha =>
    intro b
    induction b with
    | nil => intro _ _; rw [mergeRow_nil_right]; simp [rowLookup]
    | cons q b ihb =>
      intro ha hb
      have ha' := rowSorted_cons.1 ha
      have hb' := rowSorted_cons.1 hb
      rw [mergeRow_cons_cons]
      by_cases h1 : p.1 < q.1
      · simp only [h1, if_true]
        by_cases hpc : p.1 = c
        · have hz : rowLookup (q :: b) c = 0 := by
            apply rowLookup_of_not_mem
            intro y hy
            rcases List.mem_cons.1 hy with rfl | hy
            · omega
            · have := hb'.1 y hy; omega
          rw [hz]
          simp [rowLookup, hpc]
        · have := iha (q :: b) ha'.2 hb
          simp only [rowLookup, hpc, if_false] at this ⊢
          exact this
      · by_cases h2 : p.1 > q.1
        · simp only [h1, if_false, h2, if_true]
          by_cases hqc : q.1 = c
          · have hz : rowLookup (p :: a) c = 0 := by
              apply rowLookup_of_not_mem
              intro y hy
              rcases List.mem_cons.1 hy with rfl | hy
              · omega
              · have := ha'.1 y hy; omega
            rw [hz]
            simp [rowLookup, hqc]
          · have := ihb ha hb'.2
            simp only [rowLookup, hqc, if_false] at this ⊢
            exact this
        · simp only [h1, if_false, h2]
          have he : p.1 = q.1 := by omega
          by_cases hpc : p.1 = c
          · have hqc : q.1 = c := by omega
            simp [rowLookup, hpc, hqc]
          · have hqc : ¬ q.1 = c := by omega
            have := iha b ha'.2 hb'.2
            simp only [rowLookup, hpc, hqc, if_false]
            exact this

theorem mergeRow_cols_lt {m : Nat} {a b : List (Nat × T)} (ha : ∀ p ∈ a, p.1 < m)
    (hb : ∀ p ∈ b, p.1 < m) : ∀ p ∈ mergeRow a b, p.1 < m := by
  intro x hx
  rcases mem_mergeRow a b x hx with ⟨y, hy, hyx⟩ | ⟨y, hy, hyx⟩
  · rw [← hyx]; exact ha y hy
  · rw [← hyx]; exact hb y hy

/-! ## The format invariant and the row encoding -/

namespace SparseMatrix

theorem CSRInvariant.ptr_mono {S : SparseMatrix T} (h : S.CSRInvariant) :
    ∀ k, k ≤ S.m_Rows → ∀ j, j ≤ k → S.m_RowPtr.getD j 0 ≤ S.m_RowPtr.getD k 0 := by
  intro k
  induction k with
  | zero =>
    intro _ j hj
    have : j = 0 := by omega
    subst this; exact Nat.le_refl _
  | succ k ih =>
    intro hk j hj
    by_cases hjk : j = k + 1
    · subst hjk; exact Nat.le_refl _
    · exact Nat.le_trans (ih (by omega) j (by omega)) (h.2.2.1 k (by omega))

theorem CSRInvariant.zip_length {S : SparseMatrix T} (h : S.CSRInvariant) :
    (S.m_ColsIdx.zip S.m_Values).length = S.m_Values.length := by
  rw [List.length_zip, h.2.2.2.2.1]; simp

theorem CSRInvariant.ptr_le {S : SparseMatrix T} (h : S.CSRInvariant) {k : Nat}
    (hk : k ≤ S.m_Rows) : S.m_RowPtr.getD k 0 ≤ (S.m_ColsIdx.zip S.m_Values).length := by
  rw [h.zip_length, ← h.2.2.2.1]
  exact h.ptr_mono S.m_Rows (Nat.le_refl _) k hk

theorem CSRInvariant.flatten_prefix {S : SparseMatrix T} (h : S.CSRInvariant) :
    ∀ k, k ≤ S.m_Rows → ((List.range k).map S.rowEntries).flatten =
      (S.m_ColsIdx.zip S.m_Values).take (S.m_RowPtr.getD k 0) := by
  intro k
  induction k with
  | zero => intro _; rw [h.2.1]; simp
  | succ k ih =>
    intro hk
    have hm := h.2.2.1 k (by omega)
    rw [List.range_succ, List.map_append, List.flatten_append, ih (by omega)]
    have e : S.m_RowPtr.getD (k + 1) 0 =
        S.m_RowPtr.getD k 0 + (S.m_RowPtr.getD (k + 1) 0 - S.m_RowPtr.getD k 0) := by omega
    conv => rhs; rw [e, List.take_add]
    simp [rowEntries]

theorem CSRInvariant.take_rowsList {S : SparseMatrix T} (h : S.CSRInvariant) {k : Nat}
    (hk : k ≤ S.m_Rows) : (S.rowsList.take k).flatten =
      (S.m_ColsIdx.zip S.m_Values).take (S.m_RowPtr.getD k 0) := by
  rw [rowsList, ← List.map_take, List.take_range, Nat.min_eq_left hk]
  exact h.flatten_prefix k hk

theorem CSRInvariant.rowsOffset_eq {S : SparseMatrix T} (h : S.CSRInvariant) {k : Nat}
    (hk : k ≤ S.m_Rows) : rowsOffset S.rowsList k = S.m_RowPtr.getD k 0 := by
  rw [rowsOffset, h.take_rowsList hk, List.length_take]
  exact Nat.min_eq_left (h.ptr_le hk)

theorem rowsList_length (S : SparseMatrix T) : S.rowsList.length = S.m_Rows := by
  simp [rowsList]

/-- A matrix that satisfies the format invariant is the CSR encoding of its rows. -/
theorem CSRInvariant.represents {S : SparseMatrix T} (h : S.CSRInvariant) :
    S.Represents S.rowsList := by
  have hflat : S.rowsList.flatten = S.m_ColsIdx.zip S.m_Values := by
    have := h.take_rowsList (Nat.le_refl S.m_Rows)
    rw [← rowsList_length S, List.take_length, rowsList_length S, h.2.2.2.1, ← h.zip_length,
      List.take_length] at this
    exact this
  refine ⟨(rowsList_length S).symm, ?_, ?_, ?_⟩
  · rw [hflat, List.map_snd_zip]
    rw [h.2.2.2.2.1]
  · rw [hflat, List.map_fst_zip]
    rw [h.2.2.2.2.1]
  · rw [rowsList_length]
    apply List.ext_getElem
    · rw [h.1]; simp
    · intro k hk hk'
      have hkn : k ≤ S.m_Rows := by rw [h.1] at hk; omega
      simp only [List.getElem_map, List.getElem_range]
      rw [h.rowsOffset_eq hkn]
      simp [hk]

/-- The encoding of rows with strictly increasing, in-range columns satisfies the format
invariant. -/
theorem Represents.invariant {S : SparseMatrix T} {rs : List (List (Nat × T))}
    (h : S.Represents rs) (hs : ∀ row ∈ rs, RowSorted row)
    (hb : ∀ row ∈ rs, ∀ p ∈ row, p.1 < S.m_Cols) : S.CSRInvariant := by
  have hptr : ∀ k, k ≤ rs.length → S.m_RowPtr.getD k 0 = rowsOffset rs k := by
    intro k hk
    simp [h.rowPtr_get hk]
  refine ⟨?_, ?_, ?_, ?_, ?_, ?_⟩
  · rw [h.2.2.2, h.1]; simp
  · rw [hptr 0 (Nat.zero_le _), rowsOffset_zero]
  · intro r hr
    have hrl := h.lt_length hr
    rw [hptr r (by omega), hptr (r + 1) (by omega),
      rowsOffset_succ (List.getElem?_eq_getElem hrl)]
    omega
  · rw [h.1, hptr _ (Nat.le_refl _), rowsOffset_length, h.2.1, List.length_map]
  · rw [h.2.1, h.2.2.1, List.length_map, List.length_map]
  · intro r hr i hi1 hi0
    have hrl := h.lt_length hr
    have hrow : rs[r]? = some rs[r] := List.getElem?_eq_getElem hrl
    rw [hptr (r + 1) (by omega), rowsOffset_succ hrow] at hi1 ⊢
    rw [hptr r (by omega)] at hi0
    have hseg := h.segAt hrow
    have hj : i - rowsOffset rs r < rs[r].length := by omega
    have e : rowsOffset rs r + (i - rowsOffset rs r) = i := by omega
    have hci := (hseg (i - rowsOffset rs r) _ (List.getElem?_eq_getElem hj)).1
    rw [e] at hci
    have hmem : rs[r] ∈ rs := List.getElem_mem hrl
    constructor
    · simp only [List.getD_eq_getElem?_getD, hci, Option.getD_some]
      exact hb _ hmem _ (List.getElem_mem hj)
    · intro hi2
      have hj2 : i - rowsOffset rs r + 1 < rs[r].length := by omega
      have e2 : rowsOffset rs r + (i - rowsOffset rs r + 1) = i + 1 := by omega
      have hci2 := (hseg (i - rowsOffset rs r + 1) _ (List.getElem?_eq_getElem hj2)).1
      rw [e2] at hci2
      simp only [List.getD_eq_getElem?_getD, hci, hci2, Option.getD_some]
      have hsorted := hs _ hmem
      rw [RowSorted, List.pairwise_iff_getElem] at hsorted
      have := hsorted (i - rowsOffset rs r) (i - rowsOffset rs r + 1) (by simpa using hj)
        (by simpa using hj2) (by omega)
      simpa using this

theorem rowsList_getElem? (S : SparseMatrix T) {r : Nat} (hr : r < S.m_Rows) :
    S.rowsList[r]? = some (S.rowEntries r) := by
  simp [rowsList, List.getElem?_range hr]

theorem CSRInvariant.rowEntries_length {S : SparseMatrix T} (h : S.CSRInvariant) {r : Nat}
    (hr : r < S.m_Rows) :
    (S.rowEntries r).length = S.m_RowPtr.getD (r + 1) 0 - S.m_RowPtr.getD r 0 := by
  have h1 := rowsOffset_succ (rowsList_getElem? S hr)
  rw [h.rowsOffset_eq (show r + 1 ≤ S.m_Rows by omega), h.rowsOffset_eq (Nat.le_of_lt hr)]
    at h1
  omega

/-- Entry `j` of row `r` is the entry at index `row_ptr[r] + j` of the arrays. -/
theorem CSRInvariant.rowEntries_col {S : SparseMatrix T} (h : S.CSRInvariant) {r : Nat}
    (hr : r < S.m_Rows) {j : Nat} {p : Nat × T} (hp : (S.rowEntries r)[j]? = some p) :
    S.m_ColsIdx.getD (S.m_RowPtr.getD r 0 + j) 0 = p.1 ∧
      S.m_Values[S.m_RowPtr.getD r 0 + j]? = some p.2 := by
  have hseg := h.represents.segAt (rowsList_getElem? S hr) j p hp
  rw [h.rowsOffset_eq (Nat.le_of_lt hr)] at hseg
  exact ⟨by rw [List.getD_eq_getElem?_getD, hseg.1]; rfl, hseg.2⟩

/-- Under the format invariant every row has in-range columns. -/
theorem CSRInvariant.rows_cols_lt {S : SparseMatrix T} (h : S.CSRInvariant) :
    ∀ row ∈ S.rowsList, ∀ p ∈ row, p.1 < S.m_Cols := by
  intro row hrow p hp
  simp only [rowsList, List.mem_map, List.mem_range] at hrow
  obtain ⟨r, hr, rfl⟩ := hrow
  obtain ⟨j, hj⟩ := List.mem_iff_getElem?.1 hp
  have hjl : j < (S.rowEntries r).length := (List.getElem?_eq_some.1 hj).1
  rw [h.rowEntries_length hr] at hjl
  have hc := (h.rowEntries_col hr hj).1
  have := (h.2.2.2.2.2 r hr (S.m_RowPtr.getD r 0 + j) (by omega) (by omega)).1
  rw [hc] at this
  exact this

theorem pairwise_of_adjacent {l : List Nat}
    (h : ∀ i (h1 : i + 1 < l.length), l[i] < l[i + 1]) : List.Pairwise (fun a b => a < b) l := by
  rw [List.pairwise_iff_getElem]
  intro i j hi hj hij
  obtain ⟨d, rfl⟩ : ∃ d, j = i + 1 + d := ⟨j - (i + 1), by omega⟩
  clear hij
  induction d with
  | zero => exact h i hj
  | succ d ih =>
    have h1 := ih (by omega)
    have h2 := h (i + 1 + d) hj
    exact Nat.lt_trans h1 h2

/-- Under the format invariant every row has strictly increasing columns. -/
theorem CSRInvariant.rows_sorted {S : SparseMatrix T} (h : S.CSRInvariant) :
    ∀ row ∈ S.rowsList, RowSorted row := by
  intro row hrow
  simp only [rowsList, List.mem_map, List.mem_range] at hrow
  obtain ⟨r, hr, rfl⟩ := hrow
  apply pairwise_of_adjacent
  intro j hj
  simp only [List.length_map] at hj
  have hlen := h.rowEntries_length hr
  have hj0 : j < (S.rowEntries r).length := by omega
  have c0 := (h.rowEntries_col hr (List.getElem?_eq_getElem hj0)).1
  have c1 := (h.rowEntries_col hr (List.getElem?_eq_getElem hj)).1
  have := (h.2.2.2.2.2 r hr (S.m_RowPtr.getD r 0 + j) (by omega) (by omega)).2 (by omega)
  rw [c0, show S.m_RowPtr.getD r 0 + j + 1 = S.m_RowPtr.getD r 0 + (j + 1) by omega, c1]
    at this
  simpa using this

end SparseMatrix

/-! ## The loops of the sparse product -/

theorem accStep_length (value : T) (acc : List T) (q : Nat × T) :
    (accStep value acc q).length = acc.length := by
  simp [accStep]

theorem foldl_accStep_length (value : T) : ∀ (l : List (Nat × T)) (acc : List T),
    (l.foldl (accStep value) acc).length = acc.length := by
  intro l
  induction l with
  | nil => intro acc; rfl
  | cons q l ih => intro acc; rw [List.foldl_cons, ih, accStep_length]

theorem accEntry_length (ys : List (List (Nat × T))) (acc : List T) (p : Nat × T) :
    (accEntry ys acc p).length = acc.length :=
  foldl_accStep_length p.2 _ acc

theorem foldl_accEntry_length (ys : List (List (Nat × T))) : ∀ (l : List (Nat × T))
    (acc : List T), (l.foldl (accEntry ys) acc).length = acc.length := by
  intro l
  induction l with
  | nil => intro acc; rfl
  | cons q l ih => intro acc; rw [List.foldl_cons, ih, accEntry_length]

theorem accRow_length (ys : List (List (Nat × T))) (k : Nat) (xrow : List (Nat × T)) :
    (accRow ys k xrow).length = k := by
  rw [accRow, foldl_accEntry_length]; simp

namespace SparseMatrix

/-- The innermost loop of `operator*` over a row segment of the right operand, when the
columns of the segment are within the accumulator. -/
theorem mulInner_segAt (Y : SparseMatrix T) (value : T) (l : List (Nat × T)) (i : Nat)
    (acc : List T) (hseg : SegAt Y i l) (hl : ∀ q ∈ l, q.1 < acc.length) :
    forLoop i (i + l.length) (fun otherIdx rowResult => do
      let otherCol ← vecGet Y.m_ColsIdx otherIdx
      let otherValue ← vecGet Y.m_Values otherIdx
      vecModify rowResult otherCol (fun x => x + value * otherValue)) acc =
    .ok (l.foldl (accStep value) acc) := by
  obtain ⟨s, hs, hP⟩ := forLoop_seg_inv
    (fun j (a : List T) => a = (l.take j).foldl (accStep value) acc) l i
    (b := fun otherIdx rowResult => do
      let otherCol ← vecGet Y.m_ColsIdx otherIdx
      let otherValue ← vecGet Y.m_Values otherIdx
      vecModify rowResult otherCol (fun x => x + value * otherValue))
    (a := acc) (by simp)
    (by
      intro j q a hq ha
      have hlen : a.length = acc.length := by rw [ha, foldl_accStep_length]
      have hq1 : q.1 < a.length := by rw [hlen]; exact hl q (mem_of_getElem?_eq hq)
      have hx : a[q.1]? = some a[q.1] := List.getElem?_eq_getElem hq1
      refine ⟨accStep value a q, ?_, ?_⟩
      · simp only [(hseg.get hq).1, (hseg.get hq).2, bind_ok_eq,
          vecModify_of_getElem? _ hx, accStep, List.getD_eq_getElem?_getD, hx,
          Option.getD_some]
      · show accStep value a q = (l.take (j + 1)).foldl (accStep value) acc
        rw [take_succ_of_getElem? hq, List.foldl_append, ← ha]
        rfl)
  rw [hs, hP, List.take_length]

/-- The loop of `operator*` over a row segment of the left operand. -/
theorem mulMiddle_segAt (X Y : SparseMatrix T) {ys : List (List (Nat × T))}
    (hY : Y.Represents ys) (k : Nat) (hk : ∀ row ∈ ys, ∀ q ∈ row, q.1 < k)
    (xrow : List (Nat × T)) (i : Nat) (hseg : SegAt X i xrow)
    (hx : ∀ p ∈ xrow, p.1 < ys.length) :
    forLoop i (i + xrow.length) (fun cIdx rowResult => do
      let value ← vecGet X.m_Values cIdx
      let col ← vecGet X.m_ColsIdx cIdx
      let otherStartIdx ← vecGet Y.m_RowPtr col
      let otherEndIdx ← vecGet Y.m_RowPtr (col + 1)
      forLoop otherStartIdx otherEndIdx (fun otherIdx rowResult => do
        let otherCol ← vecGet Y.m_ColsIdx otherIdx
        let otherValue ← vecGet Y.m_Values otherIdx
        vecModify rowResult otherCol (fun x => x + value * otherValue)) rowResult)
      (List.replicate k (0 : T)) =
    .ok (accRow ys k xrow) := by
  obtain ⟨s, hs, hP⟩ := forLoop_seg_inv
    (fun j (a : List T) => a = (xrow.take j).foldl (accEntry ys) (List.replicate k 0)) xrow i
    (b := fun cIdx rowResult => do
      let value ← vecGet X.m_Values cIdx
      let col ← vecGet X.m_ColsIdx cIdx
      let otherStartIdx ← vecGet Y.m_RowPtr col
      let otherEndIdx ← vecGet Y.m_RowPtr (col + 1)
      forLoop otherStartIdx otherEndIdx (fun otherIdx rowResult => do
        let otherCol ← vecGet Y.m_ColsIdx otherIdx
        let otherValue ← vecGet Y.m_Values otherIdx
        vecModify rowResult otherCol (fun x => x + value * otherValue)) rowResult)
    (a := List.replicate k (0 : T)) (by simp)
    (by
      intro j p a hp ha
      have hlen : a.length = k := by rw [ha, foldl_accEntry_length]; simp
      have hcol : p.1 < ys.length := hx p (mem_of_getElem?_eq hp)
      have hyrow : ys[p.1]? = some ys[p.1] := List.getElem?_eq_getElem hcol
      have hinner := mulInner_segAt Y p.2 ys[p.1] (rowsOffset ys p.1) a (hY.segAt hyrow)
        (by
          intro q hq
          rw [hlen]
          exact hk _ (List.getElem_mem hcol) q hq)
      refine ⟨accEntry ys a p, ?_, ?_⟩
      · simp only [(hseg.get hp).1, (hseg.get hp).2, bind_ok_eq,
          hY.vecGet_rowPtr (Nat.le_of_lt hcol), hY.vecGet_rowPtr (Nat.succ_le_of_lt hcol),
          rowsOffset_succ hyrow, hinner, accEntry]
        simp [hyrow]
      · show accEntry ys a p = (xrow.take (j + 1)).foldl (accEntry ys) (List.replicate k 0)
        rw [take_succ_of_getElem? hp, List.foldl_append, ← ha]
        rfl)
  rw [hs, hP, List.take_length, accRow]

/-- The final scan of `operator*` over an accumulator of length `k`. -/
theorem mulScan_eq (acc : List T) (k : Nat) (hlen : acc.length = k) (st : List T × List Nat) :
    forLoop 0 k (fun cCol st => do
      let x ← vecGet acc cCol
      if x ≠ 0 then pure (st.1 ++ [x], st.2 ++ [cCol]) else pure st) st =
    .ok (st.1 ++ (nzOfFn (fun c => acc.getD c 0) k).map Prod.snd,
      st.2 ++ (nzOfFn (fun c => acc.getD c 0) k).map Prod.fst) := by
  obtain ⟨s, hs, hP⟩ := forLoop_inv
    (fun j (s : List T × List Nat) =>
      s = (st.1 ++ (nzOfFn (fun c => acc.getD c 0) j).map Prod.snd,
        st.2 ++ (nzOfFn (fun c => acc.getD c 0) j).map Prod.fst))
    (Nat.zero_le k)
    (b := fun cCol st => do
      let x ← vecGet acc cCol
      if x ≠ 0 then pure (st.1 ++ [x], st.2 ++ [cCol]) else pure st)
    (a := st) (by simp [nzOfFn_zero])
    (by
      intro j s _ hj hs
      subst hs
      have hjl : j < acc.length := by rw [hlen]; exact hj
      have hget : acc.getD j 0 = acc[j] := by simp [hjl]
      simp only [vecGet_of_lt hjl, bind_ok_eq, nzOfFn_succ, hget]
      by_cases hx : acc[j] = 0
      · simp [hx]
      · simp [hx])
  rw [hs, hP]

/-- `operator*` on operands that encode the rows `xs` and `ys`, when the stored columns of
both fit the accumulator of `m_Cols` entries: the encoding of the scanned accumulators. -/
theorem Represents.mul_eq {X Y : SparseMatrix T} {xs ys : List (List (Nat × T))}
    (hX : X.Represents xs) (hY : Y.Represents ys) (hc : X.m_Cols = Y.m_Rows)
    (hxs : ∀ row ∈ xs, ∀ p ∈ row, p.1 < X.m_Cols)
    (hys : ∀ row ∈ ys, ∀ q ∈ row, q.1 < X.m_Cols) :
    X.mul Y = .ok (encode (mulRows xs ys X.m_Cols) (decide (X.m_Rows = Y.m_Cols))
      Y.m_Cols) := by
  have hlx : xs.length = X.m_Rows := hX.1.symm
  have hly : ys.length = X.m_Cols := by rw [hc]; exact hY.1.symm
  have hlz : (mulRows xs ys X.m_Cols).length = X.m_Rows := by
    simp [mulRows, hlx]
  have hn : ¬ (X.m_Cols ≠ Y.m_Rows) := by omega
  obtain ⟨R, hR, hP⟩ := forLoop_inv
    (fun i (r : List T × List Nat × List Nat) => RowsInv (mulRows xs ys X.m_Cols) i r)
    (Nat.zero_le X.m_Rows)
    (b := fun cRow r => do
      let startIdx ← vecGet X.m_RowPtr cRow
      let endIdx ← vecGet X.m_RowPtr (cRow + 1)
      let rowResult ← forLoop startIdx endIdx (fun cIdx rowResult => do
        let value ← vecGet X.m_Values cIdx
        let col ← vecGet X.m_ColsIdx cIdx
        let otherStartIdx ← vecGet Y.m_RowPtr col
        let otherEndIdx ← vecGet Y.m_RowPtr (col + 1)
        forLoop otherStartIdx otherEndIdx (fun otherIdx rowResult => do
          let otherCol ← vecGet Y.m_ColsIdx otherIdx
          let otherValue ← vecGet Y.m_Values otherIdx
          vecModify rowResult otherCol (fun x => x + value * otherValue)) rowResult)
        (List.replicate X.m_Cols (0 : T))
      let st ← forLoop 0 X.m_Cols (fun cCol st => do
        let x ← vecGet rowResult cCol
        if x ≠ 0 then pure (st.1 ++ [x], st.2 ++ [cCol]) else pure st) (r.1, r.2.1)
      let rRowPtr ← vecSet r.2.2 (cRow + 1) st.1.length
      pure (st.1, st.2, rRowPtr))
    (a := (([] : List T), ([] : List Nat), List.replicate (X.m_Rows + 1) 0))
    (by rw [← hlz]; exact RowsInv.init _)
    (by
      intro i r _ hi hP
      have hix : i < xs.length := by omega
      have hxrow : xs[i]? = some xs[i] := List.getElem?_eq_getElem hix
      have hzrow : (mulRows xs ys X.m_Cols)[i]? =
          some (nzOfFn (fun c => (accRow ys X.m_Cols xs[i]).getD c 0) X.m_Cols) := by
        simp [mulRows, hxrow]
      obtain ⟨ptr, hptr, hP'⟩ := RowsInv.step hzrow hP
      have hmid := mulMiddle_segAt X Y hY X.m_Cols hys xs[i] (rowsOffset xs i)
        (hX.segAt hxrow)
        (by
          intro p hp
          rw [hly]
          exact hxs _ (List.getElem_mem hix) p hp)
      have hscan := mulScan_eq (accRow ys X.m_Cols xs[i]) X.m_Cols (accRow_length _ _ _)
        (r.1, r.2.1)
      simp only [pure_eq_ok] at hmid hscan
      refine ⟨_, ?_, hP'⟩
      simp only [hX.vecGet_rowPtr (Nat.le_of_lt hix), hX.vecGet_rowPtr (Nat.succ_le_of_lt hix),
        bind_ok_eq, rowsOffset_succ hxrow, hmid, hscan, hptr, pure_eq_ok])
  have hfin := RowsInv.final (by rw [hlz]; exact hP) Y.m_Cols
  rw [hlz] at hfin
  simp only [mul, hn, if_false]
  rw [hR]
  simp only [bind_ok_eq, pure_eq_ok, hfin]

end SparseMatrix

/-! ## The values accumulated by the sparse product -/

theorem colSum_nil (c : Nat) : colSum ([] : List (Nat × T)) c = 0 := rfl

theorem colSum_cons (q : Nat × T) (l : List (Nat × T)) (c : Nat) :
    colSum (q :: l) c = (if q.1 = c then q.2 else 0) + colSum l c := by
  simp [colSum]

theorem colSum_of_not_mem : ∀ (l : List (Nat × T)) (c : Nat), (∀ q ∈ l, q.1 ≠ c) →
    colSum l c = 0 := by
  intro l
  induction l with
  | nil => intro c _; rfl
  | cons q l ih =>
    intro c h
    rw [colSum_cons, ih c (fun x hx => h x (List.mem_cons_of_mem _ hx)),
      if_neg (h q (List.mem_cons_self _ _))]
    simp

/-- In a row with strictly increasing columns the sum over a column is the lookup. -/
theorem colSum_eq_rowLookup : ∀ (l : List (Nat × T)) (c : Nat), RowSorted l →
    colSum l c = rowLookup l c := by
  intro l
  induction l with
  | nil => intro c _; rfl
  | cons q l ih =>
    intro c h
    rw [colSum_cons, rowLookup]
    by_cases hq : q.1 = c
    · rw [if_pos hq, if_pos hq, colSum_of_not_mem l c]
      · simp
      · intro x hx hxc
        have := h.head_lt x hx
        omega
    · rw [if_neg hq, if_neg hq, ih c h.of_cons]
      simp

theorem getD_accStep (value : T) (acc : List T) (q : Nat × T) (c : Nat)
    (hq : q.1 < acc.length) :
    (accStep value acc q).getD c 0 =
      acc.getD c 0 + (if q.1 = c then value * q.2 else 0) := by
  simp only [accStep, List.getD_eq_getElem?_getD]
  by_cases h : q.1 = c
  · subst h
    rw [List.getElem?_set_self hq]
    simp
  · rw [List.getElem?_set_ne h]
    simp [h]

theorem getD_foldl_accStep (value : T) (c : Nat) : ∀ (l : List (Nat × T)) (acc : List T),
    (∀ q ∈ l, q.1 < acc.length) →
    (l.foldl (accStep value) acc).getD c 0 = acc.getD c 0 + value * colSum l c := by
  intro l
  induction l with
  | nil => intro acc _; simp [colSum_nil]
  | cons q l ih =>
    intro acc h
    rw [List.foldl_cons, ih, getD_accStep value acc q c (h q (List.mem_cons_self _ _)),
      colSum_cons]
    · by_cases hq : q.1 = c
      · simp only [hq, if_true]; ring
      · simp only [hq, if_false]; ring
    · intro x hx
      rw [accStep_length]
      exact h x (List.mem_cons_of_mem _ hx)

theorem getD_foldl_accEntry (ys : List (List (Nat × T))) (k c : Nat)
    (hk : ∀ row ∈ ys, ∀ q ∈ row, q.1 < k) : ∀ (l : List (Nat × T)) (acc : List T),
    acc.length = k →
    (l.foldl (accEntry ys) acc).getD c 0 =
      acc.getD c 0 + (l.map (fun p => p.2 * colSum (ys.getD p.1 []) c)).sum := by
  intro l
  induction l with
  | nil => intro acc _; simp
  | cons p l ih =>
    intro acc hacc
    rw [List.foldl_cons, ih _ (by rw [accEntry_length]; exact hacc), accEntry,
      getD_foldl_accStep]
    · simp only [List.map_cons, List.sum_cons]; ring
    · intro q hq
      rw [hacc]
      by_cases hp : p.1 < ys.length
      · have e : ys.getD p.1 [] = ys[p.1] := by simp [hp]
        rw [e] at hq
        exact hk _ (List.getElem_mem hp) q hq
      · have e : ys.getD p.1 [] = [] := by
          simp [List.getElem?_eq_none (Nat.le_of_not_lt hp)]
        rw [e] at hq
        cases hq

/-- Entry `c` of the accumulator of a left row: the sum, over the entries `(col, value)`
of the row, of `value` times the values stored at column `c` in row `col` of the right
operand. -/
theorem getD_accRow (ys : List (List (Nat × T))) (k c : Nat)
    (hk : ∀ row ∈ ys, ∀ q ∈ row, q.1 < k) (xrow : List (Nat × T)) :
    (accRow ys k xrow).getD c 0 =
      (xrow.map (fun p => p.2 * colSum (ys.getD p.1 []) c)).sum := by
  rw [accRow, getD_foldl_accEntry ys k c hk xrow _ (by simp)]
  have : (List.replicate k (0 : T)).getD c 0 = 0 := by
    simp only [List.getD_eq_getElem?_getD, List.getElem?_replicate]
    split <;> rfl
  rw [this]; simp

/-- A sum over the non-zero entries of a row of values is the sum over all its columns. -/
theorem sum_nzOfFn (f : Nat → T) (g : Nat → T) : ∀ j,
    ((nzOfFn f j).map (fun p => p.2 * g p.1)).sum = ∑ v in Finset.range j, f v * g v := by
  intro j
  induction j with
  | zero => simp [nzOfFn_zero]
  | succ j ih =>
    rw [nzOfFn_succ, List.map_append, List.sum_append, ih, Finset.sum_range_succ]
    by_cases h : f j = 0
    · simp [h]
    · simp [h]

/-! ## The dense product -/

/-- `Matrix::operator*` on well-formed operands of shapes `n × k` and `k × m`: the
triple-loop product. -/
theorem Matrix.mul_spec {n k m : Nat} {A B : Matrix T} (hA : A.Shaped n k) (hB : B.Shaped k m) :
    A.mul B = .ok (Matrix.tabulate n m
      (fun r c => ∑ v in Finset.range k, A.entry r v * B.entry v c)) := by
  obtain ⟨hAW, hAr, hAc⟩ := hA
  obtain ⟨hBW, hBr, hBc⟩ := hB
  have hn : ¬ (k ≠ B.m_Rows) := by omega
  simp only [Matrix.mul, hAr, hAc, hBc, hn, if_false]
  obtain ⟨R, hR, hRS, hRe⟩ := forLoop_inv
    (fun i (M : Matrix T) => M.Shaped n m ∧ ∀ r c, r < n → c < m →
      M.entry r c =
        if r < i then ∑ v in Finset.range k, A.entry r v * B.entry v c else 0)
    (Nat.zero_le n)
    (b := fun rIdx result =>
      forLoop 0 m (fun cIdx result =>
        forLoop 0 k (fun vIdx result => do
          let r ← vecGet A.m_Data rIdx
          let a ← vecGet r vIdx
          let b ← B.get vIdx cIdx
          result.modify rIdx cIdx (fun x => x + a * b)) result) result)
    (a := Matrix.fill n m 0)
    ⟨Matrix.fill_shaped n m 0, fun r c hr hc => by
      simp [Matrix.fill_entry n m (0 : T) hr hc]⟩
    (by
      intro i M _ hi ⟨hMS, hMe⟩
      obtain ⟨M', hM', hM'S, hM'e⟩ := forLoop_inv
        (fun j (M : Matrix T) => M.Shaped n m ∧ ∀ r c, r < n → c < m →
          M.entry r c = if r < i ∨ (r = i ∧ c < j)
            then ∑ v in Finset.range k, A.entry r v * B.entry v c else 0)
        (Nat.zero_le m)
        (b := fun cIdx result =>
          forLoop 0 k (fun vIdx result => do
            let r ← vecGet A.m_Data i
            let a ← vecGet r vIdx
            let b ← B.get vIdx cIdx
            result.modify i cIdx (fun x => x + a * b)) result)
        (a := M)
        ⟨hMS, fun r c hr hc => by
          rw [hMe r c hr hc]; simp⟩
        (by
          intro j M2 _ hj ⟨hM2S, hM2e⟩
          obtain ⟨M3, hM3, hM3S, hM3e⟩ := forLoop_inv
            (fun v (M : Matrix T) => M.Shaped n m ∧ ∀ r c, r < n → c < m →
              M.entry r c =
                if r = i ∧ c = j then ∑ t in Finset.range v, A.entry r t * B.entry t c
                else if r < i ∨ (r = i ∧ c < j)
                  then ∑ t in Finset.range k, A.entry r t * B.entry t c else 0)
            (Nat.zero_le k)
            (b := fun vIdx result => do
              let r ← vecGet A.m_Data i
              let a ← vecGet r vIdx
              let b ← B.get vIdx j
              result.modify i j (fun x => x + a * b))
            (a := M2)
            ⟨hM2S, fun r c hr hc => by
              rw [hM2e r c hr hc]
              by_cases h1 : r = i ∧ c = j
              · obtain ⟨rfl, rfl⟩ := h1
                simp
              · simp only [h1, if_false]⟩
            (by
              intro v M4 _ hv ⟨hM4S, hM4e⟩
              obtain ⟨row, hrow, hlen⟩ := hAW.1.getElem?_row (r := i) (by omega)
              have hcl : v < row.length := by rw [hlen, hAc]; exact hv
              have hx : row[v]? = some row[v] := List.getElem?_eq_getElem hcl
              have hAe : A.entry i v = row[v] := gridGet_of_getElem? hrow hx
              obtain ⟨M5, hM5, hM5S, hM5e⟩ := Matrix.modify_spec hM4S.1 (r := i) (c := j)
                (by rw [hM4S.2.1]; exact hi) (by rw [hM4S.2.2]; exact hj)
                (fun x => x + row[v] * B.entry v j)
              refine ⟨M5, ?_, ?_, ?_⟩
              · simp only [vecGet_of_getElem? hrow, bind_ok_eq, vecGet_of_getElem? hx,
                  Matrix.get_spec hBW (r := v) (c := j) (by omega) (by omega), hM5]
              · rw [hM4S.2.1, hM4S.2.2] at hM5S; exact hM5S
              · intro r c hr hc
                rw [hM5e r c]
                by_cases h1 : r = i ∧ c = j
                · obtain ⟨rfl, rfl⟩ := h1
                  rw [hM4e r c hr hc]
                  simp only [and_self, if_true, Finset.sum_range_succ, hAe]
                · simp only [h1, if_false]
                  rw [hM4e r c hr hc]
                  simp only [h1, if_false])
          refine ⟨M3, hM3, hM3S, ?_⟩
          intro r c hr hc
          rw [hM3e r c hr hc]
          by_cases h1 : r = i ∧ c = j
          · obtain ⟨rfl, rfl⟩ := h1
            simp
          · simp only [h1, if_false]
            have : (r < i ∨ r = i ∧ c < j + 1) ↔ (r < i ∨ r = i ∧ c < j) := by omega
            simp only [this])
      refine ⟨M', hM', hM'S, ?_⟩
      intro r c hr hc
      rw [hM'e r c hr hc]
      have : (r < i ∨ r = i ∧ c < m) ↔ r < i + 1 := by omega
      simp only [this])
  rw [hR]
  congr 1
  apply Matrix.ext_entry hRS (Matrix.tabulate_shaped n m _)
  intro r c hr hc
  rw [hRe r c hr hc, Matrix.tabulate_entry n m _ hr hc]
  simp [hr]

/-! ## The sparse product when the right operand is not wider than the left one -/

theorem getD_mem_or_nil {α : Type} (l : List (List α)) (i : Nat) :
    l.getD i [] = [] ∨ l.getD i [] ∈ l := by
  by_cases h : i < l.length
  · right
    have e : l.getD i [] = l[i] := by simp [h]
    rw [e]; exact List.getElem_mem h
  · left
    simp [List.getElem?_eq_none (Nat.le_of_not_lt h)]

theorem nzRows_cols_lt_shaped {k m : Nat} {B : Matrix T} (hB : B.Shaped k m) :
    ∀ row ∈ nzRows B, ∀ q ∈ row, q.1 < m := by
  intro row hrow q hq
  have := nzRows_cols_lt B row hrow q hq
  rw [hB.2.2] at this
  exact this

/-- Columns that no row of the right operand stores stay zero in the accumulator. -/
theorem getD_accRow_eq_zero (ys : List (List (Nat × T))) (k m c : Nat)
    (hk : ∀ row ∈ ys, ∀ q ∈ row, q.1 < k) (hm : ∀ row ∈ ys, ∀ q ∈ row, q.1 < m) (hc : m ≤ c)
    (xrow : List (Nat × T)) : (accRow ys k xrow).getD c 0 = 0 := by
  rw [getD_accRow ys k c hk xrow]
  apply List.sum_eq_zero
  intro x hx
  simp only [List.mem_map] at hx
  obtain ⟨p, _, rfl⟩ := hx
  rw [colSum_of_not_mem, mul_zero]
  intro q hq hqc
  rcases getD_mem_or_nil ys p.1 with h | h
  · rw [h] at hq; cases hq
  · have := hm _ h q hq
    omega

theorem mulRows_cols_lt (xs ys : List (List (Nat × T))) (k m : Nat)
    (hk : ∀ row ∈ ys, ∀ q ∈ row, q.1 < k) (hm : ∀ row ∈ ys, ∀ q ∈ row, q.1 < m) :
    ∀ row ∈ mulRows xs ys k, ∀ p ∈ row, p.1 < m := by
  intro row hrow p hp
  simp only [mulRows, List.mem_map] at hrow
  obtain ⟨xrow, _, rfl⟩ := hrow
  have hp' := mem_nzOfFn hp
  by_contra hlt
  have := getD_accRow_eq_zero ys k m p.1 hk hm (by omega) xrow
  exact hp'.2.2 (by rw [hp'.2.1]; exact this)

namespace SparseMatrix

/-- For operands that satisfy the format invariant with `X.cols == Y.rows` and
`Y.cols <= X.cols`, `X * Y` returns a matrix of shape `(X.rows, Y.cols)` that satisfies
the format invariant and stores no zero. -/
theorem mul_of_cols_le {X Y : SparseMatrix T} (hX : X.CSRInvariant) (hY : Y.CSRInvariant)
    (hc : X.m_Cols = Y.m_Rows) (hle : Y.m_Cols ≤ X.m_Cols) :
    ∃ S, X.mul Y = .ok S ∧ S.m_Rows = X.m_Rows ∧ S.m_Cols = Y.m_Cols ∧ S.CSRInvariant ∧
      ∀ v ∈ S.m_Values, v ≠ 0 := by
  have hys : ∀ row ∈ Y.rowsList, ∀ q ∈ row, q.1 < X.m_Cols :=
    fun row hrow q hq => Nat.lt_of_lt_of_le (hY.rows_cols_lt row hrow q hq) hle
  have hmul := hX.represents.mul_eq hY.represents hc hX.rows_cols_lt hys
  have hR := encode_represents (mulRows X.rowsList Y.rowsList X.m_Cols)
    (decide (X.m_Rows = Y.m_Cols)) Y.m_Cols
  refine ⟨_, hmul, ?_, rfl, ?_, ?_⟩
  · simp [encode, mulRows, rowsList_length]
  · apply hR.invariant
    · intro row hrow
      simp only [mulRows, List.mem_map] at hrow
      obtain ⟨xrow, _, rfl⟩ := hrow
      exact nzOfFn_sorted _ _
    · exact mulRows_cols_lt _ _ _ _ hys hY.rows_cols_lt
  · intro v hv
    simp only [encode, List.mem_map, List.mem_flatten, mulRows] at hv
    obtain ⟨p, ⟨row, ⟨xrow, _, rfl⟩, hp⟩, rfl⟩ := hv
    exact (mem_nzOfFn hp).2.2

end SparseMatrix

/-- Entry `(r, c)` of the rows emitted for the product of two converted matrices. -/
theorem mulRows_nzRows_entry {n k m : Nat} {A B : Matrix T} (hA : A.Shaped n k)
    (hB : B.Shaped k m) (hle : m ≤ k) {r c : Nat} (hr : r < n) (hc : c < m) :
    rowDense ((mulRows (nzRows A) (nzRows B) k).getD r []) c =
      ∑ v in Finset.range k, A.entry r v * B.entry v c := by
  have hrow : (mulRows (nzRows A) (nzRows B) k)[r]? =
      some (nzOfFn (fun c => (accRow (nzRows B) k (nzRow A r)).getD c 0) k) := by
    simp [mulRows, nzRows_getElem? A (r := r) (by rw [hA.2.1]; exact hr)]
  have hk : ∀ row ∈ nzRows B, ∀ q ∈ row, q.1 < k := fun row hrow q hq =>
    Nat.lt_of_lt_of_le (nzRows_cols_lt_shaped hB row hrow q hq) hle
  have hgetD : (mulRows (nzRows A) (nzRows B) k).getD r [] =
      nzOfFn (fun c => (accRow (nzRows B) k (nzRow A r)).getD c 0) k := by
    rw [List.getD_eq_getElem?_getD, hrow]; rfl
  rw [hgetD, rowDense_nzOfFn, if_pos (by omega), getD_accRow (nzRows B) k c hk]
  have hcongr : (nzRow A r).map (fun p => p.2 * colSum ((nzRows B).getD p.1 []) c) =
      (nzRow A r).map (fun p => p.2 * B.entry p.1 c) := by
    apply List.map_congr_left
    intro p hp
    have hp1 : p.1 < B.m_Rows := by
      have := (mem_nzRowUpTo hp).1
      rw [hA.2.2] at this; rw [hB.2.1]; exact this
    rw [nzRows_getD B hp1, colSum_eq_rowLookup _ _ (nzRow_sorted B p.1),
      rowLookup_nzRow B p.1 (by rw [hB.2.2]; exact hc)]
  rw [hcongr]
  have := sum_nzOfFn (A.entry r) (fun v => B.entry v c) k
  rw [← this, nzRow, nzRowUpTo, hA.2.2]

/-- For dense matrices `A` (`n × k`) and `B` (`k × m`) with `m ≤ k`, the sparse product of
their conversions round-trips to the dense triple-loop product. -/
theorem sparse_product_of_cols_le {n k m : Nat} {A B : Matrix T} (hA : A.Shaped n k)
    (hB : B.Shaped k m) (hle : m ≤ k) :
    ∃ SA SB S, SparseMatrix.ofMatrix A = .ok SA ∧ SparseMatrix.ofMatrix B = .ok SB ∧
      SA.mul SB = .ok S ∧ ∃ M, S.GetStandardMatrix = .ok M ∧ A.mul B = .ok M := by
  have hSA := SparseMatrix.encode_represents (nzRows A) A.m_IsSquare A.m_Cols
  have hSB := SparseMatrix.encode_represents (nzRows B) B.m_IsSquare B.m_Cols
  have hAc : (SparseMatrix.encode (nzRows A) A.m_IsSquare A.m_Cols).m_Cols = k := hA.2.2
  have hBc : (SparseMatrix.encode (nzRows B) B.m_IsSquare B.m_Cols).m_Cols = m := hB.2.2
  have hAr : (SparseMatrix.encode (nzRows A) A.m_IsSquare A.m_Cols).m_Rows = n := by
    simp [SparseMatrix.encode, nzRows_length, hA.2.1]
  have hBr : (SparseMatrix.encode (nzRows B) B.m_IsSquare B.m_Cols).m_Rows = k := by
    simp [SparseMatrix.encode, nzRows_length, hB.2.1]
  have hys : ∀ row ∈ nzRows B, ∀ q ∈ row, q.1 < k := fun row hrow q hq =>
    Nat.lt_of_lt_of_le (nzRows_cols_lt_shaped hB row hrow q hq) hle
  have hys' : ∀ row ∈ nzRows B, ∀ q ∈ row, q.1 < m := nzRows_cols_lt_shaped hB
  have hmul := hSA.mul_eq hSB (by rw [hAc, hBr])
    (by rw [hAc, ← hA.2.2]; exact nzRows_cols_lt A) (by rw [hAc]; exact hys)
  rw [hAc, hAr, hBc] at hmul
  have hS := SparseMatrix.encode_represents (mulRows (nzRows A) (nzRows B) k)
    (decide (n = m)) m
  have hSr : (SparseMatrix.encode (mulRows (nzRows A) (nzRows B) k) (decide (n = m)) m).m_Rows
      = n := by
    simp [SparseMatrix.encode, mulRows, nzRows_length, hA.2.1]
  refine ⟨_, _, _, SparseMatrix.ofMatrix_eq hA.1, SparseMatrix.ofMatrix_eq hB.1, hmul,
    Matrix.tabulate n m (fun r c => ∑ v in Finset.range k, A.entry r v * B.entry v c), ?_,
    Matrix.mul_spec hA hB⟩
  rw [hS.standard_eq (mulRows_cols_lt _ _ _ _ hys hys'), hSr]
  congr 1
  apply Matrix.ext_entry (Matrix.tabulate_shaped n m _) (Matrix.tabulate_shaped n m _)
  intro r c hr hc
  rw [Matrix.tabulate_entry _ _ _ hr hc, Matrix.tabulate_entry _ _ _ hr hc,
    mulRows_nzRows_entry hA hB hle hr hc]

/-! ## Failures of the sparse product -/

theorem OnlyUndefined.ok {α : Type} (a : α) : OnlyUndefined (Except.ok a : Except Err α) := by
  intro e h; cases h

theorem OnlyUndefined.pure {α : Type} (a : α) : OnlyUndefined (pure a : Except Err α) :=
  OnlyUndefined.ok a

theorem OnlyUndefined.bind {α β : Type} {x : Except Err α} {f : α → Except Err β}
    (hx : OnlyUndefined x) (hf : ∀ a, OnlyUndefined (f a)) : OnlyUndefined (x >>= f) := by
  cases x with
  | error e =>
    intro e' h
    have : e = e' := by
      simp only [bind_error_eq] at h
      exact Except.error.inj h
    rw [← this]; exact hx e rfl
  | ok a => exact hf a

theorem OnlyUndefined.vecGet {α : Type} (v : List α) (i : Nat) :
    OnlyUndefined (vecGet v i) := by
  intro e h
  unfold LinAlg.vecGet at h
  split at h
  · cases h
  · exact (Except.error.inj h).symm

theorem OnlyUndefined.vecModify {α : Type} (v : List α) (i : Nat) (f : α → α) :
    OnlyUndefined (vecModify v i f) := by
  intro e h
  unfold LinAlg.vecModify at h
  split at h
  · cases h
  · exact (Except.error.inj h).symm

theorem OnlyUndefined.forLoopAux {σ : Type} (body : Nat → σ → Except Err σ)
    (hb : ∀ i s, OnlyUndefined (body i s)) :
    ∀ k i s, OnlyUndefined (forLoopAux body k i s) := by
  intro k
  induction k with
  | zero => intro i s; exact OnlyUndefined.ok s
  | succ k ih =>
    intro i s
    rw [LinAlg.forLoopAux]
    exact OnlyUndefined.bind (hb i s) (fun a => ih (i + 1) a)

theorem OnlyUndefined.forLoop {σ : Type} (lo hi : Nat) (body : Nat → σ → Except Err σ)
    (hb : ∀ i s, OnlyUndefined (body i s)) (s : σ) : OnlyUndefined (forLoop lo hi body s) :=
  OnlyUndefined.forLoopAux body hb _ _ _

namespace SparseMatrix

/-- `operator*` raises the invalid-argument error exactly when `cols != other.rows`; once
the guard is passed its only possible failure is an access outside a vector. -/
theorem mul_invalid_argument_iff (X Y : SparseMatrix T) :
    (X.mul Y = .error .invalid_argument ↔ X.m_Cols ≠ Y.m_Rows) ∧
      (X.m_Cols = Y.m_Rows → OnlyUndefined (X.mul Y)) := by
  have hU : X.m_Cols = Y.m_Rows → OnlyUndefined (X.mul Y) := by
    intro hc
    have hn : ¬ (X.m_Cols ≠ Y.m_Rows) := by omega
    simp only [mul, hn, if_false]
    apply OnlyUndefined.bind
    · apply OnlyUndefined.forLoop
      intro cRow r
      apply OnlyUndefined.bind (OnlyUndefined.vecGet _ _)
      intro startIdx
      apply OnlyUndefined.bind (OnlyUndefined.vecGet _ _)
      intro endIdx
      apply OnlyUndefined.bind
      · apply OnlyUndefined.forLoop
        intro cIdx rowResult
        apply OnlyUndefined.bind (OnlyUndefined.vecGet _ _)
        intro value
        apply OnlyUndefined.bind (OnlyUndefined.vecGet _ _)
        intro col
        apply OnlyUndefined.bind (OnlyUndefined.vecGet _ _)
        intro otherStartIdx
        apply OnlyUndefined.bind (OnlyUndefined.vecGet _ _)
        intro otherEndIdx
        apply OnlyUndefined.forLoop
        intro otherIdx acc
        apply OnlyUndefined.bind (OnlyUndefined.vecGet _ _)
        intro otherCol
        apply OnlyUndefined.bind (OnlyUndefined.vecGet _ _)
        intro otherValue
        exact OnlyUndefined.vecModify _ _ _
      · intro rowResult
        apply OnlyUndefined.bind
        · apply OnlyUndefined.forLoop
          intro cCol st
          apply OnlyUndefined.bind (OnlyUndefined.vecGet _ _)
          intro x
          split
          · exact OnlyUndefined.pure _
          · exact OnlyUndefined.pure _
        · intro st
          apply OnlyUndefined.bind (OnlyUndefined.vecModify _ _ _)
          intro rRowPtr
          exact OnlyUndefined.pure _
    · intro r
      exact OnlyUndefined.pure _
  refine ⟨⟨?_, ?_⟩, hU⟩
  · intro h hc
    have := hU hc _ h
    cases this
  · intro h
    simp [mul, h]

end SparseMatrix

/-! ## The determinant -/

theorem detOf_congr {n : Nat} {f g : Nat → Nat → T} (h : ∀ i j, i < n → j < n → f i j = g i j) :
    detOf n f = detOf n g := by
  unfold detOf
  congr 1
  ext i j
  exact h i.val j.val i.isLt j.isLt

theorem detOf_one (f : Nat → Nat → T) : detOf 1 f = f 0 0 := by
  simp [detOf, LeibnizDet, SquareOf]

theorem detOf_two (f : Nat → Nat → T) : detOf 2 f = f 0 0 * f 1 1 - f 0 1 * f 1 0 := by
  simp [detOf, LeibnizDet, SquareOf, Matrix.det_fin_two]

theorem sign_eq (k : Nat) : ((-1 : T) ^ k) = (if k % 2 = 0 then 1 else -1) := by
  rcases Nat.even_or_odd k with h | h
  · rw [h.neg_one_pow, if_pos (Nat.even_iff.1 h)]
  · rw [h.neg_one_pow, if_neg]
    rw [Nat.odd_iff] at h; omega

/-- Cofactor expansion along row 0. -/
theorem detOf_succ (m : Nat) (f : Nat → Nat → T) :
    detOf (m + 1) f = ∑ k in Finset.range (m + 1),
      (if k % 2 = 0 then 1 else -1) * f 0 k * detOf m (fun i j => f (i + 1) (skipCol k j)) := by
  unfold detOf LeibnizDet
  rw [Matrix.det_succ_row_zero]
  rw [← Fin.sum_univ_eq_sum_range (fun k => (if k % 2 = 0 then 1 else -1) * f 0 k *
    (SquareOf (fun (i j : Fin m) => f (i.val + 1) (skipCol k j.val))).det) (m + 1)]
  apply Finset.sum_congr rfl
  intro k _
  rw [sign_eq]
  congr 1
  congr 1
  ext i j
  simp only [SquareOf, Matrix.submatrix_apply, Matrix.of_apply, Fin.val_succ, skipCol,
    Fin.succAbove]
  by_cases h : j.castSucc < k
  · have h' : j.val < k.val := h
    simp [h, h']
  · have h' : ¬ j.val < k.val := h
    simp [h, h']

namespace SparseMatrix

/-- The loops of `DeterminantRecursive` that fill `minorMatrix` for column `k` return the
matrix without row `0` and column `k`. -/
theorem minor_loops {n : Nat} {D : Matrix T} (hD : D.Shaped n n) {k : Nat} (hk : k < n) :
    forLoop 1 n (fun i minorMatrix => do
      let st ← forLoop 0 n (fun j st =>
        if j ≠ k then do
          let x ← D.get i j
          let row ← vecGet st.1 (i - 1)
          let row ← vecSet row st.2 x
          let minorMatrix ← vecSet st.1 (i - 1) row
          pure (minorMatrix, st.2 + 1)
        else pure st) (minorMatrix, 0)
      pure st.1) (List.replicate (n - 1) (List.replicate (n - 1) (0 : T))) =
    .ok (grid (n - 1) (n - 1) (fun r c => D.entry (r + 1) (skipCol k c))) := by
  obtain ⟨hW, hr, hc⟩ := hD
  obtain ⟨R, hR, hRect, hRe⟩ := forLoop_inv
    (fun i (mm : List (List T)) => Rect (n - 1) (n - 1) mm ∧
      ∀ r c, r + 1 < i → c < n - 1 → gridGet mm r c = D.entry (r + 1) (skipCol k c))
    (show 1 ≤ n by omega)
    (b := fun i minorMatrix => do
      let st ← forLoop 0 n (fun j st =>
        if j ≠ k then do
          let x ← D.get i j
          let row ← vecGet st.1 (i - 1)
          let row ← vecSet row st.2 x
          let minorMatrix ← vecSet st.1 (i - 1) row
          pure (minorMatrix, st.2 + 1)
        else pure st) (minorMatrix, 0)
      pure st.1)
    (a := List.replicate (n - 1) (List.replicate (n - 1) (0 : T)))
    ⟨Rect.replicate _ _ _, fun r c h _ => by omega⟩
    (by
      intro i mm hi1 hin ⟨hmm, hmme⟩
      obtain ⟨st, hst, hQ1, hQ2, hQ3, hQ4⟩ := forLoop_inv
        (fun j (st : List (List T) × Nat) => Rect (n - 1) (n - 1) st.1 ∧
          st.2 = (if j ≤ k then j else j - 1) ∧
          (∀ r c, r + 1 < i → c < n - 1 → gridGet st.1 r c = D.entry (r + 1) (skipCol k c)) ∧
          (∀ c, c < st.2 → gridGet st.1 (i - 1) c = D.entry i (skipCol k c)))
        (Nat.zero_le n)
        (b := fun j st =>
          if j ≠ k then do
            let x ← D.get i j
            let row ← vecGet st.1 (i - 1)
            let row ← vecSet row st.2 x
            let minorMatrix ← vecSet st.1 (i - 1) row
            pure (minorMatrix, st.2 + 1)
          else pure st)
        (a := (mm, 0))
        ⟨hmm, by simp, hmme, fun c h => by simp at h⟩
        (by
          intro j st _ hjn ⟨hS1, hS2, hS3, hS4⟩
          by_cases hjk : j = k
          · refine ⟨st, by simp [hjk], hS1, ?_, hS3, ?_⟩
            · rw [hS2]; subst hjk; simp
            · exact hS4
          · have hcol : st.2 < n - 1 := by
              rw [hS2]; split <;> omega
            obtain ⟨row, hrow, hlen⟩ := hS1.getElem?_row (r := i - 1) (by omega)
            have hset := hS1.set_entry hrow hcol (D.entry i j)
            have hlt : i - 1 < st.1.length := (List.getElem?_eq_some.1 hrow).1
            refine ⟨(st.1.set (i - 1) (row.set st.2 (D.entry i j)), st.2 + 1), ?_, hset.1,
              ?_, ?_, ?_⟩
            · simp only [ne_eq, hjk, not_false_eq_true, if_true,
                Matrix.get_spec hW (r := i) (c := j) (by omega) (by omega), bind_ok_eq,
                vecGet_of_getElem? hrow, vecSet_of_lt (D.entry i j) (by omega : st.2 < row.length),
                vecSet_of_lt _ hlt, pure_eq_ok]
            · simp only [hS2]; split <;> split <;> omega
            · intro r c hr' hc'
              rw [hset.2 r c]
              have : ¬ (r = i - 1 ∧ c = st.2) := by omega
              simp only [this, if_false]
              exact hS3 r c hr' hc'
            · intro c hc'
              rw [hset.2 (i - 1) c]
              by_cases hcs : c = st.2
              · subst hcs
                simp only [and_self, if_true, skipCol]
                rw [hS2]
                split <;> split <;> first | rfl | omega | (congr 1; omega)
              · simp only [hcs, and_false, if_false]
                exact hS4 c (by simp only at hc'; omega))
      refine ⟨st.1, by dsimp only; rw [hst]; rfl, hQ1, ?_⟩
      intro r c hr' hc'
      by_cases hri : r + 1 < i
      · exact hQ3 r c hri hc'
      · have hri' : r = i - 1 := by omega
        have e : i - 1 + 1 = i := by omega
        rw [hri', hQ4 c (by rw [hQ2]; split <;> omega), e])
  rw [hR]
  congr 1
  apply Rect.ext hRect (Rect.grid _ _ _)
  intro r c hr' hc'
  rw [hRe r c (by omega) hc', gridGet_grid _ _ _ hr' hc']

end SparseMatrix

namespace SparseMatrix

theorem ofData_grid {m : Nat} (hm : 0 < m) (g : Nat → Nat → T) :
    Matrix.ofData (grid m m g) = .ok (Matrix.tabulate m m g) := by
  have h0 : (grid m m g)[0]? = some ((List.range m).map (g 0)) := by
    simp [grid, List.getElem?_range hm]
  unfold Matrix.ofData
  rw [vecGet_of_getElem? h0]
  simp [Matrix.tabulate, grid]

/-- `DeterminantRecursive` on a well-formed `n × n` matrix, `n ≥ 1`, with enough fuel for
the recursion: the determinant. -/
theorem DeterminantRecursiveAux_eq : ∀ (fuel n : Nat) (D : Matrix T), D.Shaped n n → 1 ≤ n →
    n ≤ fuel → DeterminantRecursiveAux fuel D = .ok (detOf n D.entry) := by
  intro fuel
  induction fuel with
  | zero => intro n D _ h1 h2; omega
  | succ fuel ih =>
    intro n D hD h1 h2
    have hD' := hD
    obtain ⟨hW, hr, hc⟩ := hD
    rw [DeterminantRecursiveAux]
    simp only [hc]
    by_cases hn1 : n = 1
    · subst hn1
      simp only [if_true]
      rw [Matrix.get_spec hW (by omega) (by omega), detOf_one]
    · by_cases hn2 : n = 2
      · subst hn2
        simp only [OfNat.ofNat_ne_one, if_false, if_true]
        rw [Matrix.get_spec hW (r := 0) (c := 0) (by omega) (by omega),
          Matrix.get_spec hW (r := 1) (c := 1) (by omega) (by omega),
          Matrix.get_spec hW (r := 0) (c := 1) (by omega) (by omega),
          Matrix.get_spec hW (r := 1) (c := 0) (by omega) (by omega), detOf_two]
        rfl
      · simp only [hn1, hn2, if_false]
        obtain ⟨m, rfl⟩ : ∃ m, n = m + 1 := ⟨n - 1, by omega⟩
        obtain ⟨d, hd, hP⟩ := forLoop_inv
          (fun c (det : T) => det = ∑ k in Finset.range c,
            (if k % 2 = 0 then 1 else -1) * D.entry 0 k *
              detOf m (fun i j => D.entry (i + 1) (skipCol k j)))
          (Nat.zero_le (m + 1))
          (b := fun cCol det => do
            let minorMatrix ← forLoop 1 (m + 1) (fun i minorMatrix => do
              let st ← forLoop 0 (m + 1) (fun j st =>
                if j ≠ cCol then do
                  let x ← D.get i j
                  let row ← vecGet st.1 (i - 1)
                  let row ← vecSet row st.2 x
                  let minorMatrix ← vecSet st.1 (i - 1) row
                  pure (minorMatrix, st.2 + 1)
                else pure st) (minorMatrix, 0)
              pure st.1) (List.replicate (m + 1 - 1) (List.replicate (m + 1 - 1) (0 : T)))
            let a ← D.get 0 cCol
            let minor ← Matrix.ofData minorMatrix
            let d ← DeterminantRecursiveAux fuel minor
            pure (det + (if cCol % 2 = 0 then 1 else -1) * a * d))
          (a := (0 : T)) (by simp)
          (by
            intro c det _ hcn hdet
            have hloops := minor_loops hD' hcn
            have hshape := Matrix.tabulate_shaped m m
              (fun r c' => D.entry (r + 1) (skipCol c c'))
            have hrec := ih m _ hshape (by omega) (by omega)
            have hcongr : detOf m
                (Matrix.tabulate m m (fun r c' => D.entry (r + 1) (skipCol c c'))).entry =
                detOf m (fun i j => D.entry (i + 1) (skipCol c j)) :=
              detOf_congr (fun i j hi hj => Matrix.tabulate_entry m m _ hi hj)
            simp only [Nat.add_sub_cancel] at hloops
            refine ⟨det + (if c % 2 = 0 then 1 else -1) * D.entry 0 c *
              detOf m (Matrix.tabulate m m (fun r c' => D.entry (r + 1) (skipCol c c'))).entry,
              ?_, ?_⟩
            · simp only [Nat.add_sub_cancel]
              rw [hloops]
              simp only [bind_ok_eq, Matrix.get_spec hW (r := 0) (c := c) (by omega) (by omega),
                ofData_grid (show 0 < m by omega), hrec, pure_eq_ok]
            · show _ = ∑ k in Finset.range (c + 1), _
              rw [Finset.sum_range_succ, ← hdet, hcongr])
        rw [hd, hP, detOf_succ]

/-- `DeterminantRecursive` on a well-formed `n × n` matrix with `n ≥ 1`. -/
theorem DeterminantRecursive_eq {n : Nat} {D : Matrix T} (hD : D.Shaped n n) (h1 : 1 ≤ n) :
    DeterminantRecursive D = .ok (detOf n D.entry) := by
  have hc := hD.2.2
  exact DeterminantRecursiveAux_eq (D.m_Cols + 1) n D hD h1 (by omega)

end SparseMatrix

/-! ## Stored entries of a converted matrix -/

namespace SparseMatrix

/-- The row segments of an encoding are the encoded rows. -/
theorem Represents.rowEntries_eq {S : SparseMatrix T} {rs : List (List (Nat × T))}
    (h : S.Represents rs) {r : Nat} {row : List (Nat × T)} (hrow : rs[r]? = some row) :
    S.rowEntries r = row := by
  have hrl : r < rs.length := (List.getElem?_eq_some.1 hrow).1
  have hzip : S.m_ColsIdx.zip S.m_Values = rs.flatten :=
    (List.zip_of_prod h.2.2.1.symm h.2.1.symm).symm
  have hp0 : S.m_RowPtr.getD r 0 = rowsOffset rs r := by
    simp [h.rowPtr_get (Nat.le_of_lt hrl)]
  have hp1 : S.m_RowPtr.getD (r + 1) 0 = rowsOffset rs r + row.length := by
    simp [h.rowPtr_get (Nat.succ_le_of_lt hrl), rowsOffset_succ hrow]
  rw [rowEntries, hzip, hp0, hp1, Nat.add_sub_cancel_left]
  apply List.ext_getElem?
  intro j
  rw [List.getElem?_take]
  by_cases hj : j < row.length
  · rw [if_pos hj, List.getElem?_drop, flatten_getElem? rs r j row hrow hj]
  · rw [if_neg hj, List.getElem?_eq_none (by omega)]

end SparseMatrix

theorem data_eq_grid {M : Matrix T} (hW : M.WellFormed) :
    M.m_Data = grid M.m_Rows M.m_Cols M.entry := by
  have := Matrix.eq_tabulate (M := M) ⟨hW, rfl, rfl⟩
  exact congrArg Matrix.m_Data this

theorem nzRows_map_snd {M : Matrix T} (hW : M.WellFormed) :
    (nzRows M).map (List.map Prod.snd) =
      M.m_Data.map (fun row => row.filter (fun x => decide (x ≠ 0))) := by
  conv => rhs; rw [data_eq_grid hW]
  simp only [nzRows, grid, List.map_map]
  apply List.map_congr_left
  intro r _
  simp only [Function.comp_apply, nzRow, nzRowUpTo, nzOfFn, List.map_map, List.filter_map]
  rfl

theorem nzRows_map_fst {M : Matrix T} (hW : M.WellFormed) :
    (nzRows M).map (List.map Prod.fst) =
      M.m_Data.map (fun row =>
        (List.range M.m_Cols).filter (fun c => decide (row.getD c 0 ≠ 0))) := by
  conv => rhs; rw [data_eq_grid hW]
  simp only [nzRows, grid, List.map_map]
  apply List.map_congr_left
  intro r _
  simp only [Function.comp_apply, nzRow, nzRowUpTo_map_fst]
  apply List.filter_congr
  intro c hc
  have hc' : c < M.m_Cols := List.mem_range.1 hc
  simp [List.getElem?_range hc']

theorem flatten_take_map {α β : Type} (f : List α → List β) (L : List (List α)) (k : Nat) :
    ((L.take k).map f).flatten = ((L.map f).take k).flatten := by
  rw [List.map_take]

/-- Values of the first `k` rows: the non-zero elements of the first `k` dense rows. -/
theorem nzRows_take_values {M : Matrix T} (hW : M.WellFormed) (k : Nat) :
    ((nzRows M).take k).flatten.map Prod.snd =
      (M.m_Data.take k).flatMap (fun row => row.filter (fun x => decide (x ≠ 0))) := by
  rw [List.map_flatten, flatten_take_map, nzRows_map_snd hW, List.flatMap_def,
    flatten_take_map]

theorem nzRows_take_cols {M : Matrix T} (hW : M.WellFormed) (k : Nat) :
    ((nzRows M).take k).flatten.map Prod.fst =
      (M.m_Data.take k).flatMap (fun row =>
        (List.range M.m_Cols).filter (fun c => decide (row.getD c 0 ≠ 0))) := by
  rw [List.map_flatten, flatten_take_map, nzRows_map_fst hW, List.flatMap_def,
    flatten_take_map]

theorem nzRows_values {M : Matrix T} (hW : M.WellFormed) :
    (nzRows M).flatten.map Prod.snd =
      M.m_Data.flatMap (fun row => row.filter (fun x => decide (x ≠ 0))) := by
  have := nzRows_take_values hW M.m_Rows
  rw [← nzRows_length M, List.take_length, nzRows_length M] at this
  rw [this, List.take_of_length_le (by rw [hW.1.1])]

theorem nzRows_cols {M : Matrix T} (hW : M.WellFormed) :
    (nzRows M).flatten.map Prod.fst =
      M.m_Data.flatMap (fun row =>
        (List.range M.m_Cols).filter (fun c => decide (row.getD c 0 ≠ 0))) := by
  have := nzRows_take_cols hW M.m_Rows
  rw [← nzRows_length M, List.take_length, nzRows_length M] at this
  rw [this, List.take_of_length_le (by rw [hW.1.1])]

theorem nzRows_sorted (M : Matrix T) : ∀ row ∈ nzRows M, RowSorted row := by
  intro row hrow
  obtain ⟨r, _, rfl⟩ := mem_nzRows hrow
  exact nzRowUpTo_sorted M r M.m_Cols

theorem nzRows_values_ne_zero (M : Matrix T) :
    ∀ v ∈ (nzRows M).flatten.map Prod.snd, v ≠ 0 := by
  intro v hv
  simp only [List.mem_map, List.mem_flatten] at hv
  obtain ⟨p, ⟨row, hrow, hp⟩, rfl⟩ := hv
  obtain ⟨r, _, rfl⟩ := mem_nzRows hrow
  exact (mem_nzRowUpTo hp).2.2

theorem mem_nzRow_iff (M : Matrix T) (r : Nat) (p : Nat × T) :
    p ∈ nzRow M r ↔ p.1 < M.m_Cols ∧ p.2 = M.entry r p.1 ∧ p.2 ≠ 0 := by
  constructor
  · exact mem_nzRowUpTo
  · rintro ⟨h1, h2, h3⟩
    simp only [nzRow, nzRowUpTo, nzOfFn, List.mem_map, List.mem_filter, List.mem_range,
      decide_eq_true_eq]
    refine ⟨p.1, ⟨h1, ?_⟩, ?_⟩
    · rw [← h2]; exact h3
    · rw [← h2]

/-! ## Sum of two converted matrices -/

theorem zipMerge_length {n m : Nat} {A B : Matrix T} (hA : A.Shaped n m) (hB : B.Shaped n m) :
    (List.zipWith mergeRow (nzRows A) (nzRows B)).length = n := by
  simp [nzRows_length, hA.2.1, hB.2.1]

theorem zipMerge_getElem? {n m : Nat} {A B : Matrix T} (hA : A.Shaped n m) (hB : B.Shaped n m)
    {r : Nat} (hr : r < n) :
    (List.zipWith mergeRow (nzRows A) (nzRows B))[r]? = some (mergeRow (nzRow A r) (nzRow B r)) := by
  have h1 := nzRows_getElem? A (r := r) (by rw [hA.2.1]; exact hr)
  have h2 := nzRows_getElem? B (r := r) (by rw [hB.2.1]; exact hr)
  simp [List.getElem?_zipWith, h1, h2]

theorem zipMerge_mem {n m : Nat} {A B : Matrix T} (hA : A.Shaped n m) (hB : B.Shaped n m)
    {row : List (Nat × T)} (h : row ∈ List.zipWith mergeRow (nzRows A) (nzRows B)) :
    ∃ r, r < n ∧ row = mergeRow (nzRow A r) (nzRow B r) := by
  obtain ⟨r, hr⟩ := List.mem_iff_getElem?.1 h
  have hlt : r < n := by
    rw [← zipMerge_length hA hB]; exact (List.getElem?_eq_some.1 hr).1
  rw [zipMerge_getElem? hA hB hlt] at hr
  exact ⟨r, hlt, (Option.some.inj hr).symm⟩

theorem zipMerge_sorted {n m : Nat} {A B : Matrix T} (hA : A.Shaped n m) (hB : B.Shaped n m) :
    ∀ row ∈ List.zipWith mergeRow (nzRows A) (nzRows B), RowSorted row := by
  intro row h
  obtain ⟨r, _, rfl⟩ := zipMerge_mem hA hB h
  exact mergeRow_sorted _ _ (nzRow_sorted A r) (nzRow_sorted B r)

theorem zipMerge_cols_lt {n m : Nat} {A B : Matrix T} (hA : A.Shaped n m) (hB : B.Shaped n m) :
    ∀ row ∈ List.zipWith mergeRow (nzRows A) (nzRows B), ∀ p ∈ row, p.1 < m := by
  intro row h
  obtain ⟨r, _, rfl⟩ := zipMerge_mem hA hB h
  apply mergeRow_cols_lt
  · intro p hp; have := (mem_nzRowUpTo hp).1; rw [hA.2.2] at this; exact this
  · intro p hp; have := (mem_nzRowUpTo hp).1; rw [hB.2.2] at this; exact this

theorem zipMerge_lookup {n m : Nat} {A B : Matrix T} (hA : A.Shaped n m) (hB : B.Shaped n m)
    {r c : Nat} (hr : r < n) (hc : c < m) :
    rowLookup ((List.zipWith mergeRow (nzRows A) (nzRows B)).getD r []) c =
      A.entry r c + B.entry r c := by
  simp only [List.getD_eq_getElem?_getD, zipMerge_getElem? hA hB hr, Option.getD_some]
  rw [rowLookup_mergeRow c _ _ (nzRow_sorted A r) (nzRow_sorted B r),
    rowLookup_nzRow A r (by rw [hA.2.2]; exact hc), rowLookup_nzRow B r (by rw [hB.2.2]; exact hc)]

/-- Conversion to CSR and back returns the dense matrix. -/
theorem ofMatrix_roundtrip (D : Matrix T) (hD : D.WellFormed) :
    ∃ S, SparseMatrix.ofMatrix D = .ok S ∧ S.GetStandardMatrix = .ok D := by
  refine ⟨_, SparseMatrix.ofMatrix_eq hD, ?_⟩
  have hR := SparseMatrix.encode_represents (nzRows D) D.m_IsSquare D.m_Cols
  rw [hR.standard_eq (nzRows_cols_lt D)]
  congr 1
  symm
  apply Matrix.ext_entry (n := D.m_Rows) (m := D.m_Cols) ⟨hD, rfl, rfl⟩
  · have := Matrix.tabulate_shaped (SparseMatrix.encode (nzRows D) D.m_IsSquare D.m_Cols).m_Rows
      D.m_Cols (fun r c => rowDense ((nzRows D).getD r []) c)
    simp only [SparseMatrix.encode, nzRows_length] at this ⊢
    exact this
  · intro r c hr hc
    have e : (SparseMatrix.encode (nzRows D) D.m_IsSquare D.m_Cols).m_Rows = D.m_Rows :=
      nzRows_length D
    rw [e]
    show _ = (Matrix.tabulate D.m_Rows D.m_Cols _).entry r c
    rw [Matrix.tabulate_entry _ _ _ hr hc, nzRows_getD D hr, rowDense_nzRow D r hc]

/-! ## The claims -/

/-- Claim C1, evaluated at a failing input. For `A = [[1]]` (1 × 1) and `B = [[0, 1]]`
(1 × 2) the dense product `A * B` is `[[0, 1]]`, but `SparseMatrix(A) * SparseMatrix(B)`
allocates its accumulator `rowResult` with `m_Cols = 1` entries and then updates
`rowResult[1]`: an access outside the vector, so the sparse product has no defined result
and its round trip to dense is not the dense product. (When `B` is not wider than `A`
the round trip is the dense product: `sparse_product_of_cols_le`.) -/
theorem C1_sparse_product_wide_right_operand :
    narrowA.WellFormed ∧ wideB.WellFormed ∧ narrowA.m_Cols = wideB.m_Rows ∧
    narrowA.mul wideB = .ok wideB ∧
    (do
      let a ← SparseMatrix.ofMatrix narrowA
      let b ← SparseMatrix.ofMatrix wideB
      let c ← a.mul b
      c.GetStandardMatrix) = .error .undefined := by
  decide

/-- Claim C2. For every rectangular dense matrix `D`, `SparseMatrix(D)` is built and
`GetStandardMatrix` returns `D` itself: same `m_Rows`, same `m_Cols` and the same element
at every position. -/
theorem C2_roundtrip (D : Matrix T) (hD : D.WellFormed) :
    ∃ S, SparseMatrix.ofMatrix D = .ok S ∧ S.GetStandardMatrix = .ok D := by
  refine ⟨_, SparseMatrix.ofMatrix_eq hD, ?_⟩
  have hR := SparseMatrix.encode_represents (nzRows D) D.m_IsSquare D.m_Cols
  rw [hR.standard_eq (nzRows_cols_lt D)]
  congr 1
  symm
  apply Matrix.ext_entry (n := D.m_Rows) (m := D.m_Cols) ⟨hD, rfl, rfl⟩
  · have := Matrix.tabulate_shaped (SparseMatrix.encode (nzRows D) D.m_IsSquare D.m_Cols).m_Rows
      D.m_Cols (fun r c => rowDense ((nzRows D).getD r []) c)
    simp only [SparseMatrix.encode, nzRows_length] at this ⊢
    exact this
  · intro r c hr hc
    have e : (SparseMatrix.encode (nzRows D) D.m_IsSquare D.m_Cols).m_Rows = D.m_Rows :=
      nzRows_length D
    rw [e]
    show _ = (Matrix.tabulate D.m_Rows D.m_Cols _).entry r c
    rw [Matrix.tabulate_entry _ _ _ hr hc, nzRows_getD D hr, rowDense_nzRow D r hc]

/-- Witness of C2 on the matrix of the test suite. -/
theorem C2_roundtrip_witness :
    exampleD.WellFormed ∧
      ∃ S, SparseMatrix.ofMatrix exampleD = .ok S ∧ S.GetStandardMatrix = .ok exampleD :=
  ⟨by decide, C2_roundtrip exampleD (by decide)⟩

/-- Claim C3. For dense matrices `A` and `B` of one shape `n × m`, the sparse sum
`SparseMatrix(A) + SparseMatrix(B)` is built, its lookup at every in-range `(r, c)` returns
`A(r, c) + B(r, c)`, and its round trip to dense is the matrix returned by
`Matrix::operator+` on `A` and `B`. -/
theorem C3_sparse_sum (n m : Nat) (A B : Matrix T) (hA : A.Shaped n m) (hB : B.Shaped n m) :
    ∃ SA SB S, SparseMatrix.ofMatrix A = .ok SA ∧ SparseMatrix.ofMatrix B = .ok SB ∧
      SA.add SB = .ok S ∧
      (∀ r c, r < n → c < m →
        ∃ a b, A.get r c = .ok a ∧ B.get r c = .ok b ∧ S.get r c = .ok (a + b)) ∧
      ∃ M, S.GetStandardMatrix = .ok M ∧ A.add B = .ok M := by
  have hSA := SparseMatrix.encode_represents (nzRows A) A.m_IsSquare A.m_Cols
  have hSB := SparseMatrix.encode_represents (nzRows B) B.m_IsSquare B.m_Cols
  have hrows : (SparseMatrix.encode (nzRows A) A.m_IsSquare A.m_Cols).m_Rows =
      (SparseMatrix.encode (nzRows B) B.m_IsSquare B.m_Cols).m_Rows := by
    simp [SparseMatrix.encode, nzRows_length, hA.2.1, hB.2.1]
  have hcols : (SparseMatrix.encode (nzRows A) A.m_IsSquare A.m_Cols).m_Cols =
      (SparseMatrix.encode (nzRows B) B.m_IsSquare B.m_Cols).m_Cols := by
    simp [SparseMatrix.encode, hA.2.2, hB.2.2]
  have hadd := hSA.add_eq hSB hrows hcols
  have hS := SparseMatrix.encode_represents (List.zipWith mergeRow (nzRows A) (nzRows B))
    (decide ((SparseMatrix.encode (nzRows A) A.m_IsSquare A.m_Cols).m_Rows =
      (SparseMatrix.encode (nzRows A) A.m_IsSquare A.m_Cols).m_Cols))
    (SparseMatrix.encode (nzRows A) A.m_IsSquare A.m_Cols).m_Cols
  have hSr : ∀ sq k, (SparseMatrix.encode (List.zipWith mergeRow (nzRows A) (nzRows B))
      sq k).m_Rows = n := fun sq k => zipMerge_length hA hB
  have hAc : (SparseMatrix.encode (nzRows A) A.m_IsSquare A.m_Cols).m_Cols = m := hA.2.2
  refine ⟨_, _, _, SparseMatrix.ofMatrix_eq hA.1, SparseMatrix.ofMatrix_eq hB.1, hadd, ?_, ?_⟩
  · intro r c hr hc
    refine ⟨A.entry r c, B.entry r c,
      Matrix.get_spec hA.1 (by rw [hA.2.1]; exact hr) (by rw [hA.2.2]; exact hc),
      Matrix.get_spec hB.1 (by rw [hB.2.1]; exact hr) (by rw [hB.2.2]; exact hc), ?_⟩
    rw [hS.get_eq (by rw [hSr]; exact hr) (by rw [hAc]; exact hc), zipMerge_lookup hA hB hr hc]
  · refine ⟨Matrix.tabulate n m (fun r c => A.entry r c + B.entry r c), ?_,
      Matrix.add_spec hA hB⟩
    rw [hS.standard_eq (by rw [hAc]; exact zipMerge_cols_lt hA hB), hSr, hAc]
    congr 1
    apply Matrix.ext_entry (Matrix.tabulate_shaped n m _) (Matrix.tabulate_shaped n m _)
    intro r c hr hc
    rw [Matrix.tabulate_entry _ _ _ hr hc, Matrix.tabulate_entry _ _ _ hr hc,
      rowDense_eq_rowLookup _ _ (by
        simp only [List.getD_eq_getElem?_getD, zipMerge_getElem? hA hB hr, Option.getD_some]
        exact mergeRow_sorted _ _ (nzRow_sorted A r)
          (nzRow_sorted B r)),
      zipMerge_lookup hA hB hr hc]

/-- Witness of C3 on the operands of `TestMatrixAddition`. -/
theorem C3_sparse_sum_witness :
    exampleA.Shaped 3 3 ∧ exampleB.Shaped 3 3 ∧
      ∃ SA SB S, SparseMatrix.ofMatrix exampleA = .ok SA ∧
        SparseMatrix.ofMatrix exampleB = .ok SB ∧ SA.add SB = .ok S ∧
        (∀ r c, r < 3 → c < 3 →
          ∃ a b, exampleA.get r c = .ok a ∧ exampleB.get r c = .ok b ∧
            S.get r c = .ok (a + b)) ∧
        ∃ M, S.GetStandardMatrix = .ok M ∧ exampleA.add exampleB = .ok M :=
  ⟨by decide, by decide, C3_sparse_sum 3 3 exampleA exampleB (by decide) (by decide)⟩

/-- Claim C4. For every `n ≥ 1` and every `n × n` dense matrix `D` over a commutative ring,
`SparseMatrix(D).GetDeterminant()` returns the determinant of `D` (the Leibniz-formula
determinant of the library); for `n = 1` this is the element of `D` and for `n = 2` it is
`a*d - b*c`. -/
theorem C4_determinant (n : Nat) (D : Matrix T) (h1 : 1 ≤ n) (hD : D.Shaped n n) :
    ∃ S, SparseMatrix.ofMatrix D = .ok S ∧
      S.GetDeterminant =
        .ok (LeibnizDet (SquareOf (fun (i j : Fin n) => D.entry i.val j.val))) ∧
      (n = 1 → S.GetDeterminant = .ok (D.entry 0 0)) ∧
      (n = 2 → S.GetDeterminant =
        .ok (D.entry 0 0 * D.entry 1 1 - D.entry 0 1 * D.entry 1 0)) := by
  obtain ⟨S, hS, hstd⟩ := ofMatrix_roundtrip D hD.1
  have hsq : S.m_IsSquare = true := by
    have := SparseMatrix.ofMatrix_eq hD.1
    rw [hS] at this
    have e := congrArg SparseMatrix.m_IsSquare (Except.ok.inj this)
    rw [e]
    simp [SparseMatrix.encode, hD.1.2, hD.2.1, hD.2.2]
  have hdet : S.GetDeterminant = .ok (detOf n D.entry) := by
    simp only [SparseMatrix.GetDeterminant, hsq, not_true_eq_false, if_false]
    rw [hstd]
    exact SparseMatrix.DeterminantRecursive_eq hD h1
  refine ⟨S, hS, hdet, ?_, ?_⟩
  · intro hn; subst hn; rw [hdet, detOf_one]
  · intro hn; subst hn; rw [hdet, detOf_two]

/-- Witness of C4 on the matrix of `TestGetDeterminant`. -/
theorem C4_determinant_witness :
    1 ≤ 3 ∧ exampleE.Shaped 3 3 ∧
      ∃ S, SparseMatrix.ofMatrix exampleE = .ok S ∧
        S.GetDeterminant =
          .ok (LeibnizDet (SquareOf (fun (i j : Fin 3) => exampleE.entry i.val j.val))) ∧
        (3 = 1 → S.GetDeterminant = .ok (exampleE.entry 0 0)) ∧
        (3 = 2 → S.GetDeterminant =
          .ok (exampleE.entry 0 0 * exampleE.entry 1 1 - exampleE.entry 0 1 * exampleE.entry 1 0)) :=
  ⟨by decide, by decide, C4_determinant 3 exampleE (by decide) (by decide)⟩

/-- Claim C5. For every square `n × n` dense matrix `D`, `SparseMatrix(D).GetTrace()`
returns the sum of the diagonal elements `D(i, i)`, `i = 0 .. n-1`. -/
theorem C5_trace (n : Nat) (D : Matrix T) (hD : D.Shaped n n) :
    ∃ S, SparseMatrix.ofMatrix D = .ok S ∧
      S.GetTrace = .ok (∑ i in Finset.range n, D.entry i i) ∧
      ∀ i, i < n → D.get i i = .ok (D.entry i i) := by
  refine ⟨_, SparseMatrix.ofMatrix_eq hD.1, ?_, ?_⟩
  · have hR := SparseMatrix.encode_represents (nzRows D) D.m_IsSquare D.m_Cols
    have hsq : (SparseMatrix.encode (nzRows D) D.m_IsSquare D.m_Cols).m_IsSquare = true := by
      simp [SparseMatrix.encode, hD.1.2, hD.2.1, hD.2.2]
    have hrows : (SparseMatrix.encode (nzRows D) D.m_IsSquare D.m_Cols).m_Rows = n := by
      simp [SparseMatrix.encode, nzRows_length, hD.2.1]
    rw [hR.trace_eq hsq, hrows]
    congr 1
    apply Finset.sum_congr rfl
    intro i hi
    have hi' : i < n := Finset.mem_range.1 hi
    rw [nzRows_getD D (by rw [hD.2.1]; exact hi'),
      rowLookup_nzRow D i (by rw [hD.2.2]; exact hi')]
  · intro i hi
    exact Matrix.get_spec hD.1 (by rw [hD.2.1]; exact hi) (by rw [hD.2.2]; exact hi)

/-- Witness of C5 on the matrix of `TestGetTrace`. -/
theorem C5_trace_witness :
    exampleD.Shaped 3 3 ∧
      ∃ S, SparseMatrix.ofMatrix exampleD = .ok S ∧
        S.GetTrace = .ok (∑ i in Finset.range 3, exampleD.entry i i) ∧
        ∀ i, i < 3 → exampleD.get i i = .ok (exampleD.entry i i) :=
  ⟨by decide, C5_trace 3 exampleD (by decide)⟩

/-- Claim C6. For every rectangular dense matrix `D`, `SparseMatrix(D)` has the shape of `D`
and satisfies the CSR format invariant (`row_ptr` has `rows + 1` entries, starts at `0`, is
non-decreasing and ends at `values.size() == col_idx.size()`; the column indices of every
row segment are strictly increasing and less than `cols`); every stored value is non-zero;
and the stored entries are exactly the non-zero elements of `D` in row-major order:
`values` lists them, `col_idx` lists their columns and `row_ptr[k]` counts those of the
first `k` rows. -/
theorem C6_conversion_invariant (D : Matrix T) (hD : D.WellFormed) :
    ∃ S, SparseMatrix.ofMatrix D = .ok S ∧ S.m_Rows = D.m_Rows ∧ S.m_Cols = D.m_Cols ∧
      S.CSRInvariant ∧ (∀ v ∈ S.m_Values, v ≠ 0) ∧
      S.m_Values = D.m_Data.flatMap (fun row => row.filter (fun x => decide (x ≠ 0))) ∧
      S.m_ColsIdx = D.m_Data.flatMap (fun row =>
        (List.range D.m_Cols).filter (fun c => decide (row.getD c 0 ≠ 0))) ∧
      ∀ k, k ≤ D.m_Rows → S.m_RowPtr.getD k 0 =
        ((D.m_Data.take k).flatMap (fun row => row.filter (fun x => decide (x ≠ 0)))).length := by
  have hR := SparseMatrix.encode_represents (nzRows D) D.m_IsSquare D.m_Cols
  refine ⟨_, SparseMatrix.ofMatrix_eq hD, nzRows_length D, rfl,
    hR.invariant (nzRows_sorted D) (nzRows_cols_lt D), nzRows_values_ne_zero D,
    nzRows_values hD, nzRows_cols hD, ?_⟩
  intro k hk
  have hk' : k ≤ (nzRows D).length := by rw [nzRows_length]; exact hk
  have := hR.rowPtr_get hk'
  simp only [List.getD_eq_getElem?_getD, this, Option.getD_some, rowsOffset]
  rw [← nzRows_take_values hD k, List.length_map]

/-- Witness of C6: the conversion test `[[5,0,0],[0,8,0],[3,0,6]]`, whose arrays are
`values = [5,8,3,6]`, `col_idx = [0,1,0,2]`, `row_ptr = [0,1,2,4]`. -/
theorem C6_conversion_invariant_witness :
    exampleD.WellFormed ∧
    SparseMatrix.ofMatrix exampleD =
      .ok { m_Values := [5, 8, 3, 6], m_ColsIdx := [0, 1, 0, 2], m_RowPtr := [0, 1, 2, 4],
            m_IsSquare := true, m_Rows := 3, m_Cols := 3 } ∧
    ∃ S, SparseMatrix.ofMatrix exampleD = .ok S ∧ S.m_Rows = exampleD.m_Rows ∧
      S.m_Cols = exampleD.m_Cols ∧ S.CSRInvariant ∧ (∀ v ∈ S.m_Values, v ≠ 0) ∧
      S.m_Values = exampleD.m_Data.flatMap (fun row => row.filter (fun x => decide (x ≠ 0))) ∧
      S.m_ColsIdx = exampleD.m_Data.flatMap (fun row =>
        (List.range exampleD.m_Cols).filter (fun c => decide (row.getD c 0 ≠ 0))) ∧
      ∀ k, k ≤ exampleD.m_Rows → S.m_RowPtr.getD k 0 =
        ((exampleD.m_Data.take k).flatMap
          (fun row => row.filter (fun x => decide (x ≠ 0)))).length :=
  ⟨by decide, by decide, C6_conversion_invariant exampleD (by decide)⟩

/-- Claim C7. For every rectangular dense matrix `D` and every in-range position `(r, c)`,
the lookup `SparseMatrix(D)(r, c)` returns `D(r, c)`: when `D(r, c)` is non-zero it is the
value stored for column `c` in row `r`, and when it is zero no entry of row `r` has
column `c` (a structural zero) and the lookup returns `0`. -/
theorem C7_lookup (D : Matrix T) (hD : D.WellFormed) (r c : Nat) (hr : r < D.m_Rows)
    (hc : c < D.m_Cols) :
    ∃ S, SparseMatrix.ofMatrix D = .ok S ∧ S.get r c = D.get r c ∧
      D.get r c = .ok (D.entry r c) ∧
      (D.entry r c ≠ 0 → (c, D.entry r c) ∈ S.rowEntries r) ∧
      (D.entry r c = 0 → (∀ p ∈ S.rowEntries r, p.1 ≠ c) ∧ S.get r c = .ok 0) := by
  have hR := SparseMatrix.encode_represents (nzRows D) D.m_IsSquare D.m_Cols
  have hrow := hR.rowEntries_eq (nzRows_getElem? D hr)
  have hget : (SparseMatrix.encode (nzRows D) D.m_IsSquare D.m_Cols).get r c =
      .ok (D.entry r c) := by
    rw [hR.get_eq (by rw [show (SparseMatrix.encode (nzRows D) D.m_IsSquare D.m_Cols).m_Rows =
      D.m_Rows from nzRows_length D]; exact hr) hc, nzRows_getD D hr, rowLookup_nzRow D r hc]
  refine ⟨_, SparseMatrix.ofMatrix_eq hD, ?_, Matrix.get_spec hD hr hc, ?_, ?_⟩
  · rw [hget, Matrix.get_spec hD hr hc]
  · intro hne
    rw [hrow, mem_nzRow_iff]
    exact ⟨hc, rfl, hne⟩
  · intro hz
    refine ⟨?_, by rw [hget, hz]⟩
    intro p hp hpc
    rw [hrow, mem_nzRow_iff] at hp
    rw [hpc] at hp
    exact hp.2.2 (by rw [hp.2.1, hz])

/-- Witness of C7 on the matrix of `TestGetElement`, at position `(2, 0)`. -/
theorem C7_lookup_witness :
    exampleD.WellFormed ∧ 2 < exampleD.m_Rows ∧ 0 < exampleD.m_Cols ∧
      ∃ S, SparseMatrix.ofMatrix exampleD = .ok S ∧ S.get 2 0 = exampleD.get 2 0 ∧
        exampleD.get 2 0 = .ok (exampleD.entry 2 0) ∧
        (exampleD.entry 2 0 ≠ 0 → (0, exampleD.entry 2 0) ∈ S.rowEntries 2) ∧
        (exampleD.entry 2 0 = 0 → (∀ p ∈ S.rowEntries 2, p.1 ≠ 0) ∧ S.get 2 0 = .ok 0) :=
  ⟨by decide, by decide, by decide,
    C7_lookup exampleD (by decide) 2 0 (by decide) (by decide)⟩

/-- Claim C8. Element access fails with the out-of-range error exactly when
`row >= rows` or `col >= cols`, for the read-only and the mutable `Matrix::operator()` and
for `SparseMatrix::operator()`; on a rectangular dense matrix and on a sparse matrix that
satisfies the CSR invariant every in-range access succeeds; `at(rows, 0)` and
`at(0, cols)` fail on both containers. -/
theorem C8_out_of_range (M : Matrix T) (S : SparseMatrix T) (hM : M.WellFormed)
    (hS : S.CSRInvariant) (row col : Nat) (f : T → T) :
    (M.get row col = .error .out_of_range ↔ (row ≥ M.m_Rows ∨ col ≥ M.m_Cols)) ∧
    (M.modify row col f = .error .out_of_range ↔ (row ≥ M.m_Rows ∨ col ≥ M.m_Cols)) ∧
    (S.get row col = .error .out_of_range ↔ (row ≥ S.m_Rows ∨ col ≥ S.m_Cols)) ∧
    (row < M.m_Rows → col < M.m_Cols →
      (∃ v, M.get row col = .ok v) ∧ ∃ M', M.modify row col f = .ok M') ∧
    (row < S.m_Rows → col < S.m_Cols → ∃ v, S.get row col = .ok v) ∧
    M.get M.m_Rows 0 = .error .out_of_range ∧ M.get 0 M.m_Cols = .error .out_of_range ∧
    M.modify M.m_Rows 0 f = .error .out_of_range ∧
    M.modify 0 M.m_Cols f = .error .out_of_range ∧
    S.get S.m_Rows 0 = .error .out_of_range ∧ S.get 0 S.m_Cols = .error .out_of_range := by
  have hMin : row < M.m_Rows → col < M.m_Cols →
      (∃ v, M.get row col = .ok v) ∧ ∃ M', M.modify row col f = .ok M' := by
    intro hr hc
    obtain ⟨M', hM', _⟩ := Matrix.modify_spec hM hr hc f
    exact ⟨⟨_, Matrix.get_spec hM hr hc⟩, ⟨M', hM'⟩⟩
  have hSin : row < S.m_Rows → col < S.m_Cols → ∃ v, S.get row col = .ok v :=
    fun hr hc => ⟨_, hS.represents.get_eq hr hc⟩
  refine ⟨?_, ?_, ?_, hMin, hSin, ?_, ?_, ?_, ?_, ?_, ?_⟩
  · constructor
    · intro h
      by_contra hn
      obtain ⟨⟨v, hv⟩, _⟩ := hMin (by omega) (by omega)
      rw [hv] at h; cases h
    · intro h; simp [Matrix.get, h]
  · constructor
    · intro h
      by_contra hn
      obtain ⟨_, ⟨M', hM'⟩⟩ := hMin (by omega) (by omega)
      rw [hM'] at h; cases h
    · intro h; simp [Matrix.modify, h]
  · constructor
    · intro h
      by_contra hn
      obtain ⟨v, hv⟩ := hSin (by omega) (by omega)
      rw [hv] at h; cases h
    · intro h; simp [SparseMatrix.get, h]
  · simp [Matrix.get]
  · simp [Matrix.get]
  · simp [Matrix.modify]
  · simp [Matrix.modify]
  · simp [SparseMatrix.get]
  · simp [SparseMatrix.get]

/-- Witness of C8 on the dense matrix of the test suite and a sparse matrix built from raw
arrays, at position `(1, 2)`. -/
theorem C8_out_of_range_witness :
    exampleD.WellFormed ∧ squareX.CSRInvariant ∧
    (exampleD.get 1 2 = .error .out_of_range ↔ (1 ≥ exampleD.m_Rows ∨ 2 ≥ exampleD.m_Cols)) ∧
    (exampleD.modify 1 2 (fun x => x + 1) = .error .out_of_range ↔
      (1 ≥ exampleD.m_Rows ∨ 2 ≥ exampleD.m_Cols)) ∧
    (squareX.get 1 2 = .error .out_of_range ↔ (1 ≥ squareX.m_Rows ∨ 2 ≥ squareX.m_Cols)) ∧
    (1 < exampleD.m_Rows → 2 < exampleD.m_Cols →
      (∃ v, exampleD.get 1 2 = .ok v) ∧ ∃ M', exampleD.modify 1 2 (fun x => x + 1) = .ok M') ∧
    (1 < squareX.m_Rows → 2 < squareX.m_Cols → ∃ v, squareX.get 1 2 = .ok v) ∧
    exampleD.get exampleD.m_Rows 0 = .error .out_of_range ∧
    exampleD.get 0 exampleD.m_Cols = .error .out_of_range ∧
    exampleD.modify exampleD.m_Rows 0 (fun x => x + 1) = .error .out_of_range ∧
    exampleD.modify 0 exampleD.m_Cols (fun x => x + 1) = .error .out_of_range ∧
    squareX.get squareX.m_Rows 0 = .error .out_of_range ∧
    squareX.get 0 squareX.m_Cols = .error .out_of_range :=
  ⟨by decide, by decide,
    C8_out_of_range exampleD squareX (by decide) (by decide) 1 2 (fun x => x + 1)⟩

/-- Claim C9, evaluated at a failing input. `X` is the CSR form of `[[1]]` and `Y` the CSR
form of `[[0, 1]]`; both satisfy the CSR invariant and `X.cols == Y.rows`, so no
invalid-argument error is raised, but `X * Y` does not succeed: the accumulator has
`X.cols = 1` entries and the entry of `Y` in column `1` is added to `rowResult[1]`,
outside the vector. A right operand that is not wider than the left one is multiplied,
as in `X * X` (in general: `SparseMatrix.mul_of_cols_le`; the invalid-argument error is
raised exactly when `X.cols != Y.rows`: `SparseMatrix.mul_invalid_argument_iff`). -/
theorem C9_product_not_returned :
    narrowX.CSRInvariant ∧ wideY.CSRInvariant ∧ narrowX.m_Cols = wideY.m_Rows ∧
    narrowX.mul wideY = .error .undefined ∧
    narrowX.mul narrowX = .ok narrowX := by
  decide

/-- Claim C10. For sparse matrices `X` and `Y` that satisfy the CSR invariant, `X + Y`
fails with the invalid-argument error exactly when the row counts or the column counts
differ; when the shapes match it returns a matrix with the rows and cols of the
operands. -/
theorem C10_sum_shape (X Y : SparseMatrix T) (hX : X.CSRInvariant) (hY : Y.CSRInvariant) :
    (X.add Y = .error .invalid_argument ↔ (X.m_Rows ≠ Y.m_Rows ∨ X.m_Cols ≠ Y.m_Cols)) ∧
    (X.m_Rows = Y.m_Rows → X.m_Cols = Y.m_Cols →
      ∃ S, X.add Y = .ok S ∧ S.m_Rows = X.m_Rows ∧ S.m_Cols = X.m_Cols ∧
        S.m_Rows = Y.m_Rows ∧ S.m_Cols = Y.m_Cols) := by
  have hok : X.m_Rows = Y.m_Rows → X.m_Cols = Y.m_Cols →
      ∃ S, X.add Y = .ok S ∧ S.m_Rows = X.m_Rows ∧ S.m_Cols = X.m_Cols ∧
        S.m_Rows = Y.m_Rows ∧ S.m_Cols = Y.m_Cols := by
    intro hr hc
    have hlen : (List.zipWith mergeRow X.rowsList Y.rowsList).length = X.m_Rows := by
      simp [SparseMatrix.rowsList_length, hr]
    exact ⟨_, hX.represents.add_eq hY.represents hr hc, hlen, rfl, by rw [← hr]; exact hlen,
      hc⟩
  refine ⟨⟨?_, ?_⟩, hok⟩
  · intro h
    by_contra hn
    obtain ⟨S, hS, _⟩ := hok (by omega) (by omega)
    rw [hS] at h; cases h
  · intro h
    have h' : X.m_Cols ≠ Y.m_Cols ∨ X.m_Rows ≠ Y.m_Rows := h.symm
    simp [SparseMatrix.add, h']

/-- Witness of C10 on two `2 × 2` sparse matrices built from raw arrays. -/
theorem C10_sum_shape_witness :
    squareX.CSRInvariant ∧ squareY.CSRInvariant ∧
    (squareX.add squareY = .error .invalid_argument ↔
      (squareX.m_Rows ≠ squareY.m_Rows ∨ squareX.m_Cols ≠ squareY.m_Cols)) ∧
    (squareX.m_Rows = squareY.m_Rows → squareX.m_Cols = squareY.m_Cols →
      ∃ S, squareX.add squareY = .ok S ∧ S.m_Rows = squareX.m_Rows ∧
        S.m_Cols = squareX.m_Cols ∧ S.m_Rows = squareY.m_Rows ∧ S.m_Cols = squareY.m_Cols) :=
  ⟨by decide, by decide, C10_sum_shape squareX squareY (by decide) (by decide)⟩

/-! ## Scalar multiplication in place -/

namespace SparseMatrix

/-- `operator*=(k)` multiplies every stored value by `k` and changes nothing else. -/
theorem scale_eq (S : SparseMatrix T) (k : T) : S.scale k = .ok (S.scaled k) := by
  obtain ⟨R, hR, hc, hp, hsq, hr, hcl, hv⟩ := forLoop_inv
    (fun i (s : SparseMatrix T) => s.m_ColsIdx = S.m_ColsIdx ∧ s.m_RowPtr = S.m_RowPtr ∧
      s.m_IsSquare = S.m_IsSquare ∧ s.m_Rows = S.m_Rows ∧ s.m_Cols = S.m_Cols ∧
      ∀ j, s.m_Values[j]? =
        if j < i then S.m_Values[j]?.map (fun x => x * k) else S.m_Values[j]?)
    (Nat.zero_le S.m_Values.length)
    (b := fun cIdx s => do
      let values ← vecModify s.m_Values cIdx (fun x => x * k)
      pure { s with m_Values := values })
    (a := S)
    ⟨rfl, rfl, rfl, rfl, rfl, fun j => by simp⟩
    (by
      intro i s _ hi ⟨h1, h2, h3, h4, h5, h6⟩
      have hx : s.m_Values[i]? = some S.m_Values[i] := by
        rw [h6 i, if_neg (Nat.lt_irrefl i)]
        exact List.getElem?_eq_getElem hi
      have hlt : i < s.m_Values.length := (List.getElem?_eq_some.1 hx).1
      refine ⟨{ s with m_Values := s.m_Values.set i (S.m_Values[i] * k) }, ?_,
        h1, h2, h3, h4, h5, ?_⟩
      · simp only [vecModify_of_getElem? _ hx, bind_ok_eq, pure_eq_ok]
      · intro j
        show (s.m_Values.set i (S.m_Values[i] * k))[j]? = _
        by_cases hji : j = i
        · subst hji
          rw [List.getElem?_set_self hlt, if_pos (Nat.lt_succ_self j),
            List.getElem?_eq_getElem hi]
          rfl
        · rw [List.getElem?_set_ne (Ne.symm hji), h6 j]
          have : (j < i + 1) ↔ (j < i) := by omega
          simp only [this])
  rw [scale, hR]
  congr 1
  cases R with
  | mk v c p sq r cl =>
    simp only at hc hp hsq hr hcl hv
    subst hc hp hsq hr hcl
    simp only [scaled, SparseMatrix.mk.injEq, and_true]
    apply List.ext_getElem?
    intro j
    rw [hv j, List.getElem?_map]
    by_cases hj : j < S.m_Values.length
    · rw [if_pos hj]
    · rw [if_neg hj, List.getElem?_eq_none (Nat.le_of_not_lt hj)]
      rfl

end SparseMatrix

theorem scaleRow_length (k : T) (row : List (Nat × T)) : (scaleRow k row).length = row.length := by
  simp [scaleRow]

theorem rowLookup_scaleRow (k : T) (c : Nat) : ∀ (row : List (Nat × T)),
    rowLookup (scaleRow k row) c = rowLookup row c * k := by
  intro row
  induction row with
  | nil => simp [scaleRow, rowLookup]
  | cons p row ih =>
    have e : scaleRow k (p :: row) = (p.1, p.2 * k) :: scaleRow k row := rfl
    rw [e, rowLookup, rowLookup, ih]
    by_cases h : p.1 = c
    · simp [h]
    · simp [h]

theorem rowsOffset_map_scaleRow (k : T) (rs : List (List (Nat × T))) (j : Nat) :
    rowsOffset (rs.map (scaleRow k)) j = rowsOffset rs j := by
  simp only [rowsOffset, ← List.map_take, List.length_flatten, List.map_map]
  congr 1
  apply List.map_congr_left
  intro row _
  exact scaleRow_length k row

namespace SparseMatrix

/-- Scaling a matrix that encodes the rows `rs` gives the encoding of the scaled rows. -/
theorem Represents.scaled {S : SparseMatrix T} {rs : List (List (Nat × T))}
    (h : S.Represents rs) (k : T) : (S.scaled k).Represents (rs.map (scaleRow k)) := by
  obtain ⟨h1, h2, h3, h4⟩ := h
  refine ⟨?_, ?_, ?_, ?_⟩
  · simp [SparseMatrix.scaled, h1]
  · simp only [SparseMatrix.scaled, h2, List.map_flatten, List.map_map]
    congr 1
    apply List.map_congr_left
    intro row _
    simp [scaleRow, List.map_map, Function.comp_def]
  · simp only [SparseMatrix.scaled, h3, List.map_flatten, List.map_map]
    congr 1
    apply List.map_congr_left
    intro row _
    simp [scaleRow, List.map_map, Function.comp_def]
  · simp only [SparseMatrix.scaled, h4, List.length_map]
    apply List.map_congr_left
    intro j _
    exact (rowsOffset_map_scaleRow k rs j).symm

/-- Lookup after `operator*=(k)` on a matrix that satisfies the format invariant. -/
theorem CSRInvariant.get_scaled {S : SparseMatrix T} (h : S.CSRInvariant) (k : T) {r c : Nat}
    (hr : r < S.m_Rows) (hc : c < S.m_Cols) :
    S.get r c = .ok (rowLookup (S.rowsList.getD r []) c) ∧
      (S.scaled k).get r c = .ok (rowLookup (S.rowsList.getD r []) c * k) := by
  refine ⟨h.represents.get_eq hr hc, ?_⟩
  have hS := h.represents.scaled k
  rw [hS.get_eq (r := r) (c := c) hr hc]
  congr 1
  have hrl : r < S.rowsList.length := by rw [rowsList_length]; exact hr
  have e1 : (S.rowsList.map (scaleRow k)).getD r [] = scaleRow k S.rowsList[r] := by
    simp [hrl]
  have e2 : S.rowsList.getD r [] = S.rowsList[r] := by simp [hrl]
  rw [e1, e2, rowLookup_scaleRow]

end SparseMatrix

/-! ## Columns and values of a merged row -/

theorem mergeRow_col_of_left : ∀ (a b : List (Nat × T)) (c : Nat), (∃ p ∈ a, p.1 = c) →
    ∃ x ∈ mergeRow a b, x.1 = c := by
  intro a
  induction a with
  | nil => intro b c h; obtain ⟨p, hp, _⟩ := h; cases hp
  | cons p a iha =>
    intro b
    induction b with
    | nil => intro c h; rw [mergeRow_nil_right]; exact h
    | cons q b ihb =>
      intro c h
      obtain ⟨y, hy, hyc⟩ := h
      rw [mergeRow_cons_cons]
      by_cases h1 : p.1 < q.1
      · simp only [h1, if_true]
        rcases List.mem_cons.1 hy with rfl | hy
        · exact ⟨y, List.mem_cons_self _ _, hyc⟩
        · obtain ⟨x, hx, hxc⟩ := iha (q :: b) c ⟨y, hy, hyc⟩
          exact ⟨x, List.mem_cons_of_mem _ hx, hxc⟩
      · by_cases h2 : p.1 > q.1
        · simp only [h1, if_false, h2, if_true]
          obtain ⟨x, hx, hxc⟩ := ihb c ⟨y, hy, hyc⟩
          exact ⟨x, List.mem_cons_of_mem _ hx, hxc⟩
        · simp only [h1, if_false, h2]
          rcases List.mem_cons.1 hy with rfl | hy
          · exact ⟨(y.1, y.2 + q.2), List.mem_cons_self _ _, hyc⟩
          · obtain ⟨x, hx, hxc⟩ := iha b c ⟨y, hy, hyc⟩
            exact ⟨x, List.mem_cons_of_mem _ hx, hxc⟩

theorem mergeRow_col_of_right : ∀ (a b : List (Nat × T)) (c : Nat), (∃ q ∈ b, q.1 = c) →
    ∃ x ∈ mergeRow a b, x.1 = c := by
  intro a
  induction a with
  | nil => intro b c h; rw [mergeRow_nil_left]; exact h
  | cons p a iha =>
    intro b
    induction b with
    | nil => intro c h; obtain ⟨q, hq, _⟩ := h; cases hq
    | cons q b ihb =>
      intro c h
      obtain ⟨y, hy, hyc⟩ := h
      rw [mergeRow_cons_cons]
      by_cases h1 : p.1 < q.1
      · simp only [h1, if_true]
        obtain ⟨x, hx, hxc⟩ := iha (q :: b) c ⟨y, hy, hyc⟩
        exact ⟨x, List.mem_cons_of_mem _ hx, hxc⟩
      · by_cases h2 : p.1 > q.1
        · simp only [h1, if_false, h2, if_true]
          rcases List.mem_cons.1 hy with rfl | hy
          · exact ⟨y, List.mem_cons_self _ _, hyc⟩
          · obtain ⟨x, hx, hxc⟩ := ihb c ⟨y, hy, hyc⟩
            exact ⟨x, List.mem_cons_of_mem _ hx, hxc⟩
        · simp only [h1, if_false, h2]
          rcases List.mem_cons.1 hy with rfl | hy
          · exact ⟨(p.1, p.2 + y.2), List.mem_cons_self _ _, by
              show p.1 = c
              omega⟩
          · obtain ⟨x, hx, hxc⟩ := iha b c ⟨y, hy, hyc⟩
            exact ⟨x, List.mem_cons_of_mem _ hx, hxc⟩

/-- The columns of a merged row are the union of the columns of the two rows. -/
theorem mergeRow_col_iff (a b : List (Nat × T)) (c : Nat) :
    (∃ x ∈ mergeRow a b, x.1 = c) ↔ ((∃ p ∈ a, p.1 = c) ∨ (∃ q ∈ b, q.1 = c)) := by
  constructor
  · rintro ⟨x, hx, rfl⟩
    exact mem_mergeRow a b x hx
  · rintro (h | h)
    · exact mergeRow_col_of_left a b c h
    · exact mergeRow_col_of_right a b c h

/-- In a row with strictly increasing columns the lookup of the column of an entry is the
value of that entry. -/
theorem rowLookup_of_mem : ∀ (l : List (Nat × T)), RowSorted l → ∀ p ∈ l,
    rowLookup l p.1 = p.2 := by
  intro l
  induction l with
  | nil => intro _ p hp; cases hp
  | cons q l ih =>
    intro h p hp
    rcases List.mem_cons.1 hp with rfl | hp'
    · simp [rowLookup]
    · have hlt := h.head_lt p hp'
      have hne : ¬ q.1 = p.1 := by omega
      rw [rowLookup, if_neg hne]
      exact ih h.of_cons p hp'

theorem mem_rowLookup : ∀ (l : List (Nat × T)) (c : Nat), (∃ p ∈ l, p.1 = c) →
    (c, rowLookup l c) ∈ l := by
  intro l
  induction l with
  | nil => intro c h; obtain ⟨p, hp, _⟩ := h; cases hp
  | cons q l ih =>
    intro c h
    by_cases hq : q.1 = c
    · rw [rowLookup, if_pos hq, ← hq]
      exact List.mem_cons_self _ _
    · rw [rowLookup, if_neg hq]
      obtain ⟨p, hp, hpc⟩ := h
      rcases List.mem_cons.1 hp with rfl | hp'
      · exact absurd hpc hq
      · exact List.mem_cons_of_mem _ (ih c ⟨p, hp', hpc⟩)

theorem RowSorted.nodup_cols {l : List (Nat × T)} (h : RowSorted l) :
    (l.map Prod.fst).Nodup :=
  List.Pairwise.imp (fun hab => Nat.ne_of_lt hab) h

/-- Entries at one column of two sorted rows are stored in the merged row as one entry
with the sum of the values. -/
theorem mergeRow_mem_sum {a b : List (Nat × T)} (ha : RowSorted a) (hb : RowSorted b)
    {c : Nat} {x y : T} (hx : (c, x) ∈ a) (hy : (c, y) ∈ b) : (c, x + y) ∈ mergeRow a b := by
  have h1 := mem_rowLookup (mergeRow a b) c (mergeRow_col_of_left a b c ⟨(c, x), hx, rfl⟩)
  rw [rowLookup_mergeRow c a b ha hb] at h1
  have e1 := rowLookup_of_mem a ha (c, x) hx
  have e2 := rowLookup_of_mem b hb (c, y) hy
  simp only at e1 e2
  rw [e1, e2] at h1
  exact h1

/-! ## Sums of matrices that satisfy the format invariant -/

theorem zipWith_mergeRow_getElem? {xs ys : List (List (Nat × T))} {r : Nat}
    {a b : List (Nat × T)} (hx : xs[r]? = some a) (hy : ys[r]? = some b) :
    (List.zipWith mergeRow xs ys)[r]? = some (mergeRow a b) := by
  simp [List.getElem?_zipWith, hx, hy]

theorem zipWith_mergeRow_mem {xs ys : List (List (Nat × T))} {row : List (Nat × T)}
    (h : row ∈ List.zipWith mergeRow xs ys) : ∃ a ∈ xs, ∃ b ∈ ys, row = mergeRow a b := by
  obtain ⟨r, hr⟩ := List.mem_iff_getElem?.1 h
  have hlt : r < (List.zipWith mergeRow xs ys).length := (List.getElem?_eq_some.1 hr).1
  simp only [List.length_zipWith] at hlt
  have hx : xs[r]? = some xs[r] := List.getElem?_eq_getElem (by omega)
  have hy : ys[r]? = some ys[r] := List.getElem?_eq_getElem (by omega)
  rw [zipWith_mergeRow_getElem? hx hy] at hr
  exact ⟨xs[r], List.getElem_mem _, ys[r], List.getElem_mem _, (Option.some.inj hr).symm⟩

namespace SparseMatrix

/-- `operator+` on operands of one shape that satisfy the format invariant: the result is
the encoding of the merged rows; it has the shape of the operands, satisfies the format
invariant, its row segments are the merged rows and its lookup is the sum of the
lookups. -/
theorem CSRInvariant.sum_spec {X Y : SparseMatrix T} (hX : X.CSRInvariant)
    (hY : Y.CSRInvariant) (hr : X.m_Rows = Y.m_Rows) (hc : X.m_Cols = Y.m_Cols) :
    ∃ S, X.add Y = .ok S ∧ S.m_Rows = X.m_Rows ∧ S.m_Cols = X.m_Cols ∧ S.CSRInvariant ∧
      S.Represents (List.zipWith mergeRow X.rowsList Y.rowsList) ∧
      (∀ r, r < X.m_Rows → S.rowEntries r = mergeRow (X.rowEntries r) (Y.rowEntries r)) ∧
      (∀ r c, r < X.m_Rows → c < X.m_Cols →
        ∃ x y, X.get r c = .ok x ∧ Y.get r c = .ok y ∧ S.get r c = .ok (x + y)) := by
  have hadd := hX.represents.add_eq hY.represents hr hc
  have hS := encode_represents (List.zipWith mergeRow X.rowsList Y.rowsList)
    (decide (X.m_Rows = X.m_Cols)) X.m_Cols
  have hlen : (List.zipWith mergeRow X.rowsList Y.rowsList).length = X.m_Rows := by
    simp [rowsList_length, hr]
  have hrowz : ∀ r, r < X.m_Rows → (List.zipWith mergeRow X.rowsList Y.rowsList)[r]? =
      some (mergeRow (X.rowEntries r) (Y.rowEntries r)) := fun r hr' =>
    zipWith_mergeRow_getElem? (rowsList_getElem? X hr')
      (rowsList_getElem? Y (by rw [← hr]; exact hr'))
  have hsorted : ∀ row ∈ List.zipWith mergeRow X.rowsList Y.rowsList, RowSorted row := by
    intro row hrow
    obtain ⟨a, ha, b, hb, rfl⟩ := zipWith_mergeRow_mem hrow
    exact mergeRow_sorted a b (hX.rows_sorted a ha) (hY.rows_sorted b hb)
  have hbound : ∀ row ∈ List.zipWith mergeRow X.rowsList Y.rowsList, ∀ p ∈ row,
      p.1 < X.m_Cols := by
    intro row hrow
    obtain ⟨a, ha, b, hb, rfl⟩ := zipWith_mergeRow_mem hrow
    exact mergeRow_cols_lt (hX.rows_cols_lt a ha)
      (fun p hp => by rw [hc]; exact hY.rows_cols_lt b hb p hp)
  refine ⟨_, hadd, hlen, rfl, hS.invariant hsorted hbound, hS, ?_, ?_⟩
  · intro r hr'
    exact hS.rowEntries_eq (hrowz r hr')
  · intro r c hr' hc'
    have hYr : r < Y.m_Rows := by rw [← hr]; exact hr'
    refine ⟨_, _, hX.represents.get_eq hr' hc',
      hY.represents.get_eq hYr (by rw [← hc]; exact hc'), ?_⟩
    rw [hS.get_eq (r := r) (c := c) (by rw [show (encode _ _ _).m_Rows = _ from hlen]; exact hr')
      hc']
    congr 1
    have e0 : (List.zipWith mergeRow X.rowsList Y.rowsList).getD r [] =
        mergeRow (X.rowEntries r) (Y.rowEntries r) := by
      rw [List.getD_eq_getElem?_getD, hrowz r hr']; rfl
    have e1 : X.rowsList.getD r [] = X.rowEntries r := by
      rw [List.getD_eq_getElem?_getD, rowsList_getElem? X hr']; rfl
    have e2 : Y.rowsList.getD r [] = Y.rowEntries r := by
      rw [List.getD_eq_getElem?_getD, rowsList_getElem? Y hYr]; rfl
    rw [e0, e1, e2]
    exact rowLookup_mergeRow c _ _
      (hX.rows_sorted _ (mem_of_getElem?_eq (rowsList_getElem? X hr')))
      (hY.rows_sorted _ (mem_of_getElem?_eq (rowsList_getElem? Y hYr)))

/-- `SparseMatrix(D)` of a well-formed dense matrix: shape, format invariant and lookup. -/
theorem ofMatrix_spec {D : Matrix T} (hD : D.WellFormed) :
    ∃ S, ofMatrix D = .ok S ∧ S.m_Rows = D.m_Rows ∧ S.m_Cols = D.m_Cols ∧ S.CSRInvariant ∧
      ∀ r c, r < D.m_Rows → c < D.m_Cols → S.get r c = .ok (D.entry r c) := by
  have hR := encode_represents (nzRows D) D.m_IsSquare D.m_Cols
  refine ⟨_, ofMatrix_eq hD, nzRows_length D, rfl,
    hR.invariant (nzRows_sorted D) (nzRows_cols_lt D), ?_⟩
  intro r c hr hc
  rw [hR.get_eq (r := r) (c := c)
    (by rw [show (encode _ _ _).m_Rows = _ from nzRows_length D]; exact hr) hc,
    nzRows_getD D hr, rowLookup_nzRow D r hc]

end SparseMatrix

/-! ## Which operations can raise the invalid-argument error -/

theorem notInvalid_ok {α : Type} (a : α) : NotInvalid (Except.ok a : Except Err α) := by
  intro h; cases h

theorem notInvalid_pure {α : Type} (a : α) : NotInvalid (pure a : Except Err α) :=
  notInvalid_ok a

theorem notInvalid_error {α : Type} {e : Err} (he : e ≠ .invalid_argument) :
    NotInvalid (Except.error e : Except Err α) := by
  intro h; exact he (Except.error.inj h)

theorem notInvalid_of_onlyUndefined {α : Type} {x : Except Err α} (h : OnlyUndefined x) :
    NotInvalid x := by
  intro hx
  have := h _ hx
  cases this

theorem notInvalid_bind {α β : Type} {x : Except Err α} {f : α → Except Err β}
    (hx : NotInvalid x) (hf : ∀ a, NotInvalid (f a)) : NotInvalid (x >>= f) := by
  cases x with
  | error e =>
    intro h
    simp only [bind_error_eq] at h
    have he : e = Err.invalid_argument := Except.error.inj h
    exact hx (by rw [he])
  | ok a => exact hf a

theorem notInvalid_exceptBind {α β : Type} {x : Except Err α} {f : α → Except Err β}
    (hx : NotInvalid x) (hf : ∀ a, NotInvalid (f a)) : NotInvalid (x.bind f) :=
  notInvalid_bind hx hf

theorem notInvalid_vecGet {α : Type} (v : List α) (i : Nat) : NotInvalid (vecGet v i) :=
  notInvalid_of_onlyUndefined (OnlyUndefined.vecGet v i)

theorem notInvalid_vecModify {α : Type} (v : List α) (i : Nat) (f : α → α) :
    NotInvalid (vecModify v i f) :=
  notInvalid_of_onlyUndefined (OnlyUndefined.vecModify v i f)

theorem notInvalid_vecSet {α : Type} (v : List α) (i : Nat) (x : α) :
    NotInvalid (vecSet v i x) :=
  notInvalid_vecModify v i _

theorem notInvalid_forLoopAux {σ : Type} (body : Nat → σ → Except Err σ)
    (hb : ∀ i s, NotInvalid (body i s)) : ∀ k i s, NotInvalid (forLoopAux body k i s) := by
  intro k
  induction k with
  | zero => intro i s; exact notInvalid_ok s
  | succ k ih =>
    intro i s
    rw [forLoopAux]
    exact notInvalid_exceptBind (hb i s) (fun a => ih (i + 1) a)

theorem notInvalid_forLoop {σ : Type} (lo hi : Nat) (body : Nat → σ → Except Err σ)
    (hb : ∀ i s, NotInvalid (body i s)) (s : σ) : NotInvalid (forLoop lo hi body s) :=
  notInvalid_forLoopAux body hb _ _ _

theorem notInvalid_matrixGet (M : Matrix T) (r c : Nat) : NotInvalid (M.get r c) := by
  unfold Matrix.get
  split
  · exact notInvalid_error (by decide)
  · exact notInvalid_bind (notInvalid_vecGet _ _) (fun row => notInvalid_vecGet _ _)

theorem notInvalid_matrixModify (M : Matrix T) (r c : Nat) (f : T → T) :
    NotInvalid (M.modify r c f) := by
  unfold Matrix.modify
  split
  · exact notInvalid_error (by decide)
  · exact notInvalid_bind (notInvalid_vecGet _ _) (fun row =>
      notInvalid_bind (notInvalid_vecModify _ _ _) (fun row' => notInvalid_pure _))

theorem notInvalid_ofData (data : List (List T)) : NotInvalid (Matrix.ofData data) := by
  unfold Matrix.ofData
  exact notInvalid_bind (notInvalid_vecGet _ _) (fun row => notInvalid_pure _)

namespace SparseMatrix

theorem notInvalid_traceLoop (S : SparseMatrix T) (cRow : Nat) :
    ∀ k i (t : T), NotInvalid (traceLoop S cRow k i t) := by
  intro k
  induction k with
  | zero => intro i t; exact notInvalid_ok t
  | succ k ih =>
    intro i t
    rw [traceLoop]
    apply notInvalid_bind (notInvalid_vecGet _ _)
    intro c
    split
    · exact notInvalid_bind (notInvalid_vecGet _ _) (fun v => notInvalid_pure _)
    · exact ih (i + 1) t

theorem notInvalid_standard (S : SparseMatrix T) : NotInvalid S.GetStandardMatrix := by
  unfold GetStandardMatrix
  apply notInvalid_forLoop
  intro cRow M
  apply notInvalid_bind (notInvalid_vecGet _ _)
  intro startIdx
  apply notInvalid_bind (notInvalid_vecGet _ _)
  intro endIdx
  apply notInvalid_forLoop
  intro cIdx M'
  apply notInvalid_bind (notInvalid_vecGet _ _)
  intro c
  apply notInvalid_bind (notInvalid_vecGet _ _)
  intro v
  exact notInvalid_matrixModify _ _ _ _

theorem notInvalid_detAux : ∀ (fuel : Nat) (M : Matrix T),
    NotInvalid (DeterminantRecursiveAux fuel M) := by
  intro fuel
  induction fuel with
  | zero => intro M; rw [DeterminantRecursiveAux]; exact notInvalid_error (by decide)
  | succ fuel ih =>
    intro M
    rw [DeterminantRecursiveAux]
    split
    · exact notInvalid_matrixGet _ _ _
    · split
      · apply notInvalid_bind (notInvalid_matrixGet _ _ _)
        intro a
        apply notInvalid_bind (notInvalid_matrixGet _ _ _)
        intro d
        apply notInvalid_bind (notInvalid_matrixGet _ _ _)
        intro b
        apply notInvalid_bind (notInvalid_matrixGet _ _ _)
        intro c
        exact notInvalid_pure _
      · apply notInvalid_forLoop
        intro cCol det
        apply notInvalid_bind
        · apply notInvalid_forLoop
          intro i mm
          apply notInvalid_bind
          · apply notInvalid_forLoop
            intro j st
            split
            · apply notInvalid_bind (notInvalid_matrixGet _ _ _)
              intro x
              apply notInvalid_bind (notInvalid_vecGet _ _)
              intro row
              apply notInvalid_bind (notInvalid_vecSet _ _ _)
              intro row'
              apply notInvalid_bind (notInvalid_vecSet _ _ _)
              intro mm'
              exact notInvalid_pure _
            · exact notInvalid_pure _
          · intro st
            exact notInvalid_pure _
        · intro mm
          apply notInvalid_bind (notInvalid_matrixGet _ _ _)
          intro a
          apply notInvalid_bind (notInvalid_ofData _)
          intro minor
          apply notInvalid_bind (ih minor)
          intro d
          exact notInvalid_pure _

/-- `GetTrace` raises the invalid-argument error exactly when `m_IsSquare` is false. -/
theorem trace_invalid_iff (S : SparseMatrix T) :
    S.GetTrace = .error .invalid_argument ↔ S.m_IsSquare = false := by
  constructor
  · intro h
    by_contra hsq
    have hsq' : S.m_IsSquare = true := by simpa using hsq
    have hN : NotInvalid S.GetTrace := by
      unfold GetTrace
      simp only [hsq', not_true_eq_false, if_false]
      apply notInvalid_forLoop
      intro cRow t
      apply notInvalid_bind (notInvalid_vecGet _ _)
      intro startIdx
      apply notInvalid_bind (notInvalid_vecGet _ _)
      intro endIdx
      exact notInvalid_traceLoop _ _ _ _ _
    exact hN h
  · intro h
    simp [GetTrace, h]

/-- `GetDeterminant` raises the invalid-argument error exactly when `m_IsSquare` is
false. -/
theorem determinant_invalid_iff (S : SparseMatrix T) :
    S.GetDeterminant = .error .invalid_argument ↔ S.m_IsSquare = false := by
  constructor
  · intro h
    by_contra hsq
    have hsq' : S.m_IsSquare = true := by simpa using hsq
    have hN : NotInvalid S.GetDeterminant := by
      unfold GetDeterminant
      simp only [hsq', not_true_eq_false, if_false]
      apply notInvalid_bind (notInvalid_standard S)
      intro M
      exact notInvalid_detAux _ _
    exact hN h
  · intro h
    simp [GetDeterminant, h]

/-- `DeterminantRecursive` on a matrix without columns: the cofactor loop does not run. -/
theorem DeterminantRecursive_zero {D : Matrix T} (h : D.m_Cols = 0) :
    DeterminantRecursive D = .ok 0 := by
  simp [DeterminantRecursive, DeterminantRecursiveAux, h, forLoop, forLoopAux]

/-- On a square matrix that satisfies the format invariant `GetTrace` and `GetDeterminant`
return a value. -/
theorem CSRInvariant.trace_determinant_ok {S : SparseMatrix T} (h : S.CSRInvariant)
    (hsq : S.m_IsSquare = true) (hrc : S.m_Rows = S.m_Cols) :
    (∃ t, S.GetTrace = .ok t) ∧ ∃ d, S.GetDeterminant = .ok d := by
  refine ⟨⟨_, h.represents.trace_eq hsq⟩, ?_⟩
  have hstd := h.represents.standard_eq h.rows_cols_lt
  simp only [GetDeterminant, hsq, not_true_eq_false, if_false]
  rw [hstd]
  simp only [bind_ok_eq]
  by_cases hn : S.m_Cols = 0
  · exact ⟨0, DeterminantRecursive_zero hn⟩
  · have hshape := Matrix.tabulate_shaped S.m_Rows S.m_Cols
      (fun r c => rowDense (S.rowsList.getD r []) c)
    rw [hrc] at hshape ⊢
    exact ⟨_, DeterminantRecursive_eq hshape (by omega)⟩

end SparseMatrix

/-! ## Further facts on products, row segments and duplicate columns -/

namespace SparseMatrix

/-- For operands that satisfy the format invariant with `X.cols == Y.rows`, when every
column stored in `Y` is below `X.cols` (the length of the accumulator), `X * Y` returns a
matrix of shape `(X.rows, Y.cols)` that satisfies the format invariant and stores no
zero. -/
theorem mul_of_stored_cols_lt {X Y : SparseMatrix T} (hX : X.CSRInvariant)
    (hY : Y.CSRInvariant) (hc : X.m_Cols = Y.m_Rows)
    (hys : ∀ row ∈ Y.rowsList, ∀ q ∈ row, q.1 < X.m_Cols) :
    ∃ S, X.mul Y = .ok S ∧ S.m_Rows = X.m_Rows ∧ S.m_Cols = Y.m_Cols ∧ S.CSRInvariant ∧
      ∀ v ∈ S.m_Values, v ≠ 0 := by
  have hmul := hX.represents.mul_eq hY.represents hc hX.rows_cols_lt hys
  have hR := encode_represents (mulRows X.rowsList Y.rowsList X.m_Cols)
    (decide (X.m_Rows = Y.m_Cols)) Y.m_Cols
  refine ⟨_, hmul, ?_, rfl, ?_, ?_⟩
  · simp [encode, mulRows, rowsList_length]
  · apply hR.invariant
    · intro row hrow
      simp only [mulRows, List.mem_map] at hrow
      obtain ⟨xrow, _, rfl⟩ := hrow
      exact nzOfFn_sorted _ _
    · exact mulRows_cols_lt _ _ _ _ hys hY.rows_cols_lt
  · intro v hv
    simp only [encode, List.mem_map, List.mem_flatten, mulRows] at hv
    obtain ⟨p, ⟨row, ⟨xrow, _, rfl⟩, hp⟩, rfl⟩ := hv
    exact (mem_nzOfFn hp).2.2

/-- The value of an entry of a row segment is one of the stored values. -/
theorem mem_values_of_mem_rowEntries {S : SparseMatrix T} {r : Nat} {p : Nat × T}
    (h : p ∈ S.rowEntries r) : p.2 ∈ S.m_Values := by
  have h1 : p ∈ S.m_ColsIdx.zip S.m_Values :=
    List.mem_of_mem_drop (List.mem_of_mem_take h)
  obtain ⟨c, v⟩ := p
  exact (List.of_mem_zip h1).2

/-- The row segments of a matrix that satisfies the format invariant have strictly
increasing columns below `cols`. -/
theorem CSRInvariant.rowEntries_sorted {S : SparseMatrix T} (h : S.CSRInvariant) {r : Nat}
    (hr : r < S.m_Rows) :
    RowSorted (S.rowEntries r) ∧ ∀ p ∈ S.rowEntries r, p.1 < S.m_Cols :=
  ⟨h.rows_sorted _ (mem_of_getElem?_eq (rowsList_getElem? S hr)),
    h.rows_cols_lt _ (mem_of_getElem?_eq (rowsList_getElem? S hr))⟩

end SparseMatrix

/-- With a column stored twice in a row, lookup returns the first entry and the dense
conversion keeps the last one: raw arrays `values = [1, 2]`, `col_idx = [0, 0]`,
`row_ptr = [0, 2]` of a `1 × 1` matrix give `M(0, 0) = 1` and
`M.GetStandardMatrix()(0, 0) = 2`. -/
theorem duplicate_lookup_differs :
    ¬ duplicateS.CSRInvariant ∧ duplicateS.get 0 0 = .ok 1 ∧
    (do let D ← duplicateS.GetStandardMatrix; D.get 0 0) = .ok 2 := by
  decide

/-! ## The claims on errors of trace and determinant, scaling, and sums -/

/-- Claim C11. `GetTrace` and `GetDeterminant` fail with the invalid-argument (not-square)
error exactly when `rows != cols`, both for a sparse matrix built from raw arrays and for one
built from a rectangular dense matrix `D`; on a square matrix that satisfies the CSR
invariant (and on `SparseMatrix(D)` for square `D`) neither fails. -/
theorem C11_not_square (values : List T) (colsIdx rowPtr : List Nat) (rows cols : Nat)
    (D : Matrix T) (hD : D.WellFormed) :
    ((SparseMatrix.ofArrays values colsIdx rowPtr rows cols).GetTrace =
        .error .invalid_argument ↔ rows ≠ cols) ∧
    ((SparseMatrix.ofArrays values colsIdx rowPtr rows cols).GetDeterminant =
        .error .invalid_argument ↔ rows ≠ cols) ∧
    ((SparseMatrix.ofArrays values colsIdx rowPtr rows cols).CSRInvariant → rows = cols →
      (∃ t, (SparseMatrix.ofArrays values colsIdx rowPtr rows cols).GetTrace = .ok t) ∧
      ∃ d, (SparseMatrix.ofArrays values colsIdx rowPtr rows cols).GetDeterminant = .ok d) ∧
    ∃ S, SparseMatrix.ofMatrix D = .ok S ∧
      (S.GetTrace = .error .invalid_argument ↔ D.m_Rows ≠ D.m_Cols) ∧
      (S.GetDeterminant = .error .invalid_argument ↔ D.m_Rows ≠ D.m_Cols) ∧
      (D.m_Rows = D.m_Cols → (∃ t, S.GetTrace = .ok t) ∧ ∃ d, S.GetDeterminant = .ok d) := by
  have hsqA : (SparseMatrix.ofArrays values colsIdx rowPtr rows cols).m_IsSquare = false ↔
      rows ≠ cols := by
    simp [SparseMatrix.ofArrays]
  refine ⟨?_, ?_, ?_, ?_⟩
  · rw [SparseMatrix.trace_invalid_iff, hsqA]
  · rw [SparseMatrix.determinant_invalid_iff, hsqA]
  · intro hinv hrc
    exact hinv.trace_determinant_ok (by simp [SparseMatrix.ofArrays, hrc]) hrc
  · have hR := SparseMatrix.encode_represents (nzRows D) D.m_IsSquare D.m_Cols
    have hinv := hR.invariant (nzRows_sorted D) (nzRows_cols_lt D)
    have hsqD : (SparseMatrix.encode (nzRows D) D.m_IsSquare D.m_Cols).m_IsSquare = false ↔
        D.m_Rows ≠ D.m_Cols := by
      show D.m_IsSquare = false ↔ _
      rw [hD.2]; simp
    refine ⟨_, SparseMatrix.ofMatrix_eq hD, ?_, ?_, ?_⟩
    · rw [SparseMatrix.trace_invalid_iff, hsqD]
    · rw [SparseMatrix.determinant_invalid_iff, hsqD]
    · intro hrc
      refine hinv.trace_determinant_ok ?_ ?_
      · show D.m_IsSquare = true
        rw [hD.2]; simp [hrc]
      · show (nzRows D).length = D.m_Cols
        rw [nzRows_length]; exact hrc

/-- Witness of C11 on the raw arrays of the CSR form of `[[0, 2], [3, 0]]` and on the
`1 × 2` dense matrix `[[0, 1]]`. -/
theorem C11_not_square_witness :
    wideB.WellFormed ∧
    ((SparseMatrix.ofArrays [2, 3] [1, 0] [0, 1, 2] 2 2 : SparseMatrix Int).GetTrace =
        .error .invalid_argument ↔ 2 ≠ 2) ∧
    ((SparseMatrix.ofArrays [2, 3] [1, 0] [0, 1, 2] 2 2 : SparseMatrix Int).GetDeterminant =
        .error .invalid_argument ↔ 2 ≠ 2) ∧
    ((SparseMatrix.ofArrays [2, 3] [1, 0] [0, 1, 2] 2 2 : SparseMatrix Int).CSRInvariant →
      2 = 2 →
      (∃ t, (SparseMatrix.ofArrays [2, 3] [1, 0] [0, 1, 2] 2 2 :
        SparseMatrix Int).GetTrace = .ok t) ∧
      ∃ d, (SparseMatrix.ofArrays [2, 3] [1, 0] [0, 1, 2] 2 2 :
        SparseMatrix Int).GetDeterminant = .ok d) ∧
    ∃ S, SparseMatrix.ofMatrix wideB = .ok S ∧
      (S.GetTrace = .error .invalid_argument ↔ wideB.m_Rows ≠ wideB.m_Cols) ∧
      (S.GetDeterminant = .error .invalid_argument ↔ wideB.m_Rows ≠ wideB.m_Cols) ∧
      (wideB.m_Rows = wideB.m_Cols →
        (∃ t, S.GetTrace = .ok t) ∧ ∃ d, S.GetDeterminant = .ok d) :=
  ⟨by decide, C11_not_square [2, 3] [1, 0] [0, 1, 2] 2 2 wideB (by decide)⟩

/-- Claim C12. For every sparse matrix `M` and every scalar `k` (zero included), `M *= k`
keeps the length of `values` and replaces `values[i]` by `values[i] * k`; `col_idx`,
`row_ptr`, `rows` and `cols` are unchanged. Hence, when `M` satisfies the CSR invariant,
the lookup at every in-range position is `k` times the previous one, and for `k = 0` every
stored entry stays in place with value `0`. -/
theorem C12_scale (M : SparseMatrix T) (k : T) :
    ∃ M', M.scale k = .ok M' ∧ M'.m_Values.length = M.m_Values.length ∧
      (∀ i, i < M.m_Values.length → M'.m_Values[i]? = M.m_Values[i]?.map (fun x => x * k)) ∧
      M'.m_ColsIdx = M.m_ColsIdx ∧ M'.m_RowPtr = M.m_RowPtr ∧ M'.m_Rows = M.m_Rows ∧
      M'.m_Cols = M.m_Cols ∧
      (M.CSRInvariant → ∀ r c, r < M.m_Rows → c < M.m_Cols →
        ∃ v, M.get r c = .ok v ∧ M'.get r c = .ok (k * v)) ∧
      (k = 0 → ∀ v ∈ M'.m_Values, v = 0) := by
  refine ⟨M.scaled k, SparseMatrix.scale_eq M k, ?_, ?_, rfl, rfl, rfl, rfl, ?_, ?_⟩
  · simp [SparseMatrix.scaled]
  · intro i _
    simp [SparseMatrix.scaled]
  · intro hinv r c hr hc
    obtain ⟨h1, h2⟩ := hinv.get_scaled k hr hc
    exact ⟨_, h1, by rw [h2, mul_comm]⟩
  · intro hk v hv
    simp only [SparseMatrix.scaled, List.mem_map] at hv
    obtain ⟨x, _, rfl⟩ := hv
    rw [hk, mul_zero]

/-- Witness of C12: `diag(1, 2, 3)` scaled by `2` as in `TestScalarMultiplication`. -/
theorem C12_scale_witness :
    diagS.scale 2 = .ok (SparseMatrix.ofArrays [2, 4, 6] [0, 1, 2] [0, 1, 2, 3] 3 3) ∧
    diagS.scale 0 = .ok (SparseMatrix.ofArrays [0, 0, 0] [0, 1, 2] [0, 1, 2, 3] 3 3) ∧
    ∃ M', diagS.scale 2 = .ok M' ∧ M'.m_Values.length = diagS.m_Values.length ∧
      (∀ i, i < diagS.m_Values.length →
        M'.m_Values[i]? = diagS.m_Values[i]?.map (fun x => x * 2)) ∧
      M'.m_ColsIdx = diagS.m_ColsIdx ∧ M'.m_RowPtr = diagS.m_RowPtr ∧
      M'.m_Rows = diagS.m_Rows ∧ M'.m_Cols = diagS.m_Cols ∧
      (diagS.CSRInvariant → ∀ r c, r < diagS.m_Rows → c < diagS.m_Cols →
        ∃ v, diagS.get r c = .ok v ∧ M'.get r c = .ok (2 * v)) ∧
      ((2 : Int) = 0 → ∀ v ∈ M'.m_Values, v = 0) :=
  ⟨by decide, by decide, C12_scale diagS 2⟩

/-- Claim C13. For dense matrices `A`, `B`, `C` of one shape, the sparse sums
`(SparseMatrix(A) + SparseMatrix(B)) + SparseMatrix(C)` and
`SparseMatrix(A) + (SparseMatrix(B) + SparseMatrix(C))` are both built and return the same
value, `A(r, c) + B(r, c) + C(r, c)`, at every in-range position. -/
theorem C13_sum_associative (n m : Nat) (A B C : Matrix T) (hA : A.Shaped n m)
    (hB : B.Shaped n m) (hC : C.Shaped n m) :
    ∃ SA SB SC SAB SBC L R, SparseMatrix.ofMatrix A = .ok SA ∧
      SparseMatrix.ofMatrix B = .ok SB ∧ SparseMatrix.ofMatrix C = .ok SC ∧
      SA.add SB = .ok SAB ∧ SB.add SC = .ok SBC ∧ SAB.add SC = .ok L ∧
      SA.add SBC = .ok R ∧
      ∀ r c, r < n → c < m →
        L.get r c = .ok (A.entry r c + B.entry r c + C.entry r c) ∧
        R.get r c = .ok (A.entry r c + B.entry r c + C.entry r c) := by
  obtain ⟨SA, hSA, hAr, hAc, hAi, hAg⟩ := SparseMatrix.ofMatrix_spec hA.1
  obtain ⟨SB, hSB, hBr, hBc, hBi, hBg⟩ := SparseMatrix.ofMatrix_spec hB.1
  obtain ⟨SC, hSC, hCr, hCc, hCi, hCg⟩ := SparseMatrix.ofMatrix_spec hC.1
  rw [hA.2.1] at hAr hAg; rw [hA.2.2] at hAc hAg
  rw [hB.2.1] at hBr hBg; rw [hB.2.2] at hBc hBg
  rw [hC.2.1] at hCr hCg; rw [hC.2.2] at hCc hCg
  obtain ⟨SAB, hSAB, hABr, hABc, hABi, _, _, hABg⟩ :=
    hAi.sum_spec hBi (by rw [hAr, hBr]) (by rw [hAc, hBc])
  obtain ⟨SBC, hSBC, hBCr, hBCc, hBCi, _, _, hBCg⟩ :=
    hBi.sum_spec hCi (by rw [hBr, hCr]) (by rw [hBc, hCc])
  obtain ⟨L, hL, _, _, _, _, _, hLg⟩ :=
    hABi.sum_spec hCi (by rw [hABr, hAr, hCr]) (by rw [hABc, hAc, hCc])
  obtain ⟨R, hR, _, _, _, _, _, hRg⟩ :=
    hAi.sum_spec hBCi (by rw [hBCr, hAr, hBr]) (by rw [hBCc, hAc, hBc])
  refine ⟨SA, SB, SC, SAB, SBC, L, R, hSA, hSB, hSC, hSAB, hSBC, hL, hR, ?_⟩
  intro r c hr hc
  constructor
  · obtain ⟨x, y, hx, hy, hxy⟩ := hLg r c (by rw [hABr, hAr]; exact hr)
      (by rw [hABc, hAc]; exact hc)
    obtain ⟨a, b, ha, hb, hab⟩ := hABg r c (by rw [hAr]; exact hr) (by rw [hAc]; exact hc)
    rw [hAg r c hr hc] at ha
    rw [hBg r c hr hc] at hb
    rw [hCg r c hr hc] at hy
    rw [hab] at hx
    rw [hxy, ← Except.ok.inj hx, ← Except.ok.inj ha, ← Except.ok.inj hb, ← Except.ok.inj hy]
  · obtain ⟨x, y, hx, hy, hxy⟩ := hRg r c (by rw [hAr]; exact hr) (by rw [hAc]; exact hc)
    obtain ⟨b, d, hb, hd, hbd⟩ := hBCg r c (by rw [hBr]; exact hr) (by rw [hBc]; exact hc)
    rw [hAg r c hr hc] at hx
    rw [hBg r c hr hc] at hb
    rw [hCg r c hr hc] at hd
    rw [hbd] at hy
    rw [hxy, ← Except.ok.inj hx, ← Except.ok.inj hy, ← Except.ok.inj hb, ← Except.ok.inj hd,
      add_assoc]

/-- Witness of C13 on the matrices of `TestMatrixAddition` and the negative of the second
one, for which the intermediate sum `SparseMatrix(B) + SparseMatrix(C)` stores zeros only. -/
theorem C13_sum_associative_witness :
    exampleA.Shaped 3 3 ∧ exampleB.Shaped 3 3 ∧ exampleNegB.Shaped 3 3 ∧
    (do
      let b ← SparseMatrix.ofMatrix exampleB
      let c ← SparseMatrix.ofMatrix exampleNegB
      let s ← b.add c
      pure s.m_Values) = .ok [0, 0, 0, 0, 0, 0, 0, 0, 0] ∧
    ∃ SA SB SC SAB SBC L R, SparseMatrix.ofMatrix exampleA = .ok SA ∧
      SparseMatrix.ofMatrix exampleB = .ok SB ∧ SparseMatrix.ofMatrix exampleNegB = .ok SC ∧
      SA.add SB = .ok SAB ∧ SB.add SC = .ok SBC ∧ SAB.add SC = .ok L ∧
      SA.add SBC = .ok R ∧
      ∀ r c, r < 3 → c < 3 →
        L.get r c = .ok (exampleA.entry r c + exampleB.entry r c + exampleNegB.entry r c) ∧
        R.get r c = .ok (exampleA.entry r c + exampleB.entry r c + exampleNegB.entry r c) :=
  ⟨by decide, by decide, by decide, by decide,
    C13_sum_associative 3 3 exampleA exampleB exampleNegB (by decide) (by decide) (by decide)⟩

/-- Claim C14. Over a field, for every sparse matrix `M` and every non-zero scalar `k`,
`M *= k` followed by `M *= (1/k)` runs without error and restores `values`, `col_idx` and
`row_ptr` (the whole object) to their original contents. -/
theorem C14_scale_inverse {F : Type} [Field F] [DecidableEq F] (M : SparseMatrix F) (k : F)
    (hk : k ≠ 0) :
    ∃ M1 M2, M.scale k = .ok M1 ∧ M1.scale (1 / k) = .ok M2 ∧ M2.m_Values = M.m_Values ∧
      M2.m_ColsIdx = M.m_ColsIdx ∧ M2.m_RowPtr = M.m_RowPtr ∧ M2 = M := by
  have hv : ((M.scaled k).scaled (1 / k)).m_Values = M.m_Values := by
    simp only [SparseMatrix.scaled, List.map_map]
    conv_rhs => rw [← List.map_id M.m_Values]
    apply List.map_congr_left
    intro x _
    simp only [Function.comp_apply, id]
    field_simp
  refine ⟨M.scaled k, (M.scaled k).scaled (1 / k), SparseMatrix.scale_eq M k,
    SparseMatrix.scale_eq (M.scaled k) (1 / k), hv, rfl, rfl, ?_⟩
  cases M
  simp only [SparseMatrix.scaled] at hv ⊢
  simp only [SparseMatrix.mk.injEq, and_true]
  exact hv

/-- Witness of C14: `diag(1, 2, 3)` over the rationals, scaled by `2` and then by `1/2`. -/
theorem C14_scale_inverse_witness :
    (2 : ℚ) ≠ 0 ∧
    ∃ M1 M2, diagQ.scale 2 = .ok M1 ∧ M1.scale (1 / 2) = .ok M2 ∧
      M2.m_Values = diagQ.m_Values ∧ M2.m_ColsIdx = diagQ.m_ColsIdx ∧
      M2.m_RowPtr = diagQ.m_RowPtr ∧ M2 = diagQ :=
  ⟨by decide, C14_scale_inverse diagQ 2 (by decide)⟩

/-- Claim C15, evaluated at an input on which it fails. `X = [[2, 0], [0, 3]]` (`2 × 2`)
and `Y = [[1, 0, 4], [0, 1, 0]]` (`2 × 3`) satisfy the CSR invariant and
`X.cols == Y.rows`, yet the accumulator of `operator*` has `X.cols = 2` entries, not
`Y.cols = 3`: the access `rowResult[2]` for the entry of `Y` at column `2` is out of its
bounds, the final scan stops before column `2`, and `X * Y` has no defined result. -/
theorem C15_accumulator_length :
    diagX.CSRInvariant ∧ wideY3.CSRInvariant ∧ diagX.m_Cols = wideY3.m_Rows ∧
    (List.replicate diagX.m_Cols (0 : Int)).length = 2 ∧ wideY3.m_Cols = 3 ∧
    (2, (4 : Int)) ∈ wideY3.rowEntries 0 ∧
    vecModify (List.replicate diagX.m_Cols (0 : Int)) 2 (fun x => x + 2 * 4) =
      .error .undefined ∧
    diagX.mul wideY3 = .error .undefined := by
  decide

/-- Claim C16. For operands `X` and `Y` of equal shape that satisfy the CSR invariant,
`X + Y` is returned and satisfies it: `row_ptr` has `rows + 1` entries, `row_ptr[0] == 0`,
`row_ptr[r+1]` is `row_ptr[r]` plus the number of entries emitted for row `r` (the running
count), `row_ptr[rows] == values.size() == col_idx.size()`, and within each row segment
the column indices are strictly increasing and below `cols`. -/
theorem C16_sum_invariant (X Y : SparseMatrix T) (hX : X.CSRInvariant) (hY : Y.CSRInvariant)
    (hr : X.m_Rows = Y.m_Rows) (hc : X.m_Cols = Y.m_Cols) :
    ∃ S, X.add Y = .ok S ∧ S.m_Rows = X.m_Rows ∧ S.m_Cols = X.m_Cols ∧
      S.m_RowPtr.length = X.m_Rows + 1 ∧ S.m_RowPtr.getD 0 0 = 0 ∧
      (∀ r, r < X.m_Rows → S.m_RowPtr.getD (r + 1) 0 =
        S.m_RowPtr.getD r 0 + (mergeRow (X.rowEntries r) (Y.rowEntries r)).length) ∧
      (∀ r, r ≤ X.m_Rows → S.m_RowPtr.getD r 0 =
        ((List.range r).map
          (fun i => (mergeRow (X.rowEntries i) (Y.rowEntries i)).length)).sum) ∧
      S.m_RowPtr.getD X.m_Rows 0 = S.m_Values.length ∧
      S.m_ColsIdx.length = S.m_Values.length ∧
      (∀ r, r < X.m_Rows → ∀ i, S.m_RowPtr.getD r 0 ≤ i → i < S.m_RowPtr.getD (r + 1) 0 →
        S.m_ColsIdx.getD i 0 < X.m_Cols ∧
        (i + 1 < S.m_RowPtr.getD (r + 1) 0 →
          S.m_ColsIdx.getD i 0 < S.m_ColsIdx.getD (i + 1) 0)) ∧
      S.CSRInvariant := by
  obtain ⟨S, hS, hSr, hSc, hinv, hrep, hrows, _⟩ := hX.sum_spec hY hr hc
  have hlen : (List.zipWith mergeRow X.rowsList Y.rowsList).length = X.m_Rows := by
    rw [← hSr]; exact hrep.1.symm
  have hrowz : ∀ r, r < X.m_Rows → (List.zipWith mergeRow X.rowsList Y.rowsList)[r]? =
      some (mergeRow (X.rowEntries r) (Y.rowEntries r)) := fun r hr1 =>
    zipWith_mergeRow_getElem? (SparseMatrix.rowsList_getElem? X hr1)
      (SparseMatrix.rowsList_getElem? Y (by rw [← hr]; exact hr1))
  have hptr : ∀ r, r ≤ X.m_Rows → S.m_RowPtr.getD r 0 =
      rowsOffset (List.zipWith mergeRow X.rowsList Y.rowsList) r := by
    intro r hr1
    rw [List.getD_eq_getElem?_getD, hrep.rowPtr_get (by rw [hlen]; exact hr1)]
    rfl
  have hstep : ∀ r, r < X.m_Rows → S.m_RowPtr.getD (r + 1) 0 =
      S.m_RowPtr.getD r 0 + (mergeRow (X.rowEntries r) (Y.rowEntries r)).length := by
    intro r hr1
    rw [hptr (r + 1) (by omega), hptr r (by omega), rowsOffset_succ (hrowz r hr1)]
  have hsum : ∀ r, r ≤ X.m_Rows → S.m_RowPtr.getD r 0 =
      ((List.range r).map
        (fun i => (mergeRow (X.rowEntries i) (Y.rowEntries i)).length)).sum := by
    intro r
    induction r with
    | zero => intro _; simpa using hinv.2.1
    | succ r ih =>
      intro hr1
      rw [hstep r (by omega), ih (by omega), List.range_succ, List.map_append, List.sum_append]
      simp
  obtain ⟨h1, h2, h3, h4, h5, h6⟩ := hinv
  refine ⟨S, hS, hSr, hSc, by rw [h1, hSr], h2, hstep, hsum, by rw [← hSr]; exact h4, h5, ?_,
    ⟨h1, h2, h3, h4, h5, h6⟩⟩
  intro r hr1 i hlo hhi
  have := h6 r (by rw [hSr]; exact hr1) i hhi hlo
  rw [hSc] at this
  exact this

/-- Witness of C16 on `[[0, 2], [3, 0]] + [[1, 4], [0, 5]]`, both built from raw arrays. -/
theorem C16_sum_invariant_witness :
    squareX.CSRInvariant ∧ squareY.CSRInvariant ∧ squareX.m_Rows = squareY.m_Rows ∧
    squareX.m_Cols = squareY.m_Cols ∧
    squareX.add squareY = .ok (SparseMatrix.ofArrays [1, 6, 3, 5] [0, 1, 0, 1] [0, 2, 4] 2 2) ∧
    ∃ S, squareX.add squareY = .ok S ∧ S.m_Rows = squareX.m_Rows ∧
      S.m_Cols = squareX.m_Cols ∧
      S.m_RowPtr.length = squareX.m_Rows + 1 ∧ S.m_RowPtr.getD 0 0 = 0 ∧
      (∀ r, r < squareX.m_Rows → S.m_RowPtr.getD (r + 1) 0 =
        S.m_RowPtr.getD r 0 +
          (mergeRow (squareX.rowEntries r) (squareY.rowEntries r)).length) ∧
      (∀ r, r ≤ squareX.m_Rows → S.m_RowPtr.getD r 0 =
        ((List.range r).map
          (fun i => (mergeRow (squareX.rowEntries i) (squareY.rowEntries i)).length)).sum) ∧
      S.m_RowPtr.getD squareX.m_Rows 0 = S.m_Values.length ∧
      S.m_ColsIdx.length = S.m_Values.length ∧
      (∀ r, r < squareX.m_Rows → ∀ i, S.m_RowPtr.getD r 0 ≤ i →
        i < S.m_RowPtr.getD (r + 1) 0 →
        S.m_ColsIdx.getD i 0 < squareX.m_Cols ∧
        (i + 1 < S.m_RowPtr.getD (r + 1) 0 →
          S.m_ColsIdx.getD i 0 < S.m_ColsIdx.getD (i + 1) 0)) ∧
      S.CSRInvariant :=
  ⟨by decide, by decide, by decide, by decide, by decide,
    C16_sum_invariant squareX squareY (by decide) (by decide) (by decide) (by decide)⟩

/-- Claim C17. Sparse addition never prunes: for operands `X` and `Y` of equal shape that
satisfy the CSR invariant, row `r` of `X + Y` is the merge of row `r` of `X` and of `Y`; it
stores no column twice, and a column is stored in it exactly when it is stored in row `r`
of `X` or of `Y`; where both store the column the entry holds the sum of the two values, so
that a sum equal to zero is stored as a value `0`. For `[[1]] + [[-1]]` the result stores
the single value `0`. -/
theorem C17_sum_union (X Y : SparseMatrix T) (hX : X.CSRInvariant) (hY : Y.CSRInvariant)
    (hr : X.m_Rows = Y.m_Rows) (hc : X.m_Cols = Y.m_Cols) :
    (∃ S, X.add Y = .ok S ∧ ∀ r, r < X.m_Rows →
      S.rowEntries r = mergeRow (X.rowEntries r) (Y.rowEntries r) ∧
      ((S.rowEntries r).map Prod.fst).Nodup ∧
      (∀ c, (∃ p ∈ S.rowEntries r, p.1 = c) ↔
        ((∃ p ∈ X.rowEntries r, p.1 = c) ∨ (∃ q ∈ Y.rowEntries r, q.1 = c))) ∧
      (∀ c x y, (c, x) ∈ X.rowEntries r → (c, y) ∈ Y.rowEntries r →
        (c, x + y) ∈ S.rowEntries r ∧ (x + y = 0 → (0 : T) ∈ S.m_Values))) ∧
    (do
      let a ← SparseMatrix.ofMatrix narrowA
      let b ← SparseMatrix.ofMatrix negA
      a.add b) = .ok (SparseMatrix.ofArrays [0] [0] [0, 1] 1 1) := by
  refine ⟨?_, by decide⟩
  obtain ⟨S, hS, hSr, hSc, hinv, _, hrows, _⟩ := hX.sum_spec hY hr hc
  refine ⟨S, hS, ?_⟩
  intro r hr1
  have hXs := (hX.rowEntries_sorted hr1).1
  have hYs := (hY.rowEntries_sorted (by rw [← hr]; exact hr1)).1
  have hSs := (hinv.rowEntries_sorted (by rw [hSr]; exact hr1)).1
  refine ⟨hrows r hr1, hSs.nodup_cols, ?_, ?_⟩
  · intro c
    rw [hrows r hr1]
    exact mergeRow_col_iff _ _ c
  · intro c x y hx hy
    have hmem : (c, x + y) ∈ S.rowEntries r := by
      rw [hrows r hr1]
      exact mergeRow_mem_sum hXs hYs hx hy
    refine ⟨hmem, ?_⟩
    intro h0
    have := SparseMatrix.mem_values_of_mem_rowEntries hmem
    rw [h0] at this
    exact this

/-- Witness of C17 on `[[1]] + [[-1]]`, both built from raw arrays: the sum stores the
value `0` at column `0`. -/
theorem C17_sum_union_witness :
    narrowX.CSRInvariant ∧
    (SparseMatrix.ofArrays [-1] [0] [0, 1] 1 1 : SparseMatrix Int).CSRInvariant ∧
    narrowX.add (SparseMatrix.ofArrays [-1] [0] [0, 1] 1 1) =
      .ok (SparseMatrix.ofArrays [0] [0] [0, 1] 1 1) ∧
    ((∃ S, narrowX.add (SparseMatrix.ofArrays [-1] [0] [0, 1] 1 1) = .ok S ∧
      ∀ r, r < narrowX.m_Rows →
      S.rowEntries r = mergeRow (narrowX.rowEntries r)
        ((SparseMatrix.ofArrays [-1] [0] [0, 1] 1 1 : SparseMatrix Int).rowEntries r) ∧
      ((S.rowEntries r).map Prod.fst).Nodup ∧
      (∀ c, (∃ p ∈ S.rowEntries r, p.1 = c) ↔
        ((∃ p ∈ narrowX.rowEntries r, p.1 = c) ∨
          (∃ q ∈ (SparseMatrix.ofArrays [-1] [0] [0, 1] 1 1 :
            SparseMatrix Int).rowEntries r, q.1 = c))) ∧
      (∀ c x y, (c, x) ∈ narrowX.rowEntries r →
        (c, y) ∈ (SparseMatrix.ofArrays [-1] [0] [0, 1] 1 1 :
          SparseMatrix Int).rowEntries r →
        (c, x + y) ∈ S.rowEntries r ∧ (x + y = 0 → (0 : Int) ∈ S.m_Values))) ∧
    (do
      let a ← SparseMatrix.ofMatrix narrowA
      let b ← SparseMatrix.ofMatrix negA
      a.add b) = .ok (SparseMatrix.ofArrays [0] [0] [0, 1] 1 1)) :=
  ⟨by decide, by decide, by decide,
    C17_sum_union narrowX (SparseMatrix.ofArrays [-1] [0] [0, 1] 1 1) (by decide) (by decide)
      (by decide) (by decide)⟩

/-- Claim C18, evaluated at an input on which it fails. `X = [[1], [2]]` (`2 × 1`) and
`Y = [[5, 0, 7]]` (`1 × 3`) satisfy the CSR invariant and `X.cols == Y.rows`, but the
accumulator of `operator*` has `X.cols = 1` entries and the entry of `Y` at column `2` is
added out of its bounds: `X * Y` has no defined result, hence no pruned, well-formed CSR
matrix of shape `2 × 3` is returned. -/
theorem C18_product_invariant :
    columnX.CSRInvariant ∧ rowY.CSRInvariant ∧ columnX.m_Cols = rowY.m_Rows ∧
    columnX.mul rowY = .error .undefined ∧
    ¬ ∃ S, columnX.mul rowY = .ok S ∧ S.CSRInvariant ∧ ∀ v ∈ S.m_Values, v ≠ 0 := by
  refine ⟨by decide, by decide, by decide, by decide, ?_⟩
  rintro ⟨S, hS, _⟩
  have h : columnX.mul rowY = .error .undefined := by decide
  rw [h] at hS
  cases hS

/-- Claim C19. For every sparse matrix `M` that satisfies the CSR invariant (built from raw
arrays or not, with stored zeros or not), `GetStandardMatrix` returns a dense matrix of the
shape of `M` whose entry at every `r < rows`, `c < cols` is the value that the lookup
`M(r, c)` returns. -/
theorem C19_standard_lookup (M : SparseMatrix T) (hM : M.CSRInvariant) :
    ∃ D, M.GetStandardMatrix = .ok D ∧ D.m_Rows = M.m_Rows ∧ D.m_Cols = M.m_Cols ∧
      ∀ r c, r < M.m_Rows → c < M.m_Cols →
        ∃ v, M.get r c = .ok v ∧ D.get r c = .ok v := by
  have hstd := hM.represents.standard_eq hM.rows_cols_lt
  have hshape := Matrix.tabulate_shaped M.m_Rows M.m_Cols
    (fun r c => rowDense (M.rowsList.getD r []) c)
  refine ⟨_, hstd, hshape.2.1, hshape.2.2, ?_⟩
  intro r c hr1 hc1
  refine ⟨_, hM.represents.get_eq hr1 hc1, ?_⟩
  rw [Matrix.get_spec hshape.1 (by rw [hshape.2.1]; exact hr1) (by rw [hshape.2.2]; exact hc1),
    Matrix.tabulate_entry _ _ _ hr1 hc1]
  congr 1
  have hrow : M.rowsList.getD r [] = M.rowEntries r := by
    rw [List.getD_eq_getElem?_getD, SparseMatrix.rowsList_getElem? M hr1]; rfl
  rw [hrow]
  exact rowDense_eq_rowLookup _ c (hM.rowEntries_sorted hr1).1

/-- Witness of C19 on the raw arrays `values = [0, 3]`, `col_idx = [1, 0]`,
`row_ptr = [0, 1, 2]` of a `2 × 2` matrix that holds a stored zero. -/
theorem C19_standard_lookup_witness :
    (SparseMatrix.ofArrays [0, 3] [1, 0] [0, 1, 2] 2 2 : SparseMatrix Int).CSRInvariant ∧
    ∃ D, (SparseMatrix.ofArrays [0, 3] [1, 0] [0, 1, 2] 2 2 :
        SparseMatrix Int).GetStandardMatrix = .ok D ∧
      D.m_Rows = (SparseMatrix.ofArrays [0, 3] [1, 0] [0, 1, 2] 2 2 :
        SparseMatrix Int).m_Rows ∧
      D.m_Cols = (SparseMatrix.ofArrays [0, 3] [1, 0] [0, 1, 2] 2 2 :
        SparseMatrix Int).m_Cols ∧
      ∀ r c, r < (SparseMatrix.ofArrays [0, 3] [1, 0] [0, 1, 2] 2 2 :
          SparseMatrix Int).m_Rows →
        c < (SparseMatrix.ofArrays [0, 3] [1, 0] [0, 1, 2] 2 2 : SparseMatrix Int).m_Cols →
        ∃ v, (SparseMatrix.ofArrays [0, 3] [1, 0] [0, 1, 2] 2 2 :
          SparseMatrix Int).get r c = .ok v ∧ D.get r c = .ok v :=
  ⟨by decide, C19_standard_lookup (SparseMatrix.ofArrays [0, 3] [1, 0] [0, 1, 2] 2 2)
    (by decide)⟩

/-- Claim C20. For the empty `0 × 0` sparse matrix (`rows == cols == 0`, `row_ptr == [0]`,
no stored entries) `GetDeterminant` returns `0`: the dense conversion is the `0 × 0`
matrix, `DeterminantRecursive` takes neither the `n == 1` nor the `n == 2` base case, and
its cofactor loop over `0 .. n-1` runs zero times. -/
theorem C20_empty_determinant :
    (SparseMatrix.ofArrays ([] : List T) [] [0] 0 0).CSRInvariant ∧
    (SparseMatrix.ofArrays ([] : List T) [] [0] 0 0).GetStandardMatrix =
      .ok (Matrix.fill 0 0 0) ∧
    SparseMatrix.DeterminantRecursive (Matrix.fill 0 0 (0 : T)) = .ok 0 ∧
    (SparseMatrix.ofArrays ([] : List T) [] [0] 0 0).GetDeterminant = .ok 0 := by
  have hstd : (SparseMatrix.ofArrays ([] : List T) [] [0] 0 0).GetStandardMatrix =
      .ok (Matrix.fill 0 0 0) := by
    simp [SparseMatrix.GetStandardMatrix, SparseMatrix.ofArrays, forLoop, forLoopAux]
  have hdet : SparseMatrix.DeterminantRecursive (Matrix.fill 0 0 (0 : T)) = .ok 0 :=
    SparseMatrix.DeterminantRecursive_zero rfl
  refine ⟨?_, hstd, hdet, ?_⟩
  · simp [SparseMatrix.CSRInvariant, SparseMatrix.ofArrays]
  · have hsq : (SparseMatrix.ofArrays ([] : List T) [] [0] 0 0).m_IsSquare = true := by
      simp [SparseMatrix.ofArrays]
    simp only [SparseMatrix.GetDeterminant, hsq, not_true_eq_false, if_false]
    rw [hstd]
    exact hdet

end LinAlg
